import Mathlib

/-!
# Ink / Ethereum safety monitor: verification development

A shallow embedding of the Go sources of the monitor

* `internal/emergency/emergency.go` (the emergency manager),
* `internal/client/client.go` (the typed decoders of the raw call layer),
* `internal/contracts/*.go` (selectors and the contract accounts),
* `pkg/retry/retry.go` (the bounded retry helper),

followed by theorems about these definitions.

Conventions of the embedding:

* Go `error` values are terms of `GoError`; a nil error is `none : Option GoError`.
* Everything a function obtains from outside the process (the answer of an RPC node, the
  result of submitting the withdrawal, the wall clock, the state of a `context.Context`) is an
  explicit input of the embedded function.
* Everything a function does to the outside (calling the delegate, writing a log line,
  waiting for the retry delay) is recorded as an event in a returned list.
* `float64` values are terms of `F64`: NaN, the two infinities, or a finite value given by the
  rational number it denotes.  Go comparisons of floats are exact on these values.
-/

namespace InkEthMonitor

/-! ## Go errors -/

/-- Go error values.  `leaf` is an error built without `%w`; `wrap pre inner` is
`fmt.Errorf(pre + "%w", inner)` for a non-nil `inner`; `wrapNil pre` is the same call when the
wrapped operand is a nil error. -/
inductive GoError where
  | leaf (text : String)
  | wrap (pre : String) (inner : GoError)
  | wrapNil (pre : String)
  deriving DecidableEq, Repr

namespace GoError

/-- The text of `err.Error()`. -/
def message : GoError → String
  | leaf t => t
  | wrap p e => p ++ e.message
  | wrapNil p => p ++ "%!w(<nil>)"

/-- The result of `errors.Unwrap(err)`. -/
def unwrap : GoError → Option GoError
  | leaf _ => none
  | wrap _ e => some e
  | wrapNil _ => none

end GoError

/-! ## float64 -/

/-- Values of Go `float64`: NaN, plus and minus infinity, or a finite value, represented by
the rational number it denotes (both zeros are `fin 0`). -/
inductive F64 where
  | nan
  | posInf
  | negInf
  | fin (q : ℚ)
  deriving DecidableEq

namespace F64

/-- Go `a == b` on float64: false as soon as one side is NaN. -/
def eq : F64 → F64 → Bool
  | fin a, fin b => decide (a = b)
  | posInf, posInf => true
  | negInf, negInf => true
  | _, _ => false

/-- Go `a < b` on float64: false as soon as one side is NaN. -/
def lt : F64 → F64 → Bool
  | fin a, fin b => decide (a < b)
  | negInf, fin _ => true
  | negInf, posInf => true
  | fin _, posInf => true
  | _, _ => false

/-- Go `a > b` on float64. -/
def gt (a b : F64) : Bool := lt b a

/-- The float64 constant `1.0`. -/
def one : F64 := fin 1

/-- The float64 constant `0.05`: the binary64 value nearest to 1/20, which is
`0x1.999999999999ap-5 = 3602879701896397 / 2^56`. -/
def c0_05 : F64 := fin (3602879701896397 / 72057594037927936)

/-- The float64 constant `2500`. -/
def c2500 : F64 := fin 2500

/-- The binary64 value nearest to 0.0500001, `0x1.9999cf497ecf1p-5`. -/
def c0_0500001 : F64 := fin (7205773815311601 / 144115188075855872)

/-- The binary64 value nearest to 2499.99, `0x1.387fae147ae14p+11`. -/
def c2499_99 : F64 := fin (1374384037161861 / 549755813888)

end F64

/-! ## math/big: parsing a base-10 integer -/

/-- The value of a decimal digit character, if it is one. -/
def digitVal (c : Char) : Option Nat :=
  if c.toNat ≥ 48 ∧ c.toNat ≤ 57 then some (c.toNat - 48) else none

/-- Scan of the digits of a base-10 natural number: every character has to be a decimal
digit; `acc` is the value read so far. -/
def scanDigits : List Char → Nat → Option Nat
  | [], acc => some acc
  | c :: cs, acc =>
    match digitVal c with
    | none => none
    | some d => scanDigits cs (acc * 10 + d)

/-- `new(big.Int).SetString(s, 10)`: an optional sign `+` or `-`, then at least one decimal
digit, and nothing else.  `none` stands for `ok == false`. -/
def bigIntSetString10 (s : String) : Option Int :=
  match s.data with
  | [] => none
  | '-' :: cs => if cs.isEmpty then none else (scanDigits cs 0).map (fun n => - (n : Int))
  | '+' :: cs => if cs.isEmpty then none else (scanDigits cs 0).map (fun n => (n : Int))
  | cs => (scanDigits cs 0).map (fun n => (n : Int))

/-! ## internal/emergency -/

/-- Modelled from the spec: the declaration of `config.EmergencyConfig` is not among the
sources (`config.go` does not contain it); the fields are the ones `emergency.go` reads, which
are the "emergency-feature flag + signing key + multisig addresses + withdrawal amount" of the
configuration surface. -/
structure EmergencyConfig where
  Enabled : Bool
  PrivateKey : String
  SafeAddress : String
  ArgusAddress : String
  WithdrawAmount : String
  deriving DecidableEq, Repr

/-- A `*contracts.Delegate` as built by `contracts.NewDelegate(rpcUrl, key, safe, argus)`. -/
structure Delegate where
  rpcUrl : String
  privateKey : String
  safe : String
  argus : String
  deriving DecidableEq, Repr

/-- Instants of `time.Time`; `0` is the zero value `time.Time{}`. -/
abbrev Time := Nat

/-- Struct `Manager` of `emergency.go` (the logger and the mutex carry no data). A nil
`delegate` pointer is `none`. -/
structure Manager where
  cfg : EmergencyConfig
  delegate : Option Delegate
  triggered : Bool
  lastTriggerTime : Time
  deriving DecidableEq

/-- The alert reason computed by `CheckAlert`: the source builds a text from the rule that
fired (and, for the two numeric rules, from the value); the embedding keeps the rule and the
value rather than the formatted text. -/
inductive AlertReason where
  | none
  | superchainPaused
  | optimismPortalPaused
  | standardBridgePaused
  | tydroPoolPaused
  | priceSpread (value : F64)
  | remainingSupply (value : F64)
  deriving DecidableEq

/-- What a call of the emergency manager does to the outside world. -/
inductive Event where
  /-- The line logger.Warn "emergency response already triggered, skipping". -/
  | logSkip (reason : AlertReason) (lastTriggerTime : Time)
  /-- The line logger.Warn "emergency response triggered, starting withdrawal". -/
  | logTrigger (reason : AlertReason) (withdrawAmount : String)
  /-- A call `m.delegate.WithdrawETHFromGatewayV3(amount)` and the error it returned. -/
  | withdraw (d : Delegate) (amount : Int) (result : Option GoError)
  /-- The line logger.Error "emergency withdrawal failed". -/
  | logWithdrawFailed (err : GoError)
  /-- The line logger.Info "emergency withdrawal succeeded". -/
  | logWithdrawOk (reason : AlertReason) (amount : String) (triggerTime : Time)
  deriving DecidableEq

/-- What one call of `CheckAlert` reads from outside the process: the error the delegate
returns if it is asked to withdraw during this call (`none` is a nil error, a submitted
transaction), and the value of `time.Now()`. -/
structure Env where
  withdrawResult : Option GoError
  now : Time

/-- The result of a call on a manager: the manager afterwards, the returned error, and the
events of the call in order. -/
structure Outcome where
  m : Manager
  err : Option GoError
  events : List Event

/-- Method `executeEmergencyWithdraw` (run under `m.mu`).  The result is `none` when the
delegate would be called through a nil pointer: `NewManager` never builds an enabled manager
without a delegate, and what the source does in that state (a panic at `d.safe`) is not
given a value. -/
def executeEmergencyWithdraw (m : Manager) (env : Env) (reason : AlertReason) :
    Option Outcome :=
  if m.triggered then
    some ⟨m, none, [Event.logSkip reason m.lastTriggerTime]⟩
  else
    match bigIntSetString10 m.cfg.WithdrawAmount with
    | none =>
      some ⟨m, some (GoError.leaf ("无法解析提款金额: " ++ m.cfg.WithdrawAmount)),
        [Event.logTrigger reason m.cfg.WithdrawAmount]⟩
    | some amount =>
      match m.delegate with
      | none => none
      | some d =>
        match env.withdrawResult with
        | some e =>
          some ⟨m, some (GoError.wrap "应急提款失败: " e),
            [Event.logTrigger reason m.cfg.WithdrawAmount,
             Event.withdraw d amount (some e),
             Event.logWithdrawFailed e]⟩
        | none =>
          some ⟨{ m with triggered := true, lastTriggerTime := env.now }, none,
            [Event.logTrigger reason m.cfg.WithdrawAmount,
             Event.withdraw d amount none,
             Event.logWithdrawOk reason m.cfg.WithdrawAmount env.now]⟩

/-- The `switch metricName` of `CheckAlert`: the pair `(shouldTrigger, alertReason)` it
leaves in the two local variables. -/
def alertRule (metricName : String) (value : F64) : Bool × AlertReason :=
  if metricName = "ink_eth_monitor_superchain_paused" then
    if F64.eq value F64.one then (true, AlertReason.superchainPaused)
    else (false, AlertReason.none)
  else if metricName = "ink_eth_monitor_optimism_portal_paused" then
    if F64.eq value F64.one then (true, AlertReason.optimismPortalPaused)
    else (false, AlertReason.none)
  else if metricName = "ink_eth_monitor_standard_bridge_paused" then
    if F64.eq value F64.one then (true, AlertReason.standardBridgePaused)
    else (false, AlertReason.none)
  else if metricName = "ink_eth_monitor_tydro_pool_paused" then
    if F64.eq value F64.one then (true, AlertReason.tydroPoolPaused)
    else (false, AlertReason.none)
  else if metricName = "ink_eth_monitor_oracle_price_spread" then
    if F64.gt value F64.c0_05 then (true, AlertReason.priceSpread value)
    else (false, AlertReason.none)
  else if metricName = "ink_eth_monitor_remaining_supply" then
    if F64.lt value F64.c2500 then (true, AlertReason.remainingSupply value)
    else (false, AlertReason.none)
  else (false, AlertReason.none)

/-- Method `CheckAlert`. -/
def CheckAlert (m : Manager) (env : Env) (metricName : String) (value : F64) :
    Option Outcome :=
  if !m.cfg.Enabled then
    some ⟨m, none, []⟩
  else
    let r := alertRule metricName value
    if r.1 then executeEmergencyWithdraw m env r.2
    else some ⟨m, none, []⟩

/-- Function `NewManager`.  `newDelegate` stands for `contracts.NewDelegate`, which dials the
node and parses the key and ends the process with `log.Fatal` when either fails: it yields
`none` in that case, and then `NewManager` does not return (`none`). -/
def NewManager (cfg : EmergencyConfig) (inkRPC : String)
    (newDelegate : String → String → String → String → Option Delegate) :
    Option (Except GoError Manager) :=
  if !cfg.Enabled then
    some (.ok ⟨cfg, none, false, 0⟩)
  else if cfg.PrivateKey = "" then
    some (.error (GoError.leaf "应急响应配置错误: private_key 不能为空"))
  else if cfg.SafeAddress = "" then
    some (.error (GoError.leaf "应急响应配置错误: safe_address 不能为空"))
  else if cfg.ArgusAddress = "" then
    some (.error (GoError.leaf "应急响应配置错误: argus_address 不能为空"))
  else if cfg.WithdrawAmount = "" then
    some (.error (GoError.leaf "应急响应配置错误: withdraw_amount 不能为空"))
  else
    match newDelegate inkRPC cfg.PrivateKey cfg.SafeAddress cfg.ArgusAddress with
    | none => none
    | some d => some (.ok ⟨cfg, some d, false, 0⟩)

/-- Method `Reset`. -/
def Reset (m : Manager) : Manager :=
  { m with triggered := false, lastTriggerTime := 0 }

/-- One call of `CheckAlert` in a sequence: its two arguments and what it reads from
outside. -/
structure Call where
  metricName : String
  value : F64
  env : Env

/-- A finite sequence of `CheckAlert` calls on one manager, nothing else touching the manager
in between (in particular no `Reset`): the outcomes of the calls in order, or `none` if one of
them panics. -/
def runCalls (m : Manager) : List Call → Option (List Outcome)
  | [] => some []
  | c :: cs =>
    match CheckAlert m c.env c.metricName c.value with
    | none => none
    | some o => (runCalls o.m cs).map (fun os => o :: os)

/-- Whether an event is a call of the delegate. -/
def Event.isWithdraw : Event → Bool
  | Event.withdraw _ _ _ => true
  | _ => false

/-- Whether an event is a call of the delegate that returned a nil error. -/
def Event.isWithdrawOk : Event → Bool
  | Event.withdraw _ _ none => true
  | _ => false

/-- All events of a sequence of outcomes, in order. -/
def allEvents (os : List Outcome) : List Event := os.flatMap (fun o => o.events)

/-! ## internal/client: the typed decoders -/

/-- Bytes. -/
abbrev Byte := Fin 256

/-- The node behind a `ContractCaller`: `c.client.CallContract(ctx, msg, nil)` for the message
with target `contractAddr` and calldata `data` yields the returned bytes or an error. -/
abbrev Node := String → List Byte → Except GoError (List Byte)

/-- `new(big.Int).SetBytes(buf)`: the bytes of `buf` read as one big-endian unsigned integer;
`acc` is the value of the bytes read so far. -/
def setBytesAux : List Byte → Nat → Nat
  | [], acc => acc
  | b :: bs, acc => setBytesAux bs (acc * 256 + b.val)

/-- `new(big.Int).SetBytes(buf)`. -/
def setBytes (buf : List Byte) : Nat := setBytesAux buf 0

/-- Method `ContractCaller.CallBool`. -/
def CallBool (node : Node) (contractAddr : String) (data : List Byte) : Except GoError Bool :=
  match node contractAddr data with
  | .error e => .error (GoError.wrap "调用合约失败: " e)
  | .ok result =>
    if h : result.length < 32 then
      .error (GoError.leaf ("返回数据长度不足: " ++ toString result.length))
    else
      .ok (decide (result.get ⟨31, by omega⟩ = 1))

/-- Method `ContractCaller.CallUint256`. -/
def CallUint256 (node : Node) (contractAddr : String) (data : List Byte) :
    Except GoError Int :=
  match node contractAddr data with
  | .error e => .error (GoError.wrap "调用合约失败: " e)
  | .ok result =>
    if result.length < 32 then
      .error (GoError.leaf ("返回数据长度不足: " ++ toString result.length))
    else
      .ok (setBytes result : Nat)

/-- Method `ContractCaller.CallInt256`. -/
def CallInt256 (node : Node) (contractAddr : String) (data : List Byte) :
    Except GoError Int :=
  CallUint256 node contractAddr data

/-- Method `ContractCaller.CallRaw`. -/
def CallRaw (node : Node) (contractAddr : String) (data : List Byte) :
    Except GoError (List Byte) :=
  match node contractAddr data with
  | .error e => .error (GoError.wrap "调用合约失败: " e)
  | .ok result => .ok result

/-! ## pkg/retry -/

/-- What `retry.Do` observes of its `context.Context`: whether `ctx.Done()` is ready at the
check before attempt `i`, whether the `select` of the wait after attempt `i` takes the
`ctx.Done()` branch (rather than the timer), and the value of `ctx.Err()`. -/
structure Ctx where
  doneBefore : Nat → Bool
  doneInWait : Nat → Bool
  err : GoError

/-- A context that is never cancelled. -/
def Ctx.background : Ctx := ⟨fun _ => false, fun _ => false, GoError.leaf "context canceled"⟩

/-- The result of `retry.Do`: the returned error, the state the calls of `fn` left behind,
how often `fn` was called, and how many delay waits ran to the end of the delay. -/
structure DoResult (σ : Type) where
  err : Option GoError
  state : σ
  calls : Nat
  waits : Nat

/-- The final statement of `Do`: `fmt.Errorf("重试%d次后仍然失败: %w", maxRetries, err)`,
where `err` still is nil if `fn` was never called. -/
def exhaustedError (maxRetries : Int) (err : Option GoError) : GoError :=
  match err with
  | some e => GoError.wrap ("重试" ++ toString maxRetries ++ "次后仍然失败: ") e
  | none => GoError.wrapNil ("重试" ++ toString maxRetries ++ "次后仍然失败: ")

/-- The `for i := 0; i <= maxRetries; i++` loop of `Do`, entered at the loop condition with
counter `i`; `fn` is a Go closure, a function of the state `σ` it captures.  `fuel` bounds the
number of iterations; with no fuel left the loop is abandoned as if exhausted. -/
def doLoop {σ : Type} (ctx : Ctx) (fn : σ → Option GoError × σ) (maxRetries : Int) :
    Nat → Nat → σ → Option GoError → Nat → Nat → DoResult σ
  | 0, _, s, err, calls, waits => ⟨some (exhaustedError maxRetries err), s, calls, waits⟩
  | fuel + 1, i, s, err, calls, waits =>
    if (i : Int) ≤ maxRetries then
      if ctx.doneBefore i then
        ⟨some ctx.err, s, calls, waits⟩
      else
        match fn s with
        | (none, s1) => ⟨none, s1, calls + 1, waits⟩
        | (some e, s1) =>
          if (i : Int) = maxRetries then
            ⟨some (exhaustedError maxRetries (some e)), s1, calls + 1, waits⟩
          else if ctx.doneInWait i then
            ⟨some ctx.err, s1, calls + 1, waits⟩
          else
            doLoop ctx fn maxRetries fuel (i + 1) s1 (some e) (calls + 1) (waits + 1)
    else
      ⟨some (exhaustedError maxRetries err), s, calls, waits⟩

/-- Function `retry.Do(ctx, fn, maxRetries, delay, logger)` started with the closure state
`s`.  The loop runs at most `maxRetries + 1` times, so `maxRetries + 2` units of fuel always
reach its end. -/
def Do {σ : Type} (ctx : Ctx) (fn : σ → Option GoError × σ) (maxRetries : Int) (s : σ) :
    DoResult σ :=
  doLoop ctx fn maxRetries ((maxRetries + 2).toNat) 0 s none 0 0

/-- The closure state after `k` calls of `fn`. -/
def stateAfter {σ : Type} (fn : σ → Option GoError × σ) : Nat → σ → σ
  | 0, s => s
  | k + 1, s => stateAfter fn k (fn s).2

/-! ## Keccak-256 (`crypto.Keccak256` of go-ethereum) -/

/-- One step of the linear feedback shift register of the round constants, on its 8-bit
state (feedback polynomial `x^8 + x^6 + x^5 + x^4 + 1`). -/
def lfsrStep (r : Nat) : Nat := ((r <<< 1) ^^^ ((r >>> 7) * 113)) % 256

/-- The round constant produced from the register state `r`, and the state after it: seven
steps, step `j` deciding bit `2^j - 1` of the constant. -/
def iotaConstant (r : Nat) : Nat × Nat :=
  (List.range 7).foldl
    (fun (acc : Nat × Nat) (j : Nat) =>
      let r1 := lfsrStep acc.2
      (if r1 &&& 2 = 0 then acc.1 else acc.1 ^^^ (1 <<< ((1 <<< j) - 1)), r1))
    (0, r)

/-- The round constants of `n` consecutive rounds, from the register state `r`. -/
def roundConstantsFrom : Nat → Nat → List Nat
  | 0, _ => []
  | n + 1, r => (iotaConstant r).1 :: roundConstantsFrom n (iotaConstant r).2

/-- The 24 round constants of Keccak-f[1600]. -/
def roundConstants : List Nat := roundConstantsFrom 24 1

/-- The walk that defines the rotation offsets of the rho step: it starts at lane `(1, 0)`,
moves from `(x, y)` to `(y, 2 x + 3 y)` and gives the lane reached at time `t` the offset
`(t + 1)(t + 2) / 2`; lanes are listed by their index `x + 5 y`. -/
def rhoWalk : Nat → Nat → Nat → Nat → List (Nat × Nat)
  | 0, _, _, _ => []
  | n + 1, t, x, y =>
    (x + 5 * y, ((t + 1) * (t + 2) / 2) % 64) :: rhoWalk n (t + 1) y ((2 * x + 3 * y) % 5)

/-- The rotation offset of the lane with index `i`; lane `(0, 0)` is not on the walk and is
not rotated. -/
def rotationOffset (i : Nat) : Nat := ((rhoWalk 24 0 1 0).lookup i).getD 0

/-- Rotation of a 64-bit lane to the left by `n < 64` bits. -/
def rotl64 (x n : Nat) : Nat := ((x <<< n) ||| (x >>> (64 - n))) % 2 ^ 64

/-- Lane `(x mod 5, y mod 5)` of a state of 25 lanes, stored at index `x + 5 y`. -/
def lane (s : List Nat) (x y : Nat) : Nat := s.getD (x % 5 + 5 * (y % 5)) 0

/-- Column parity of the theta step. -/
def thetaC (s : List Nat) (x : Nat) : Nat :=
  lane s x 0 ^^^ lane s x 1 ^^^ lane s x 2 ^^^ lane s x 3 ^^^ lane s x 4

/-- The word every lane of column `x` is combined with in the theta step. -/
def thetaD (s : List Nat) (x : Nat) : Nat :=
  thetaC s (x + 4) ^^^ rotl64 (thetaC s (x + 1)) 1

/-- Step theta. -/
def theta (s : List Nat) : List Nat :=
  (List.range 25).map (fun i => s.getD i 0 ^^^ thetaD s (i % 5))

/-- Steps rho and pi: the lane that ends at `(X, Y)` is lane `(X + 3 Y, X)` rotated by its
offset. -/
def rhoPi (s : List Nat) : List Nat :=
  (List.range 25).map (fun i =>
    let x := (i % 5 + 3 * (i / 5)) % 5
    let y := i % 5
    rotl64 (lane s x y) (rotationOffset (x + 5 * y)))

/-- Step chi. -/
def chi (s : List Nat) : List Nat :=
  (List.range 25).map (fun i =>
    lane s (i % 5) (i / 5) ^^^
      (((2 ^ 64 - 1) ^^^ lane s (i % 5 + 1) (i / 5)) &&& lane s (i % 5 + 2) (i / 5)))

/-- Step iota with round constant `rc`. -/
def iota (rc : Nat) (s : List Nat) : List Nat :=
  match s with
  | [] => []
  | a :: rest => (a ^^^ rc) :: rest

/-- One round of Keccak-f[1600]. -/
def keccakRound (s : List Nat) (rc : Nat) : List Nat := iota rc (chi (rhoPi (theta s)))

/-- The permutation Keccak-f[1600]. -/
def keccakF (s : List Nat) : List Nat := roundConstants.foldl keccakRound s

/-- The little-endian value of a list of bytes. -/
def leWord : List Byte → Nat
  | [] => 0
  | b :: bs => b.val + 256 * leWord bs

/-- The `n` low bytes of `w`, little-endian. -/
def wordBytes : Nat → Nat → List Byte
  | 0, _ => []
  | n + 1, w => ⟨w % 256, Nat.mod_lt _ (by decide)⟩ :: wordBytes n (w / 256)

/-- The first `k` consecutive chunks of `n` bytes of a list. -/
def chunks (n : Nat) : Nat → List Byte → List (List Byte)
  | 0, _ => []
  | k + 1, bs => bs.take n :: chunks n k (bs.drop n)

/-- Keccak padding `pad10*1` for the rate of 136 bytes, with the domain byte `0x01` of the
legacy Keccak (not `0x06` of SHA-3). -/
def keccakPad (msg : List Byte) : List Byte :=
  let k := 136 - msg.length % 136
  if k = 1 then msg ++ [0x81]
  else msg ++ [0x01] ++ List.replicate (k - 2) 0 ++ [0x80]

/-- Absorption of one block of 136 bytes (17 lanes). -/
def absorbBlock (s : List Nat) (blk : List Byte) : List Nat :=
  let ws := (chunks 8 17 blk).map leWord
  keccakF ((List.range 25).map (fun i => s.getD i 0 ^^^ ws.getD i 0))

/-- The 32 bytes of `crypto.Keccak256(msg)`. -/
def keccak256 (msg : List Byte) : List Byte :=
  let p := keccakPad msg
  let s := (chunks 136 (p.length / 136) p).foldl absorbBlock (List.replicate 25 0)
  (s.take 4).flatMap (wordBytes 8)

/-- The bytes `[]byte(s)` of a Go string: its UTF-8 encoding. -/
def strBytes (s : String) : List Byte :=
  (s.data.flatMap String.utf8EncodeChar).map
    (fun b => ⟨b.toNat % 256, Nat.mod_lt _ (by decide)⟩)

/-- The method id `crypto.Keccak256([]byte(sig))[:4]` every `Monitor` computes. -/
def selector (sig : String) : List Byte := (keccak256 (strBytes sig)).take 4

/-! ## math/big.Float and the conversion to float64 -/

/-- Bit length with fuel: `bitLenAux n n` is the number of bits of `n`. -/
def bitLenAux : Nat → Nat → Nat
  | 0, _ => 0
  | fuel + 1, n => if n = 0 then 0 else bitLenAux fuel (n / 2) + 1

/-- The result of `x.BitLen()` for a natural number. -/
def bitLen (n : Nat) : Nat := bitLenAux n n

/-- The integer nearest to `n / d`, ties to the even one (`d > 0`). -/
def divRoundHalfEven (n d : Nat) : Nat :=
  if 2 * (n % d) < d then n / d
  else if d < 2 * (n % d) then n / d + 1
  else if (n / d) % 2 = 0 then n / d
  else n / d + 1

/-- The integer `e` with `2^e ≤ n / d < 2^(e+1)`, for `n, d > 0`. -/
def floorLog2 (n d : Nat) : Int :=
  let k : Int := (bitLen n : Int) - (bitLen d : Int)
  if 0 ≤ k then (if d * 2 ^ k.toNat ≤ n then k else k - 1)
  else (if d ≤ n * 2 ^ (-k).toNat then k else k - 1)

/-- The multiple of `2^(-sh)` nearest to `n / d`, ties to the one with an even factor. -/
def roundToUlp (sh : Int) (n d : Nat) : ℚ :=
  if 0 ≤ sh then mkRat (divRoundHalfEven (n * 2 ^ sh.toNat) d) (2 ^ sh.toNat)
  else ((divRoundHalfEven n (d * 2 ^ (-sh).toNat) * 2 ^ (-sh).toNat : Nat) : ℚ)

/-- Rounding of a `big.Float` result to `prec` bits of mantissa in mode `ToNearestEven`
(the mode of every `new(big.Float)`); the exponent range of `big.Float` is not a limit
here. -/
def roundToPrec (prec : Nat) (q : ℚ) : ℚ :=
  if q = 0 then 0
  else
    let n := q.num.natAbs
    let r := roundToUlp ((prec : Int) - 1 - floorLog2 n q.den) n q.den
    if q < 0 then -r else r

/-- Method `(*big.Float).Float64()`: the float64 nearest to `q`, ties to even; below
`2^(-1022)` the spacing is that of the denormals, `2^(-1074)`, and a rounded value of
`2^1024` or more is an infinity. -/
def toFloat64 (q : ℚ) : F64 :=
  if q = 0 then F64.fin 0
  else
    let n := q.num.natAbs
    let e := floorLog2 n q.den
    let r := roundToUlp (if e < -1022 then 1074 else 52 - e) n q.den
    if (2 : ℚ) ^ 1024 ≤ r then (if q < 0 then F64.negInf else F64.posInf)
    else F64.fin (if q < 0 then -r else r)

/-! ## internal/contracts: the price feed account -/

/-- Method `ChaosPushOracle.Monitor` of the account at `address`: `SetInt` gives the
`big.Float` the precision `max(price.BitLen(), 64)` and the exact value, `Quo` rounds the
quotient by `10^8` to that precision, `Float64` rounds once more. -/
def ChaosPushOracle.Monitor (node : Node) (address : String) : Except GoError F64 :=
  match CallInt256 node address (selector "latestAnswer()") with
  | .error e => .error e
  | .ok price =>
    .ok (toFloat64 (roundToPrec (max (bitLen price.natAbs) 64) ((price : ℚ) / 100000000)))

/-! ## Checks on event traces -/

/-- A trace in which a successful withdrawal, if there is one, is the last call of the
delegate: after the first successful withdrawal no event is a call of the delegate. -/
def okTrace : List Event → Bool
  | [] => true
  | e :: es => if e.isWithdrawOk then es.all (fun x => !x.isWithdraw) else okTrace es

/-- The static rule table as the specification words it (section 4.6 and the boundary cases
of section 8): a pause-flag metric with `value == 1.0`, the price deviation with
`value > 0.05`, the remaining reserve headroom with `value < 2500`.  It is compared below
with `alertRule`, the `switch` of the source. -/
def ruleHolds (metricName : String) (value : F64) : Prop :=
  ((metricName = "ink_eth_monitor_superchain_paused" ∨
      metricName = "ink_eth_monitor_optimism_portal_paused" ∨
      metricName = "ink_eth_monitor_standard_bridge_paused" ∨
      metricName = "ink_eth_monitor_tydro_pool_paused") ∧ F64.eq value F64.one = true) ∨
  (metricName = "ink_eth_monitor_oracle_price_spread" ∧ F64.gt value F64.c0_05 = true) ∨
  (metricName = "ink_eth_monitor_remaining_supply" ∧ F64.lt value F64.c2500 = true)

/-! ## internal/contracts: the pause-flag accounts -/

/-- Method `SuperChainConfig.Monitor` of the account at `address`. -/
def SuperChainConfig.Monitor (node : Node) (address : String) : Except GoError F64 :=
  match CallBool node address (selector "paused()") with
  | .error e => .error e
  | .ok paused => if paused then .ok F64.one else .ok (F64.fin 0)

/-- Method `InkOptimismPortal.Monitor` of the account at `address`. -/
def InkOptimismPortal.Monitor (node : Node) (address : String) : Except GoError F64 :=
  match CallBool node address (selector "paused()") with
  | .error e => .error e
  | .ok paused => if paused then .ok F64.one else .ok (F64.fin 0)

/-- Method `InkStandardBridge.Monitor` of the account at `address`. -/
def InkStandardBridge.Monitor (node : Node) (address : String) : Except GoError F64 :=
  match CallBool node address (selector "paused()") with
  | .error e => .error e
  | .ok paused => if paused then .ok F64.one else .ok (F64.fin 0)

/-- Constant `L2WETH` of `types.go`. -/
def L2WETH : String := "0x4200000000000000000000000000000000000006"

/-- The value of a hexadecimal digit, if the character is one. -/
def hexVal (c : Char) : Option Nat :=
  if 48 ≤ c.toNat ∧ c.toNat ≤ 57 then some (c.toNat - 48)
  else if 97 ≤ c.toNat ∧ c.toNat ≤ 102 then some (c.toNat - 87)
  else if 65 ≤ c.toNat ∧ c.toNat ≤ 70 then some (c.toNat - 55)
  else none

/-- The bytes returned by `hex.DecodeString`: the pairs of hexadecimal digits decoded up to
the first invalid character or an odd tail (the callers drop the error). -/
def hexDecodeString : List Char → List Byte
  | p :: q :: rest =>
    match hexVal p, hexVal q with
    | some a, some b => ⟨(a * 16 + b) % 256, Nat.mod_lt _ (by decide)⟩ :: hexDecodeString rest
    | _, _ => []
  | _ => []

/-- The characters of `strings.TrimPrefix(s, "0x")`. -/
def trimPrefix0x (s : String) : List Char :=
  match s.data with
  | '0' :: 'x' :: rest => rest
  | cs => cs

/-- The 32-byte buffer `make([]byte, 32)` after `copy(padded[32-len(b):], b)`, for `b` of at
most 32 bytes. -/
def leftPad32 (b : List Byte) : List Byte := List.replicate (32 - b.length) 0 ++ b

/-- Method `AAveProtocolDataProvider.Monitor` of the account at `address`. -/
def AAveProtocolDataProvider.Monitor (node : Node) (address : String) : Except GoError F64 :=
  match CallBool node address
      (selector "getPaused(address)" ++ leftPad32 (hexDecodeString (trimPrefix0x L2WETH))) with
  | .error e => .error e
  | .ok paused => if paused then .ok F64.one else .ok (F64.fin 0)

/-- A node that answers every call with the bytes `resp`. -/
def constNode (resp : List Byte) : Node := fun _ _ => .ok resp

/-- A response of 33 bytes: the 32-byte word of value 1 followed by one zero byte. -/
def longResponse : List Byte := List.replicate 31 0 ++ [1, 0]

/-- A response of one word whose top bit is set: the int256 value -1. -/
def minusOneWord : List Byte := List.replicate 32 255

/-! ## Sample inputs -/

/-- A configuration with the emergency feature enabled. -/
def sampleConfig : EmergencyConfig :=
  ⟨true, "4c0883a69102937d6231471b5dbb6204fe5129617082792ae468d01a3f362318",
    "0x5a372D431B99DB15ff6fdbf39Cf17dd8F0f6bDAb", "0x6A7180F6217a1279646222d6B28Cc60C7FfCc995",
    "1000000000000000000"⟩

/-- The delegate `NewDelegate` builds for `sampleConfig`. -/
def sampleDelegate : Delegate :=
  ⟨"http://localhost:8545", "4c0883a69102937d6231471b5dbb6204fe5129617082792ae468d01a3f362318",
    "0x5a372D431B99DB15ff6fdbf39Cf17dd8F0f6bDAb", "0x6A7180F6217a1279646222d6B28Cc60C7FfCc995"⟩

/-- An enabled manager as `NewManager` returns it. -/
def sampleManager : Manager := ⟨sampleConfig, some sampleDelegate, false, 0⟩

/-- The manager `sampleManager` after a withdrawal at time 7. -/
def sampleTriggered : Manager := ⟨sampleConfig, some sampleDelegate, true, 7⟩

/-- A call reporting the superchain pause flag as set, at time `now`, with the delegate
answering `result`. -/
def pausedCall (result : Option GoError) (now : Time) : Call :=
  ⟨"ink_eth_monitor_superchain_paused", F64.one, ⟨result, now⟩⟩

/-- A configuration with the emergency feature disabled. -/
def sampleDisabled : EmergencyConfig := ⟨false, "", "", "", ""⟩

/-- A closure that counts its calls in its state and fails on every call, with the number of
the call in the error text. -/
def alwaysFailing (k : Nat) : Option GoError × Nat :=
  (some (GoError.leaf ("rpc timeout " ++ toString k)), k + 1)

/-! ## internal/metrics -/

/-- The key `fmt.Sprintf("%s_%s", chain, contractName)` of the gauge registry. -/
def metricKey (chain contractName : String) : String := chain ++ "_" ++ contractName

/-- Function `getMetricName`: the lookup of the key in the map literal `nameMap`, then the
default name. -/
def getMetricName (chain contractName : String) : String :=
  let key := metricKey chain contractName
  if key = "ethereum_super_chain_config" then "ink_eth_monitor_superchain_paused"
  else if key = "ethereum_ink_optimism_portal" then "ink_eth_monitor_optimism_portal_paused"
  else if key = "ethereum_l1_standard_bridge" then "ink_eth_monitor_standard_bridge_paused"
  else if key = "ink_aave_protocol_data_provider" then "ink_eth_monitor_tydro_pool_paused"
  else if key = "ink_chaos_push_oracle" then "ink_eth_monitor_oracle_price_spread"
  else if key = "ink_variable_debt_InkWlWETH" then "ink_eth_monitor_remaining_supply"
  else "ink_eth_monitor_" ++ chain ++ "_" ++ contractName

/-- The six entries of the map literal `nameMap`, from the source: key and metric name. -/
def nameMap : List (String × String) :=
  [("ethereum_super_chain_config", "ink_eth_monitor_superchain_paused"),
   ("ethereum_ink_optimism_portal", "ink_eth_monitor_optimism_portal_paused"),
   ("ethereum_l1_standard_bridge", "ink_eth_monitor_standard_bridge_paused"),
   ("ink_aave_protocol_data_provider", "ink_eth_monitor_tydro_pool_paused"),
   ("ink_chaos_push_oracle", "ink_eth_monitor_oracle_price_spread"),
   ("ink_variable_debt_InkWlWETH", "ink_eth_monitor_remaining_supply")]

/-- The fallback name as the specification words it (section 4.5):
`"monitor_{chain}_{contractName}"`. -/
def specFallbackName (chain contractName : String) : String :=
  "monitor_" ++ chain ++ "_" ++ contractName

/-- A `prometheus.Gauge` built by `RegisterContractMetric`: its name, help text and the two
constant labels, and its current value. -/
structure Gauge where
  name : String
  help : String
  chain : String
  contract : String
  value : F64

/-- Struct `Metrics`: the map `contractGauges` (a key without entry is `none`) and the keys
of the gauges handed to the pusher, in the order of registration (the logger, the pusher's
connection data and the lock carry nothing the functions below read). -/
structure Metrics where
  contractGauges : String → Option Gauge
  collectors : List String

/-- The registry `NewMetrics` builds: `make(map[string]prometheus.Gauge)`. -/
def NewMetrics : Metrics := ⟨fun _ => none, []⟩

/-- The log lines of the metrics functions. -/
inductive MetricsLog where
  /-- The line logger.Info "registered contract metric". -/
  | registered (chain contractName metricName : String)
  /-- The line logger.Debug "set metric value". -/
  | valueSet (key : String) (value : F64)
  /-- The line logger.Warn "metric not registered". -/
  | notRegistered (key : String)
  /-- The line logger.Error "pushing the metrics failed" of `Push`. -/
  | pushFailed (err : GoError)
  /-- The line logger.Debug "pushed the metrics to the gateway" of `Push`. -/
  | pushed

/-- Method `Metrics.RegisterContractMetric`; a new gauge starts at 0. -/
def Metrics.RegisterContractMetric (m : Metrics) (chain contractName : String) :
    Metrics × List MetricsLog :=
  let key := metricKey chain contractName
  match m.contractGauges key with
  | some _ => (m, [])
  | none =>
    let metricName := getMetricName chain contractName
    let gauge : Gauge :=
      ⟨metricName, "Monitor metric for " ++ chain ++ " contract " ++ contractName,
        chain, contractName, F64.fin 0⟩
    (⟨fun k => if k = key then some gauge else m.contractGauges k, m.collectors ++ [key]⟩,
      [MetricsLog.registered chain contractName metricName])

/-- Method `Metrics.SetContractMetric`: `gauge.Set(value)` on the gauge stored under the key,
if there is one. -/
def Metrics.SetContractMetric (m : Metrics) (chain contractName : String) (value : F64) :
    Metrics × List MetricsLog :=
  let key := metricKey chain contractName
  match m.contractGauges key with
  | some gauge =>
    (⟨fun k => if k = key then some { gauge with value := value } else m.contractGauges k,
       m.collectors⟩,
      [MetricsLog.valueSet key value])
  | none => (m, [MetricsLog.notRegistered key])

/-- A registry with the gauges of two contracts. -/
def sampleMetrics : Metrics :=
  ((NewMetrics.RegisterContractMetric "ethereum" "super_chain_config").1.RegisterContractMetric
    "ink" "chaos_push_oracle").1

/-! ## internal/contracts: the reserve cap account and the account interface -/

/-- Constant `DefaultL2AaveProtocolDataProvider` of `types.go`. -/
def DefaultL2AaveProtocolDataProvider : String := "0x96086C25d13943C80Ff9a19791a40Df6aFC08328"

/-- The float64 of `x.Sub(x, new(big.Float).SetFloat64(y))` for `x = new(big.Float).SetInt(c)`:
the difference is rounded to the precision of `x`, `max(c.BitLen(), 64)`, and then to
float64; an infinite `y` gives the opposite infinity.  `SetFloat64` panics on NaN; no value
of `toFloat64` is NaN, and the case is given the value NaN here. -/
def subFloat64FromInt (c : Int) (y : F64) : F64 :=
  match y with
  | F64.fin t => toFloat64 (roundToPrec (max (bitLen c.natAbs) 64) ((c : ℚ) - t))
  | F64.posInf => F64.negInf
  | F64.negInf => F64.posInf
  | F64.nan => F64.nan

/-- Method `InkWLWEth.Monitor` of the account at `address`: `getReserveCaps(address)` on the
data provider, the supply cap from bytes 32..63 of the answer, `totalSupply()` on the token,
the total supply divided by `10^18` as float64, and the float64 of the difference. -/
def InkWLWEth.Monitor (node : Node) (address : String) : Except GoError F64 :=
  match CallRaw node DefaultL2AaveProtocolDataProvider
      (selector "getReserveCaps(address)" ++
        leftPad32 (hexDecodeString (trimPrefix0x "0x4200000000000000000000000000000000000006")))
    with
  | .error e => .error (GoError.wrap "调用 getReserveCaps 失败: " e)
  | .ok result =>
    if result.length < 64 then
      .error (GoError.leaf ("返回数据长度不足: " ++ toString result.length))
    else
      match CallUint256 node address (selector "totalSupply()") with
      | .error e => .error (GoError.wrap "调用 totalSupply 失败: " e)
      | .ok totalSupply =>
        .ok (subFloat64FromInt (setBytes ((result.drop 32).take 32) : Nat)
          (toFloat64 (roundToPrec (max (bitLen totalSupply.natAbs) 64)
            ((totalSupply : ℚ) / 1000000000000000000))))

/-- The six implementations of the interface `Account`. -/
inductive AccountKind where
  | superChainConfig
  | inkOptimismPortal
  | inkStandardBridge
  | aaveProtocolDataProvider
  | chaosPushOracle
  | inkWLWEth
  deriving DecidableEq, Repr

/-- A contract account: which implementation it is and the text `address.Hex()` of its
address. -/
structure Account where
  kind : AccountKind
  address : String
  deriving DecidableEq, Repr

/-- Method `Name()`: the name given to `NewBaseContract` by the constructor of the kind. -/
def Account.Name (a : Account) : String :=
  match a.kind with
  | .superChainConfig => "super_chain_config"
  | .inkOptimismPortal => "ink_optimism_portal"
  | .inkStandardBridge => "l1_standard_bridge"
  | .aaveProtocolDataProvider => "aave_protocol_data_provider"
  | .chaosPushOracle => "chaos_push_oracle"
  | .inkWLWEth => "variable_debt_InkWlWETH"

/-- Method `Type()`: the type constant given to `NewBaseContract` by the constructor. -/
def Account.Type (a : Account) : String :=
  match a.kind with
  | .superChainConfig => "pause_simple"
  | .inkOptimismPortal => "pause_simple"
  | .inkStandardBridge => "pause_simple"
  | .aaveProtocolDataProvider => "get_paused"
  | .chaosPushOracle => "price_feed"
  | .inkWLWEth => "reserve_cap"

/-- Method `Monitor(ctx, caller)` of the interface, dispatched on the implementation. -/
def Account.Monitor (a : Account) (node : Node) : Except GoError F64 :=
  match a.kind with
  | .superChainConfig => SuperChainConfig.Monitor node a.address
  | .inkOptimismPortal => InkOptimismPortal.Monitor node a.address
  | .inkStandardBridge => InkStandardBridge.Monitor node a.address
  | .aaveProtocolDataProvider => AAveProtocolDataProvider.Monitor node a.address
  | .chaosPushOracle => ChaosPushOracle.Monitor node a.address
  | .inkWLWEth => InkWLWEth.Monitor node a.address

/-- The calldata of `getPaused(address)` and of `getReserveCaps(address)` apart from the
method id: the asset address left-padded to one word. -/
def assetWord : List Byte :=
  leftPad32 (hexDecodeString (trimPrefix0x "0x4200000000000000000000000000000000000006"))

/-- The calls an account's `Monitor` needs, as the specification lists them (section 4.2),
each with the least number of bytes its decoder asks for: target, calldata, least length. -/
def Account.calls (a : Account) : List (String × List Byte × Nat) :=
  match a.kind with
  | .superChainConfig => [(a.address, selector "paused()", 32)]
  | .inkOptimismPortal => [(a.address, selector "paused()", 32)]
  | .inkStandardBridge => [(a.address, selector "paused()", 32)]
  | .aaveProtocolDataProvider => [(a.address, selector "getPaused(address)" ++ assetWord, 32)]
  | .chaosPushOracle => [(a.address, selector "latestAnswer()", 32)]
  | .inkWLWEth =>
    [(DefaultL2AaveProtocolDataProvider, selector "getReserveCaps(address)" ++ assetWord, 64),
     (a.address, selector "totalSupply()", 32)]

/-- Whether the node answers a call with at least `least` bytes. -/
def answersWith (node : Node) (c : String × List Byte × Nat) : Prop :=
  ∃ resp, node c.1 c.2.1 = .ok resp ∧ c.2.2 ≤ resp.length

/-- The metric value of a boolean flag: `1.0` for true, `0.0` for false. -/
def flagValue (b : Bool) : F64 := if b then F64.one else F64.fin 0

/-- A node that fails every call. -/
def deadNode : Node := fun _ _ => .error (GoError.leaf "connection refused")

/-- The account of the superchain configuration at its default address. -/
def sampleAccount : Account := ⟨.superChainConfig, "0x95703e0982140D16f8ebA6d158FccEde42f04a4C"⟩

/-- A context that was cancelled before `Do` is called. -/
def Ctx.cancelled : Ctx := ⟨fun _ => true, fun _ => true, GoError.leaf "context canceled"⟩

/-- A context that is cancelled while `Do` waits after the attempt with index `k`. -/
def Ctx.cancelledInWait (k : Nat) : Ctx :=
  ⟨fun i => decide (k < i), fun i => decide (k ≤ i), GoError.leaf "context canceled"⟩

/-! ## float64 arithmetic -/

namespace F64

/-- Go `a != b` on float64. -/
def ne (a b : F64) : Bool := !(eq a b)

/-- Go `-a` on float64. -/
def neg : F64 → F64
  | fin a => fin (-a)
  | posInf => negInf
  | negInf => posInf
  | nan => nan

/-- Go `a - b` on float64: the float64 nearest to the exact difference (IEEE 754, round to
nearest even); the difference of two equal infinities is NaN. -/
def sub : F64 → F64 → F64
  | fin a, fin b => toFloat64 (a - b)
  | fin _, posInf => negInf
  | fin _, negInf => posInf
  | posInf, fin _ => posInf
  | negInf, fin _ => negInf
  | posInf, negInf => posInf
  | negInf, posInf => negInf
  | _, _ => nan

/-- Go `a / b` on float64: the float64 nearest to the exact quotient.  The sign of a zero is
not part of `F64`; a division of a non-zero number by zero is given the sign of the
dividend (the scheduler never divides by zero). -/
def div : F64 → F64 → F64
  | fin a, fin b =>
    if b = 0 then (if a = 0 then nan else if 0 < a then posInf else negInf)
    else toFloat64 (a / b)
  | fin _, posInf => fin 0
  | fin _, negInf => fin 0
  | posInf, fin b => if 0 ≤ b then posInf else negInf
  | negInf, fin b => if 0 ≤ b then negInf else posInf
  | _, _ => nan

end F64

/-! ## internal/monitor: the polling scheduler -/

/-- Struct `config.MonitorConfig`. -/
structure MonitorConfig where
  PollInterval : Int
  RetryTimes : Int
  RetryDelay : Int
  deriving DecidableEq, Repr

/-- What the scheduler reads from outside the process: the answers of the two nodes, which
may change from one attempt to the next (`ethNode t` and `inkNode t` are the nodes as they
answer during attempt number `t`). -/
structure World where
  ethNode : Nat → Node
  inkNode : Nat → Node

/-- What the scheduler does to the outside, apart from the calls to the nodes. -/
inductive SchedEvent where
  /-- A call `m.metrics.SetContractMetric(chain, name, value)`. -/
  | setMetric (chain name : String) (value : F64)
  /-- A log line written by the metrics sink during such a call. -/
  | metricsLog (line : MetricsLog)
  /-- The line logger.Info "checked contract" with name, type and value. -/
  | logChecked (chain name type : String) (value : F64)
  /-- The line logger.Info "checked price feed deviation". -/
  | logDeviation (name : String) (inkPrice ethPrice deviation value : F64)
  /-- The line logger.Error "checking the contract failed" after `retry.Do`. -/
  | logPollFailed (chain address name : String) (err : GoError)
  /-- The line logger.Debug "start polling all contracts" of `pollAll`. -/
  | logPollAll
  /-- A call `m.metrics.Push()`: the request `m.pusher.Push()` sends the registered gauges,
  each with its name and current value. -/
  | push (gauges : List (String × F64))
  /-- The line logger.Error "pushing the metrics failed" of `pollAll`. -/
  | logPushFailed (err : GoError)

/-- The state the scheduler's closures work on: the metrics sink, the number of attempts
made so far, and the events so far. -/
structure SchedState where
  metrics : Metrics
  clock : Nat
  events : List SchedEvent

/-- The call `m.metrics.SetContractMetric(chain, name, value)` with its events. -/
def SchedState.setMetric (st : SchedState) (chain name : String) (value : F64) : SchedState :=
  { st with
    metrics := (st.metrics.SetContractMetric chain name value).1
    events := st.events ++ [SchedEvent.setMetric chain name value] ++
      (st.metrics.SetContractMetric chain name value).2.map SchedEvent.metricsLog }

/-- Method `Monitor.checkEthereumContract`.  The source passes `contract.Type()` as a third
argument to `SetContractMetric`, which the method of `metrics.go` does not take; the call is
modelled with the three arguments of the method. -/
def checkEthereumContract (w : World) (contract : Account) (st : SchedState) :
    Option GoError × SchedState :=
  match contract.Monitor (w.ethNode st.clock) with
  | .error e => (some (GoError.wrap "监控合约失败: " e), { st with clock := st.clock + 1 })
  | .ok value =>
    let st1 := st.setMetric "ethereum" contract.Name value
    (none, { st1 with
      clock := st.clock + 1
      events := st1.events ++
        [SchedEvent.logChecked "ethereum" contract.Name contract.Type value] })

/-- The address of the Chainlink ETH/USD feed on the primary chain, as
`checkPriceFeedDeviation` writes it. -/
def chainlinkAddr : String := "0x5f4eC3Df9cbd43714FE2740f5E3616155c5b8419"

/-- The deviation computed by `checkPriceFeedDeviation` from the two prices. -/
def priceDeviation (inkPrice ethPrice : F64) : F64 :=
  if F64.ne ethPrice (F64.fin 0) then
    let d := F64.div (F64.sub inkPrice ethPrice) ethPrice
    if F64.lt d (F64.fin 0) then F64.neg d else d
  else F64.fin 0

/-- The alert flag `checkPriceFeedDeviation` reports for a deviation. -/
def deviationFlag (deviation : F64) : F64 :=
  if F64.gt deviation F64.c0_05 then F64.one else F64.fin 0

/-- Method `Monitor.checkPriceFeedDeviation`. -/
def checkPriceFeedDeviation (w : World) (contract : Account) (st : SchedState) :
    Option GoError × SchedState :=
  match contract.Monitor (w.inkNode st.clock) with
  | .error e => (some (GoError.wrap "获取INK链价格失败: " e), { st with clock := st.clock + 1 })
  | .ok inkPrice =>
    match ChaosPushOracle.Monitor (w.ethNode st.clock) chainlinkAddr with
    | .error e =>
      (some (GoError.wrap "获取ETH主网价格失败: " e), { st with clock := st.clock + 1 })
    | .ok ethPrice =>
      let deviation := priceDeviation inkPrice ethPrice
      let value := deviationFlag deviation
      let st1 := st.setMetric "ink" contract.Name value
      (none, { st1 with
        clock := st.clock + 1
        events := st1.events ++
          [SchedEvent.logDeviation contract.Name inkPrice ethPrice deviation value] })

/-- Method `Monitor.checkInkContract` (with the same remark on `SetContractMetric` as for
`checkEthereumContract`). -/
def checkInkContract (w : World) (contract : Account) (st : SchedState) :
    Option GoError × SchedState :=
  if contract.Type = "price_feed" ∧ contract.Name = "chaos_push_oracle" then
    checkPriceFeedDeviation w contract st
  else
    match contract.Monitor (w.inkNode st.clock) with
    | .error e => (some (GoError.wrap "监控合约失败: " e), { st with clock := st.clock + 1 })
    | .ok value =>
      let st1 := st.setMetric "ink" contract.Name value
      (none, { st1 with
        clock := st.clock + 1
        events := st1.events ++
          [SchedEvent.logChecked "ink" contract.Name contract.Type value] })

/-- Method `Monitor.pollEthereumContract`: the retry-wrapped check of one contract, and the
error line when `retry.Do` returns an error.  The result of `retry.Do` is kept next to the
state. -/
def pollEthereumContract (w : World) (ctx : Ctx) (cfg : MonitorConfig) (contract : Account)
    (st : SchedState) : DoResult SchedState × SchedState :=
  let r := Do ctx (checkEthereumContract w contract) cfg.RetryTimes st
  match r.err with
  | none => (r, r.state)
  | some e =>
    (r, { r.state with
      events := r.state.events ++
        [SchedEvent.logPollFailed "ethereum" contract.address contract.Name e] })

/-- Method `Monitor.pollInkContract`. -/
def pollInkContract (w : World) (ctx : Ctx) (cfg : MonitorConfig) (contract : Account)
    (st : SchedState) : DoResult SchedState × SchedState :=
  let r := Do ctx (checkInkContract w contract) cfg.RetryTimes st
  match r.err with
  | none => (r, r.state)
  | some e =>
    (r, { r.state with
      events := r.state.events ++
        [SchedEvent.logPollFailed "ink" contract.address contract.Name e] })

/-- A world in which both nodes answer every call with the same bytes at every attempt. -/
def constWorld (resp : List Byte) : World := ⟨fun _ => constNode resp, fun _ => constNode resp⟩

/-- An answer of 31 bytes: one byte short of a word. -/
def shortResponse : List Byte := List.replicate 31 0

/-- The scheduler state at start, with the gauge of `sampleAccount` registered. -/
def sampleState : SchedState :=
  ⟨(NewMetrics.RegisterContractMetric "ethereum" "super_chain_config").1, 0, []⟩

/-- A configuration with two retries. -/
def sampleMonitorConfig : MonitorConfig := ⟨30, 2, 1⟩

/-- Whether an event is a call of the metrics sink with the given value. -/
def SchedEvent.isSetMetric (chain name : String) (value : F64) : SchedEvent → Prop
  | SchedEvent.setMetric c n v => c = chain ∧ n = name ∧ v = value
  | _ => False

/-! ## internal/contracts: the delegate's transaction submission -/

/-- The fields of `types.DynamicFeeTx` that `SendTransaction` fills. -/
structure DynamicFeeTx where
  ChainID : Int
  Nonce : Nat
  GasTipCap : Int
  GasFeeCap : Int
  Gas : Nat
  To : String
  Value : Int
  Data : List Byte
  deriving DecidableEq

/-- A signed transaction: the transaction and its signature. -/
structure SignedTx where
  tx : DynamicFeeTx
  signature : List Byte
  deriving DecidableEq

/-- What `SendTransaction` obtains from outside: the answers of the write endpoint of the
node (`PendingNonceAt`, `ChainID`, `EstimateGas` with a gas amount in the range of `uint64`,
`SuggestGasTipCap`, the `BaseFee` of the header returned by `HeaderByNumber(nil)`, which is a
nil pointer on a chain without base fee, and `SendTransaction`), and of the signing library
(`crypto.PubkeyToAddress` of the delegate's key, `types.SignTx` with the London signer, and
the hash of a signed transaction). -/
structure ChainRPC where
  pendingNonceAt : String → Except GoError Nat
  chainID : Except GoError Int
  estimateGas : String → String → Int → List Byte → Except GoError Nat
  suggestGasTipCap : Except GoError Int
  headerBaseFee : Except GoError (Option Int)
  sendTransaction : SignedTx → Option GoError
  botAddress : String → String
  signTx : DynamicFeeTx → Int → String → Except GoError SignedTx
  txHash : SignedTx → String

/-- The calls `SendTransaction` makes, in order. -/
inductive RpcEvent where
  | pendingNonceAt (account : String)
  | chainID
  | estimateGas (sender dest : String) (value : Int) (data : List Byte)
  | suggestGasTipCap
  | headerByNumber
  | signTx (tx : DynamicFeeTx)
  | sendTransaction (stx : SignedTx)
  deriving DecidableEq

/-- Method `Delegate.SendTransaction(from, to, value, data)`: the returned hash or error and
the calls made.  The result is `none` when the latest header has no base fee: the source
then multiplies a nil `*big.Int` and panics. -/
def Delegate.SendTransaction (d : Delegate) (rpc : ChainRPC) (sender dest : String) (value : Int)
    (data : List Byte) : Option (Except GoError String × List RpcEvent) :=
  let ev1 := [RpcEvent.pendingNonceAt (rpc.botAddress d.privateKey)]
  match rpc.pendingNonceAt (rpc.botAddress d.privateKey) with
  | .error e => some (.error e, ev1)
  | .ok nonce =>
    let ev2 := ev1 ++ [RpcEvent.chainID]
    match rpc.chainID with
    | .error e => some (.error e, ev2)
    | .ok chainID =>
      let ev3 := ev2 ++ [RpcEvent.estimateGas sender dest value data]
      match rpc.estimateGas sender dest value data with
      | .error e => some (.error e, ev3)
      | .ok estimate =>
        let gasLimit := if estimate < 3000000 then 3000000 else estimate
        let ev4 := ev3 ++ [RpcEvent.suggestGasTipCap]
        match rpc.suggestGasTipCap with
        | .error e => some (.error e, ev4)
        | .ok gasTipCap =>
          let ev5 := ev4 ++ [RpcEvent.headerByNumber]
          match rpc.headerBaseFee with
          | .error e => some (.error e, ev5)
          | .ok none => none
          | .ok (some baseFee) =>
            let gasFeeCap := gasTipCap + baseFee * 2
            let tx : DynamicFeeTx :=
              ⟨chainID, nonce, gasTipCap, gasFeeCap, gasLimit, dest, value, data⟩
            let ev6 := ev5 ++ [RpcEvent.signTx tx]
            match rpc.signTx tx chainID d.privateKey with
            | .error e => some (.error e, ev6)
            | .ok signedTx =>
              let ev7 := ev6 ++ [RpcEvent.sendTransaction signedTx]
              match rpc.sendTransaction signedTx with
              | some e => some (.error e, ev7)
              | none => some (.ok (rpc.txHash signedTx), ev7)

/-- The transactions handed to the submit operation, in order. -/
def submitted : List RpcEvent → List SignedTx
  | [] => []
  | RpcEvent.sendTransaction stx :: rest => stx :: submitted rest
  | _ :: rest => submitted rest

/-- A node and signing library that answer every request: nonce 7, chain 57073, the given gas
estimate, tip and base fee. -/
def sampleRPC (estimate : Nat) (tip baseFee : Int) : ChainRPC where
  pendingNonceAt := fun _ => .ok 7
  chainID := .ok 57073
  estimateGas := fun _ _ _ _ => .ok estimate
  suggestGasTipCap := .ok tip
  headerBaseFee := .ok (some baseFee)
  sendTransaction := fun _ => none
  botAddress := fun _ => "0x725889fd"
  signTx := fun tx _ _ => .ok ⟨tx, [27]⟩
  txHash := fun _ => "0xabc"



/-- The float64 of the `big.Float` quotient of the integer `a` by the float64 constant `D`,
as both numeric monitors compute it: `SetInt(a)` with precision `max(a.BitLen(), 64)`, `Quo`
rounding to that precision, `Float64()`. -/
def quoFloat64 (a : Nat) (D : ℚ) : F64 :=
  toFloat64 (roundToPrec (max (bitLen a) 64) ((a : ℚ) / D))

/-- The one-word answer that encodes the integer `n`, big-endian. -/
def wordOf (n : Nat) : List Byte := (wordBytes 32 n).reverse

/-- An answer of `getReserveCaps`: the borrow cap in the first word, the supply cap in the
second. -/
def capsResponse (borrowCap supplyCap : Nat) : List Byte := wordOf borrowCap ++ wordOf supplyCap

/-- A node that answers every call on the token at `token` with `totalSupply` and every
other call with the caps. -/
def reserveNode (token : String) (borrowCap supplyCap totalSupply : Nat) : Node :=
  fun addr _ => if addr = token then .ok (wordOf totalSupply)
    else .ok (capsResponse borrowCap supplyCap)

/-- A closure that counts its calls in its state, fails on the calls with index below `n`
and succeeds on every later call. -/
def succeedsFrom (n : Nat) (k : Nat) : Option GoError × Nat :=
  (if k < n then some (GoError.leaf ("rpc timeout " ++ toString k)) else none, k + 1)

/-- The 20 bytes of the asset address `0x4200000000000000000000000000000000000006`. -/
def assetAddressBytes : List Byte := [0x42] ++ List.replicate 18 0 ++ [0x06]

/-- A node that answers one call, the one to `addr` with calldata `data`, and fails every
other call. -/
def onlyOn (addr : String) (data resp : List Byte) : Node :=
  fun a d => if a = addr ∧ d = data then .ok resp else .error (GoError.leaf "execution reverted")

/-- A node that answers the calldata `data` with the caps `(7, 5000)` and every other
calldata with the one word 0. -/
def capsOn (data : List Byte) : Node :=
  fun _ d => if d = data then .ok (capsResponse 7 5000) else .ok (wordOf 0)

/-- The order of the group of secp256k1. -/
def secp256k1N : Nat := 0xFFFFFFFFFFFFFFFFFFFFFFFFFFFFFFFEBAAEDCE6AF48A03BBFD25E8CD0364141

/-- Function `crypto.HexToECDSA` of go-ethereum (library code): the key text must be
hexadecimal digits only, of even number, decode to exactly 32 bytes, and denote a number `D`
with `0 < D < N`; the result is `D`, or `none` for the error. -/
def HexToECDSA (hexkey : String) : Option Nat :=
  if hexkey.data.length % 2 = 0 ∧ hexkey.data.all (fun c => (hexVal c).isSome) then
    if (hexDecodeString hexkey.data).length = 32 then
      if secp256k1N ≤ setBytes (hexDecodeString hexkey.data) then none
      else if setBytes (hexDecodeString hexkey.data) = 0 then none
      else some (setBytes (hexDecodeString hexkey.data))
    else none
  else none

/-- Function `contracts.NewDelegate`: `dial` is what `ethclient.Dial` returns for the URL (its
error, if any).  When the dial or the parsing of the key fails the source calls `log.Fatal`,
which ends the process: the result is `none`. -/
def NewDelegate (dial : String → Option GoError) (rpcUrl delegatePrivateKey safe argus : String) :
    Option Delegate :=
  match dial rpcUrl with
  | some _ => none
  | none =>
    match HexToECDSA delegatePrivateKey with
    | none => none
    | some _ => some ⟨rpcUrl, delegatePrivateKey, safe, argus⟩

/-- A well-formed private key (64 hexadecimal digits, below the group order). -/
def sampleKey : String := "4c0883a69102937d6231471b5dbb6204fe5129617082792ae468d01a3f362318"

/-- An enabled configuration with a well-formed key whose withdraw amount is not a number. -/
def badAmountConfig : EmergencyConfig :=
  ⟨true, sampleKey, "0x5a372D431B99DB15ff6fdbf39Cf17dd8F0f6bDAb",
    "0x6A7180F6217a1279646222d6B28Cc60C7FfCc995", "abc"⟩

/-- The absolute value of a float64 (`math.Abs`). -/
def F64.abs : F64 → F64
  | F64.fin a => F64.fin |a|
  | F64.posInf => F64.posInf
  | F64.negInf => F64.posInf
  | F64.nan => F64.nan

/-- The deviation as the specification words it, `|inkPrice - ethPrice| / ethPrice` in
float64 arithmetic, taken as 0 when `ethPrice` is 0; to be compared with `priceDeviation`,
which follows the source (quotient first, then the sign). -/
def specDeviation (inkPrice ethPrice : F64) : F64 :=
  if F64.ne ethPrice (F64.fin 0) then F64.div (F64.abs (F64.sub inkPrice ethPrice)) ethPrice
  else F64.fin 0

/-- The price feed account on the secondary chain at its default address. -/
def priceFeedAccount : Account := ⟨.chaosPushOracle, "0x163131609562E578754aF12E998635BfCa56712C"⟩



/-- A world whose secondary-chain node reports the price `inkRaw` and whose primary-chain
node reports the price `ethRaw`, both as raw answers with 8 decimals. -/
def priceWorld (inkRaw ethRaw : Nat) : World :=
  ⟨fun _ => constNode (wordOf ethRaw), fun _ => constNode (wordOf inkRaw)⟩



/-! ## internal/monitor: one tick -/

/-- Method `Metrics.Push`; `pusherResult` is what `m.pusher.Push()` returns. -/
def Metrics.Push (_m : Metrics) (pusherResult : Option GoError) :
    Option GoError × List MetricsLog :=
  match pusherResult with
  | some e => (some (GoError.wrap "推送指标到Prometheus Gateway失败: " e), [MetricsLog.pushFailed e])
  | none => (none, [MetricsLog.pushed])

/-- The gauges the pusher sends: the registered collectors, each with name and value. -/
def Metrics.gaugeValues (m : Metrics) : List (String × F64) :=
  m.collectors.filterMap (fun k => (m.contractGauges k).map (fun g => (g.name, g.value)))

/-- The loop `for _, contract := range m.ethAccounts` of `pollAll`: the results of
`retry.Do` in the order of the contracts, and the state afterwards. -/
def pollEthereumContracts (w : World) (ctx : Ctx) (cfg : MonitorConfig) :
    List Account → SchedState → List (DoResult SchedState) × SchedState
  | [], st => ([], st)
  | c :: rest, st =>
    let r := pollEthereumContract w ctx cfg c st
    let rs := pollEthereumContracts w ctx cfg rest r.2
    (r.1 :: rs.1, rs.2)

/-- The loop `for _, contract := range m.inkAccounts` of `pollAll`. -/
def pollInkContracts (w : World) (ctx : Ctx) (cfg : MonitorConfig) :
    List Account → SchedState → List (DoResult SchedState) × SchedState
  | [], st => ([], st)
  | c :: rest, st =>
    let r := pollInkContract w ctx cfg c st
    let rs := pollInkContracts w ctx cfg rest r.2
    (r.1 :: rs.1, rs.2)

/-- Method `Monitor.pollAll` for a monitor with the accounts `ethAccounts` and
`inkAccounts`: the two loops, then the push.  The function returns nothing; the model keeps
the results of `retry.Do` of the contracts, in order, next to the state. -/
def pollAll (w : World) (ctx : Ctx) (cfg : MonitorConfig) (ethAccounts inkAccounts : List Account)
    (pusherResult : Option GoError) (st : SchedState) :
    List (DoResult SchedState) × SchedState :=
  let st0 : SchedState := { st with events := st.events ++ [SchedEvent.logPollAll] }
  let r1 := pollEthereumContracts w ctx cfg ethAccounts st0
  let r2 := pollInkContracts w ctx cfg inkAccounts r1.2
  let p := r2.2.metrics.Push pusherResult
  (r1.1 ++ r2.1,
    { r2.2 with
      events := r2.2.events ++ [SchedEvent.push r2.2.metrics.gaugeValues] ++
        p.2.map SchedEvent.metricsLog ++
        (match p.1 with
         | some e => [SchedEvent.logPushFailed e]
         | none => []) })

/-- The `ethAccounts` that `NewMonitor` builds from the three resolved addresses. -/
def ethAccountsOf (superChainConfig inkOptimismPortal standardBridge : String) : List Account :=
  [⟨.superChainConfig, superChainConfig⟩, ⟨.inkOptimismPortal, inkOptimismPortal⟩,
   ⟨.inkStandardBridge, standardBridge⟩]

/-- The `inkAccounts` that `NewMonitor` builds from the three resolved addresses. -/
def inkAccountsOf (aaveProtocolDataProvider chaosPushOracle variableDebt : String) :
    List Account :=
  [⟨.aaveProtocolDataProvider, aaveProtocolDataProvider⟩, ⟨.chaosPushOracle, chaosPushOracle⟩,
   ⟨.inkWLWEth, variableDebt⟩]

/-- Function `getAddressOrDefault`. -/
def getAddressOrDefault (configAddr defaultAddr : String) : String :=
  if configAddr ≠ "" then configAddr else defaultAddr

/-- Whether an event is a call of `Push`. -/
def SchedEvent.isPush : SchedEvent → Bool
  | SchedEvent.push _ => true
  | _ => false

/-- The number of calls of `Push` among events. -/
def pushCount (evs : List SchedEvent) : Nat := (evs.filter SchedEvent.isPush).length

/-- The three primary-chain accounts of a configuration that gives no addresses: the
default addresses. -/
def sampleEthAccounts : List Account :=
  ethAccountsOf (getAddressOrDefault "" "0x95703e0982140D16f8ebA6d158FccEde42f04a4C")
    (getAddressOrDefault "" "0x5d66C1782664115999C47c9fA5cd031f495D3e4F")
    (getAddressOrDefault "" "0x88FF1e5b602916615391F55854588EFcBB7663f0")

/-- The three secondary-chain accounts of a configuration that gives no addresses. -/
def sampleInkAccounts : List Account :=
  inkAccountsOf (getAddressOrDefault "" "0x96086C25d13943C80Ff9a19791a40Df6aFC08328")
    (getAddressOrDefault "" "0x163131609562E578754aF12E998635BfCa56712C")
    (getAddressOrDefault "" "0xc1457AcfBaD2332b07B7651A4Da3176E8F3Bc9E4")

/-- A world whose nodes fail every call. -/
def deadWorld : World := ⟨fun _ => deadNode, fun _ => deadNode⟩

/-! ## internal/contracts: the withdrawal batch -/

/-- Variable `InkBridgeProxy` of `delegate.go`. -/
def InkBridgeProxy : String := "0x2816cf15F6d2A220E789aA011D5EE4eB6c47FEbA"

/-- Variable `GateWayV3` of `delegate.go`. -/
def GateWayV3 : String := "0xDe090EfCD6ef4b86792e2D84E55a5fa8d49D25D2"

/-- Variable `AInkWlWETH` of `delegate.go`. -/
def AInkWlWETH : String := "0x2B35eF056728BaFFaC103e3b81cB029788006EF9"

/-- Struct `SafeCallData` of `safe.go`. -/
structure SafeCallData where
  Flag : Int
  To : String
  Value : Int
  Data : List Byte
  Hint : List Byte
  Extra : List Byte
  deriving DecidableEq

/-- An argument handed to `(abi.ABI).Pack`. -/
inductive AbiArg where
  | address (a : String)
  | uint (n : Int)
  | calls (cs : List SafeCallData)
  deriving DecidableEq

/-- A parsed ABI: its method `Pack`, from the method name and the arguments to the calldata
or an error. -/
abbrev Packer := String → List AbiArg → Except GoError (List Byte)

/-- The ABI library with the three embedded JSON texts: what `abi.JSON` returns for
`atoken.abi.json`, `gateway_v3.abi.json` and `safe.abi.json`.  The JSON files are not among
the sources and `abi.JSON` and `Pack` are library code, so the parse results are
parameters. -/
structure AbiLib where
  atoken : Except GoError Packer
  gatewayV3 : Except GoError Packer
  safe : Except GoError Packer

/-- Function `buildAtokenApproval`. -/
def buildAtokenApproval (lib : AbiLib) (spender : String) (amount : Int) :
    Except GoError (List Byte) :=
  match lib.atoken with
  | .error e => .error e
  | .ok atoken =>
    match atoken "approve" [AbiArg.address spender, AbiArg.uint amount] with
    | .error e => .error e
    | .ok data => .ok data

/-- Function `buildGatewayV3WithdrawETH(arg0, to, amount)`: the arguments are packed in the
order `arg0, amount, to`. -/
def buildGatewayV3WithdrawETH (lib : AbiLib) (arg0 dest : String) (amount : Int) :
    Except GoError (List Byte) :=
  match lib.gatewayV3 with
  | .error e => .error e
  | .ok gatewayV3 =>
    match gatewayV3 "withdrawETH" [AbiArg.address arg0, AbiArg.uint amount, AbiArg.address dest]
      with
    | .error e => .error e
    | .ok data => .ok data

/-- The loop `for i := range addrs` of `buildSafeExecTransactions`, which reads `values[i]`
and `datas[i]`: the list `callDatas`, or `none` when one of the two slices is shorter than
`addrs` (an index out of range, a panic). -/
def safeCallDatas : List String → List Int → List (List Byte) → Option (List SafeCallData)
  | [], _, _ => some []
  | a :: addrs, v :: values, d :: datas =>
    (safeCallDatas addrs values datas).map (fun rest => ⟨0, a, v, d, [], []⟩ :: rest)
  | _ :: _, _, _ => none

/-- Function `buildSafeExecTransactions`. -/
def buildSafeExecTransactions (lib : AbiLib) (addrs : List String) (values : List Int)
    (datas : List (List Byte)) : Option (Except GoError (List Byte)) :=
  match lib.safe with
  | .error e => some (.error e)
  | .ok safe =>
    match safeCallDatas addrs values datas with
    | none => none
    | some callDatas =>
      match safe "execTransactions" [AbiArg.calls callDatas] with
      | .error e => some (.error e)
      | .ok data => some (.ok data)

/-- What `WithdrawETHFromGatewayV3` does to the outside. -/
inductive WithdrawEvent where
  /-- A call made by `SendTransaction`. -/
  | rpc (e : RpcEvent)
  /-- The line log.Printf "Transaction sent" with the hash. -/
  | logSent (txHash : String)
  deriving DecidableEq

/-- Method `Delegate.WithdrawETHFromGatewayV3(amount)`: the returned error and the events,
or `none` where the source panics. -/
def Delegate.WithdrawETHFromGatewayV3 (d : Delegate) (lib : AbiLib) (rpc : ChainRPC)
    (amount : Int) : Option (Option GoError × List WithdrawEvent) :=
  match buildAtokenApproval lib GateWayV3 amount with
  | .error e => some (some e, [])
  | .ok approvalData =>
    match buildGatewayV3WithdrawETH lib InkBridgeProxy d.safe amount with
    | .error e => some (some e, [])
    | .ok withdrawData =>
      match buildSafeExecTransactions lib [AInkWlWETH, GateWayV3] [0, 0]
          [approvalData, withdrawData] with
      | none => none
      | some (.error e) => some (some e, [])
      | some (.ok safeExecData) =>
        match d.SendTransaction rpc (rpc.botAddress d.privateKey) d.argus 0 safeExecData with
        | none => none
        | some (.error e, evs) => some (some e, evs.map WithdrawEvent.rpc)
        | some (.ok txHash, evs) =>
          some (none, evs.map WithdrawEvent.rpc ++ [WithdrawEvent.logSent txHash])

/-- The call behind an event, if it is one. -/
def WithdrawEvent.toRpc : WithdrawEvent → Option RpcEvent
  | WithdrawEvent.rpc e => some e
  | WithdrawEvent.logSent _ => none

/-- The transactions handed to the submit operation during a withdrawal, in order. -/
def withdrawSubmitted (evs : List WithdrawEvent) : List SignedTx :=
  submitted (evs.filterMap WithdrawEvent.toRpc)

/-- A packer that encodes nothing but tells its calls apart: the method name's length, then
one byte per argument. -/
def samplePacker : Packer := fun method args =>
  .ok (⟨method.length % 256, Nat.mod_lt _ (by decide)⟩ ::
    args.map (fun a =>
      match a with
      | AbiArg.address _ => 1
      | AbiArg.uint _ => 2
      | AbiArg.calls cs => ⟨(3 + cs.length) % 256, Nat.mod_lt _ (by decide)⟩))

/-- An ABI library whose three texts parse. -/
def sampleAbiLib : AbiLib := ⟨.ok samplePacker, .ok samplePacker, .ok samplePacker⟩

/-- An ABI library whose safe ABI does not parse. -/
def brokenSafeLib : AbiLib :=
  ⟨.ok samplePacker, .ok samplePacker, .error (GoError.leaf "invalid character")⟩

/-- A node whose chain id request fails, everything else as in `sampleRPC 21000 2 10`. -/
def failingChainRPC : ChainRPC :=
  { sampleRPC 21000 2 10 with chainID := .error (GoError.leaf "connection refused") }

/-- Whether an event is the line that ends the poll of the contract `c` on `chain`: the
line of the successful check (with the name and type of `c`), the line of the price
deviation (with the name of `c`, on the secondary chain), or the error line of the poll (with
the address and name of `c`). -/
def SchedEvent.isOutcomeOf (chain : String) (c : Account) : SchedEvent → Prop
  | SchedEvent.logChecked ch name type _ => ch = chain ∧ name = c.Name ∧ type = c.Type
  | SchedEvent.logDeviation name _ _ _ _ => chain = "ink" ∧ name = c.Name
  | SchedEvent.logPollFailed ch address name _ =>
    ch = chain ∧ address = c.address ∧ name = c.Name
  | _ => False

/-- The events of `pollAll` from the call of `Push` on: the push of the gauges and the log
lines that follow it, for the result `pusherResult` of `m.pusher.Push()`. -/
def pushEvents (gauges : List (String × F64)) (pusherResult : Option GoError) :
    List SchedEvent :=
  match pusherResult with
  | some e =>
    [SchedEvent.push gauges, SchedEvent.metricsLog (MetricsLog.pushFailed e),
     SchedEvent.logPushFailed (GoError.wrap "推送指标到Prometheus Gateway失败: " e)]
  | none => [SchedEvent.push gauges, SchedEvent.metricsLog MetricsLog.pushed]

/-! # Theorems -/

/-! ## Emergency manager -/

theorem isWithdrawOk_isWithdraw (e : Event) (h : e.isWithdrawOk = true) :
    e.isWithdraw = true := by
  cases e <;> simp_all [Event.isWithdrawOk, Event.isWithdraw]

theorem allEvents_cons (o : Outcome) (os : List Outcome) :
    allEvents (o :: os) = o.events ++ allEvents os := by
  simp [allEvents]

theorem okTrace_append_of_noOk (a b : List Event)
    (h : ∀ e ∈ a, e.isWithdrawOk = false) : okTrace (a ++ b) = okTrace b := by
  induction a with
  | nil => rfl
  | cons x xs ih =>
    have hx : x.isWithdrawOk = false := h x (List.mem_cons_self _ _)
    have hxs : ∀ e ∈ xs, e.isWithdrawOk = false :=
      fun e he => h e (List.mem_cons_of_mem _ he)
    simp [okTrace, hx, ih hxs]

theorem okTrace_append_quiet (a b : List Event) (ha : okTrace a = true)
    (hb : ∀ e ∈ b, e.isWithdraw = false) : okTrace (a ++ b) = true := by
  induction a with
  | nil =>
    induction b with
    | nil => rfl
    | cons y ys ih =>
      have hy : y.isWithdraw = false := hb y (List.mem_cons_self _ _)
      have hy2 : y.isWithdrawOk = false := by
        cases hyo : y.isWithdrawOk
        · rfl
        · rw [isWithdrawOk_isWithdraw y hyo] at hy; cases hy
      have := ih (fun e he => hb e (List.mem_cons_of_mem _ he))
      simpa [okTrace, hy2] using this
  | cons x xs ih =>
    cases hx : x.isWithdrawOk
    · simp only [okTrace, hx, List.cons_append] at ha ⊢
      exact ih ha
    · simp only [okTrace, hx, List.cons_append, if_true] at ha ⊢
      rw [List.all_eq_true] at ha ⊢
      intro e he
      have he2 : e ∈ xs ++ b := he
      rcases List.mem_append.1 he2 with h1 | h1
      · exact ha e h1
      · simp [hb e h1]

/-- In an ok trace at most one event is a successful withdrawal. -/
theorem okTrace_count (evs : List Event) (h : okTrace evs = true) :
    (evs.filter Event.isWithdrawOk).length ≤ 1 := by
  induction evs with
  | nil => simp
  | cons x xs ih =>
    cases hx : x.isWithdrawOk
    · simp only [okTrace, hx] at h
      simpa [List.filter_cons, hx] using ih h
    · simp only [okTrace, hx, if_true] at h
      rw [List.all_eq_true] at h
      have hnone : xs.filter Event.isWithdrawOk = [] := by
        rw [List.filter_eq_nil_iff]
        intro e he hok
        have h1 := h e he
        rw [isWithdrawOk_isWithdraw e hok] at h1
        cases h1
      simp [List.filter_cons, hx, hnone]

/-- In an ok trace no call of the delegate follows a successful withdrawal. -/
theorem okTrace_split (evs : List Event) (h : okTrace evs = true) :
    ∀ pre ev post, evs = pre ++ ev :: post → ev.isWithdrawOk = true →
      ∀ e ∈ post, e.isWithdraw = false := by
  induction evs with
  | nil =>
    intro pre ev post hsplit
    cases pre <;> cases hsplit
  | cons x xs ih =>
    intro pre ev post hsplit hev e he
    cases hx : x.isWithdrawOk
    · simp only [okTrace, hx] at h
      cases pre with
      | nil =>
        simp only [List.nil_append, List.cons.injEq] at hsplit
        rw [hsplit.1, hev] at hx
        cases hx
      | cons p ps =>
        simp only [List.cons_append, List.cons.injEq] at hsplit
        exact ih h ps ev post hsplit.2 hev e he
    · simp only [okTrace, hx, if_true] at h
      rw [List.all_eq_true] at h
      have hmem : e ∈ xs := by
        cases pre with
        | nil =>
          simp only [List.nil_append, List.cons.injEq] at hsplit
          rw [hsplit.2]; exact he
        | cons p ps =>
          simp only [List.cons_append, List.cons.injEq] at hsplit
          rw [hsplit.2]
          exact List.mem_append_right _ (List.mem_cons_of_mem _ he)
      simpa using h e hmem

theorem executeEmergencyWithdraw_triggered (m : Manager) (env : Env) (r : AlertReason)
    (h : m.triggered = true) :
    executeEmergencyWithdraw m env r = some ⟨m, none, [Event.logSkip r m.lastTriggerTime]⟩ := by
  simp [executeEmergencyWithdraw, h]

/-- On a triggered manager a call returns nil, keeps the manager and does not call the
delegate. -/
theorem CheckAlert_triggered (m : Manager) (env : Env) (n : String) (v : F64)
    (h : m.triggered = true) :
    ∃ evs, CheckAlert m env n v = some ⟨m, none, evs⟩ ∧ ∀ e ∈ evs, e.isWithdraw = false := by
  unfold CheckAlert
  by_cases hen : m.cfg.Enabled = true
  · by_cases hr : (alertRule n v).1 = true
    · refine ⟨[Event.logSkip (alertRule n v).2 m.lastTriggerTime], ?_, ?_⟩
      · simp [hen, hr, executeEmergencyWithdraw_triggered m env _ h]
      · intro e he
        simp only [List.mem_singleton] at he
        subst he; rfl
    · exact ⟨[], by simp [hen, hr], by simp⟩
  · exact ⟨[], by simp [hen], by simp⟩

/-- On an enabled, untriggered manager with a delegate a call either leaves the manager as
it is and has no successful withdrawal, or sets `triggered` and its events are an ok trace;
the configuration and the delegate stay. -/
theorem CheckAlert_untriggered (m : Manager) (d : Delegate) (env : Env) (n : String) (v : F64)
    (hd : m.delegate = some d) (ht : m.triggered = false) :
    ∃ o, CheckAlert m env n v = some o ∧
      ((o.m = m ∧ ∀ e ∈ o.events, e.isWithdrawOk = false) ∨
       (o.m.triggered = true ∧ okTrace o.events = true)) := by
  unfold CheckAlert
  by_cases hen : m.cfg.Enabled = true
  · by_cases hr : (alertRule n v).1 = true
    · simp only [hen, hr, Bool.not_true, if_true, Bool.false_eq_true, if_false]
      unfold executeEmergencyWithdraw
      simp only [ht, Bool.false_eq_true, if_false, hd]
      cases hp : bigIntSetString10 m.cfg.WithdrawAmount with
      | none =>
        refine ⟨_, rfl, Or.inl ⟨rfl, ?_⟩⟩
        intro e he
        simp only [List.mem_singleton] at he
        subst he; rfl
      | some amount =>
        cases hw : env.withdrawResult with
        | some err =>
          refine ⟨_, rfl, Or.inl ⟨rfl, ?_⟩⟩
          intro e he
          simp only [List.mem_cons, List.mem_singleton, List.not_mem_nil, or_false] at he
          rcases he with he | he | he <;> subst he <;> rfl
        | none =>
          exact ⟨_, rfl, Or.inr ⟨rfl, rfl⟩⟩
    · exact ⟨⟨m, none, []⟩, by simp [hen, hr], Or.inl ⟨rfl, by simp⟩⟩
  · exact ⟨⟨m, none, []⟩, by simp [hen], Or.inl ⟨rfl, by simp⟩⟩

theorem chain_of_all_true (a : Bool) (l : List Bool) (h : ∀ b ∈ l, b = true) :
    List.Chain (fun x y => x = true → y = true) a l := by
  induction l generalizing a with
  | nil => exact List.Chain.nil
  | cons b bs ih =>
    exact List.Chain.cons (fun _ => h b (List.mem_cons_self _ _))
      (ih b (fun c hc => h c (List.mem_cons_of_mem _ hc)))

/-- A sequence of calls on a triggered manager: no call panics, none calls the delegate, and
the manager stays triggered. -/
theorem runCalls_triggered (calls : List Call) (m : Manager) (h : m.triggered = true) :
    ∃ outs, runCalls m calls = some outs ∧ outs.length = calls.length ∧
      (∀ e ∈ allEvents outs, e.isWithdraw = false) ∧
      (∀ o ∈ outs, o.m.triggered = true) ∧ (∀ o ∈ outs, o.err = none) := by
  induction calls with
  | nil => exact ⟨[], rfl, rfl, by simp [allEvents], by simp, by simp⟩
  | cons c cs ih =>
    obtain ⟨evs, hstep, hq⟩ := CheckAlert_triggered m c.env c.metricName c.value h
    obtain ⟨outs, hrun, hlen, hquiet, htrig, herr⟩ := ih
    refine ⟨⟨m, none, evs⟩ :: outs, ?_, ?_, ?_, ?_, ?_⟩
    · simp [runCalls, hstep, hrun]
    · simp [hlen]
    · intro e he
      rw [allEvents_cons] at he
      rcases List.mem_append.1 he with h1 | h1
      · exact hq e h1
      · exact hquiet e h1
    · intro o ho
      rcases List.mem_cons.1 ho with h1 | h1
      · subst h1; exact h
      · exact htrig o h1
    · intro o ho
      rcases List.mem_cons.1 ho with h1 | h1
      · subst h1; rfl
      · exact herr o h1

/-- A sequence of calls on an untriggered manager with a delegate: no call panics, the events
are an ok trace, and `triggered` never goes back to false. -/
theorem runCalls_untriggered (calls : List Call) (m : Manager) (d : Delegate)
    (hd : m.delegate = some d) (ht : m.triggered = false) :
    ∃ outs, runCalls m calls = some outs ∧ outs.length = calls.length ∧
      okTrace (allEvents outs) = true ∧
      List.Chain (fun x y => x = true → y = true) m.triggered
        (outs.map (fun o => o.m.triggered)) := by
  induction calls generalizing m with
  | nil => exact ⟨[], rfl, rfl, rfl, List.Chain.nil⟩
  | cons c cs ih =>
    obtain ⟨o, hstep, hcase⟩ := CheckAlert_untriggered m d c.env c.metricName c.value hd ht
    rcases hcase with ⟨hm, hnoOk⟩ | ⟨htrig, hok⟩
    · obtain ⟨outs, hrun, hlen, htrace, hchain⟩ := ih o.m (hm ▸ hd) (hm ▸ ht)
      refine ⟨o :: outs, ?_, ?_, ?_, ?_⟩
      · simp [runCalls, hstep, hrun]
      · simp [hlen]
      · rw [allEvents_cons, okTrace_append_of_noOk _ _ hnoOk]; exact htrace
      · simp only [List.map_cons]
        refine List.Chain.cons ?_ hchain
        intro h1; rw [ht] at h1; cases h1
    · obtain ⟨outs, hrun, hlen, hquiet, hall, _⟩ := runCalls_triggered cs o.m htrig
      refine ⟨o :: outs, ?_, ?_, ?_, ?_⟩
      · simp [runCalls, hstep, hrun]
      · simp [hlen]
      · rw [allEvents_cons]; exact okTrace_append_quiet _ _ hok hquiet
      · simp only [List.map_cons]
        refine List.Chain.cons (fun _ => htrig) (chain_of_all_true _ _ ?_)
        intro b hb
        obtain ⟨o2, ho2, rfl⟩ := List.mem_map.1 hb
        exact hall o2 ho2

/-- C1. For every manager that holds its delegate (which every enabled manager built by
`NewManager` does) and starts with `triggered = false`, and every finite sequence of `CheckAlert` calls (any metric names, values, delegate outcomes and
clock readings, no `Reset`): every call returns; at most one call of the delegate's
`WithdrawETHFromGatewayV3` succeeds; after a successful one the delegate is not called again;
and along the sequence `triggered` never changes from true to false. -/
theorem checkAlert_single_withdrawal (m : Manager) (d : Delegate) (calls : List Call)
    (hd : m.delegate = some d) (ht : m.triggered = false) :
    ∃ outs, runCalls m calls = some outs ∧ outs.length = calls.length ∧
      ((allEvents outs).filter Event.isWithdrawOk).length ≤ 1 ∧
      (∀ pre ev post, allEvents outs = pre ++ ev :: post → ev.isWithdrawOk = true →
        ∀ e ∈ post, e.isWithdraw = false) ∧
      List.Chain (fun x y => x = true → y = true) m.triggered
        (outs.map (fun o => o.m.triggered)) := by
  obtain ⟨outs, hrun, hlen, htrace, hchain⟩ := runCalls_untriggered calls m d hd ht
  exact ⟨outs, hrun, hlen, okTrace_count _ htrace, okTrace_split _ htrace, hchain⟩

/-- The `switch` of `CheckAlert` sets `shouldTrigger` exactly when the rule table holds. -/
theorem alertRule_fst_iff (n : String) (v : F64) :
    (alertRule n v).1 = true ↔ ruleHolds n v := by
  unfold alertRule ruleHolds
  split_ifs <;> simp_all

theorem ruleHolds_pausedCall (result : Option GoError) (now : Time) :
    ruleHolds (pausedCall result now).metricName (pausedCall result now).value :=
  Or.inl ⟨Or.inl rfl, by simp [pausedCall, F64.eq, F64.one]⟩

theorem sampleAmount : bigIntSetString10 sampleConfig.WithdrawAmount = some 1000000000000000000 := by
  decide

/-- Witness of C1: the theorem at `sampleManager` and three alerts, the first with a failing
delegate. -/
theorem checkAlert_single_withdrawal_witness :
    ∃ outs, runCalls sampleManager
        [pausedCall (some (GoError.leaf "nonce")) 1, pausedCall none 2, pausedCall none 3]
        = some outs ∧ outs.length = 3 ∧
      ((allEvents outs).filter Event.isWithdrawOk).length ≤ 1 ∧
      (∀ pre ev post, allEvents outs = pre ++ ev :: post → ev.isWithdrawOk = true →
        ∀ e ∈ post, e.isWithdraw = false) ∧
      List.Chain (fun x y => x = true → y = true) sampleManager.triggered
        (outs.map (fun o => o.m.triggered)) :=
  checkAlert_single_withdrawal sampleManager sampleDelegate _ rfl rfl

/-- C2. (1) On an enabled manager that is already triggered, a `CheckAlert` call whose rule
is satisfied returns a nil error, leaves the manager (so `triggered` and `lastTriggerTime`)
as it is, and its only event is the log line of the skip: the delegate is not called.
(2) Two qualifying alerts in sequence, on an enabled untriggered manager whose configured
amount is a base-10 integer and whose delegate succeeds: the two calls together call the
delegate exactly once, and the second call returns nil, changes nothing and only logs the
skip. -/
theorem checkAlert_triggered_noop :
    (∀ (m : Manager) (env : Env) (n : String) (v : F64),
      m.cfg.Enabled = true → m.triggered = true → ruleHolds n v →
      CheckAlert m env n v
        = some ⟨m, none, [Event.logSkip (alertRule n v).2 m.lastTriggerTime]⟩) ∧
    (∀ (m : Manager) (d : Delegate) (amount : Int) (c1 c2 : Call),
      m.cfg.Enabled = true → m.delegate = some d → m.triggered = false →
      bigIntSetString10 m.cfg.WithdrawAmount = some amount →
      ruleHolds c1.metricName c1.value → ruleHolds c2.metricName c2.value →
      c1.env.withdrawResult = none →
      ∃ o1 o2, runCalls m [c1, c2] = some [o1, o2] ∧
        (allEvents [o1, o2]).filter Event.isWithdraw = [Event.withdraw d amount none] ∧
        o1.err = none ∧ o1.m.triggered = true ∧ o1.m.lastTriggerTime = c1.env.now ∧
        o2.err = none ∧ o2.m = o1.m ∧
        o2.events = [Event.logSkip (alertRule c2.metricName c2.value).2 c1.env.now]) := by
  constructor
  · intro m env n v hen ht hr
    have hr1 := (alertRule_fst_iff n v).2 hr
    simp [CheckAlert, hen, hr1, executeEmergencyWithdraw_triggered m env _ ht]
  · intro m d amount c1 c2 hen hd ht hp hr1 hr2 hw
    have h1 := (alertRule_fst_iff _ _).2 hr1
    have h2 := (alertRule_fst_iff _ _).2 hr2
    refine ⟨⟨{ m with triggered := true, lastTriggerTime := c1.env.now }, none,
        [Event.logTrigger (alertRule c1.metricName c1.value).2 m.cfg.WithdrawAmount,
         Event.withdraw d amount none,
         Event.logWithdrawOk (alertRule c1.metricName c1.value).2 m.cfg.WithdrawAmount
           c1.env.now]⟩,
      ⟨{ m with triggered := true, lastTriggerTime := c1.env.now }, none,
        [Event.logSkip (alertRule c2.metricName c2.value).2 c1.env.now]⟩, ?_, ?_, ?_⟩
    · simp [runCalls, CheckAlert, hen, h1, h2, executeEmergencyWithdraw, ht, hp, hd, hw]
    · simp [allEvents, Event.isWithdraw]
    · simp

/-- Witness of C2: the theorem at `sampleTriggered` and at `sampleManager` with two
alerts. -/
theorem checkAlert_triggered_noop_witness :
    CheckAlert sampleTriggered ⟨none, 9⟩ "ink_eth_monitor_superchain_paused" F64.one
        = some ⟨sampleTriggered, none,
            [Event.logSkip (alertRule "ink_eth_monitor_superchain_paused" F64.one).2 7]⟩ ∧
    ∃ o1 o2, runCalls sampleManager [pausedCall none 1, pausedCall none 2] = some [o1, o2] ∧
        (allEvents [o1, o2]).filter Event.isWithdraw
          = [Event.withdraw sampleDelegate 1000000000000000000 none] ∧
        o1.err = none ∧ o1.m.triggered = true ∧ o1.m.lastTriggerTime = 1 ∧
        o2.err = none ∧ o2.m = o1.m ∧
        o2.events = [Event.logSkip (alertRule (pausedCall none 2).metricName
          (pausedCall none 2).value).2 1] :=
  ⟨checkAlert_triggered_noop.1 sampleTriggered ⟨none, 9⟩ _ _ rfl rfl
      (ruleHolds_pausedCall none 0),
   checkAlert_triggered_noop.2 sampleManager sampleDelegate 1000000000000000000
      (pausedCall none 1) (pausedCall none 2) rfl rfl rfl sampleAmount
      (ruleHolds_pausedCall none 1) (ruleHolds_pausedCall none 2) rfl⟩

/-- A call that leaves the manager untriggered leaves the whole manager as it was. -/
theorem CheckAlert_stays (m : Manager) (env : Env) (n : String) (v : F64) (o : Outcome)
    (hstep : CheckAlert m env n v = some o) (ho : o.m.triggered = false) : o.m = m := by
  unfold CheckAlert at hstep
  by_cases hen : m.cfg.Enabled = true
  · by_cases hr : (alertRule n v).1 = true
    · simp only [hen, hr, Bool.not_true, if_true, Bool.false_eq_true, if_false] at hstep
      unfold executeEmergencyWithdraw at hstep
      by_cases ht : m.triggered = true
      · simp only [ht, if_true, Option.some.injEq] at hstep
        subst hstep; rfl
      · simp only [ht, Bool.false_eq_true, if_false] at hstep
        cases hp : bigIntSetString10 m.cfg.WithdrawAmount with
        | none =>
          simp only [hp, Option.some.injEq] at hstep
          subst hstep; rfl
        | some amount =>
          cases hd : m.delegate with
          | none => simp [hp, hd] at hstep
          | some d =>
            cases hw : env.withdrawResult with
            | some err =>
              simp only [hp, hd, hw, Option.some.injEq] at hstep
              subst hstep; rfl
            | none =>
              simp only [hp, hd, hw, Option.some.injEq] at hstep
              subst hstep
              simp at ho
    · simp only [hen, hr, Bool.not_true, Bool.false_eq_true, if_false, Option.some.injEq]
        at hstep
      subst hstep; rfl
  · simp only [hen, Bool.not_eq_true', Bool.not_false, if_true, Option.some.injEq] at hstep
    subst hstep; rfl

/-- As long as the calls of a sequence leave the manager untriggered, a further call is made
on the manager the sequence started with. -/
theorem runCalls_snoc_of_stays (between : List Call) (m : Manager) (c : Call)
    (outs : List Outcome) (hrun : runCalls m between = some outs)
    (hall : ∀ x ∈ outs, x.m.triggered = false) :
    runCalls m (between ++ [c])
      = (CheckAlert m c.env c.metricName c.value).map (fun o2 => outs ++ [o2]) := by
  induction between generalizing outs with
  | nil =>
    simp only [runCalls, Option.some.injEq] at hrun
    subst hrun
    cases hc : CheckAlert m c.env c.metricName c.value <;> simp [runCalls, hc]
  | cons b bs ih =>
    simp only [runCalls] at hrun
    cases hb : CheckAlert m b.env b.metricName b.value with
    | none => simp [hb] at hrun
    | some o =>
      simp only [hb] at hrun
      cases hrest : runCalls o.m bs with
      | none => simp [hrest] at hrun
      | some os =>
        simp only [hrest, Option.map_some', Option.some.injEq] at hrun
        subst hrun
        have ho : o.m = m :=
          CheckAlert_stays m b.env b.metricName b.value o hb (hall o (List.mem_cons_self _ _))
        rw [ho] at hrest
        have hos := ih os hrest (fun x hx => hall x (List.mem_cons_of_mem _ hx))
        show runCalls m (b :: (bs ++ [c])) = _
        simp only [runCalls, hb, ho]
        rw [hos]
        cases CheckAlert m c.env c.metricName c.value <;> simp

/-- C3. If the delegate's withdrawal fails during a call of `CheckAlert` (the call has an
event `withdraw d amount (some e)`), the call returns the error that wraps `e`, and leaves
the manager as it was, in particular `triggered = false` and `lastTriggerTime`; and any later
qualifying call, after any calls in between that left the manager untriggered, calls the
delegate again. -/
theorem checkAlert_failed_withdrawal (m : Manager) (env : Env) (n : String) (v : F64)
    (o : Outcome) (d : Delegate) (amount : Int) (e : GoError)
    (hstep : CheckAlert m env n v = some o)
    (hfail : Event.withdraw d amount (some e) ∈ o.events) :
    o.err = some (GoError.wrap "应急提款失败: " e) ∧
    (GoError.wrap "应急提款失败: " e).unwrap = some e ∧
    o.m = m ∧ o.m.triggered = false ∧ o.m.lastTriggerTime = m.lastTriggerTime ∧
    ∀ (between : List Call) (c : Call) (outs : List Outcome),
      ruleHolds c.metricName c.value →
      runCalls o.m between = some outs → (∀ x ∈ outs, x.m.triggered = false) →
      ∃ o2, runCalls o.m (between ++ [c]) = some (outs ++ [o2]) ∧
        Event.withdraw d amount c.env.withdrawResult ∈ o2.events := by
  have key : m.cfg.Enabled = true ∧ m.triggered = false ∧
      bigIntSetString10 m.cfg.WithdrawAmount = some amount ∧ m.delegate = some d ∧
      o = ⟨m, some (GoError.wrap "应急提款失败: " e),
            [Event.logTrigger (alertRule n v).2 m.cfg.WithdrawAmount,
             Event.withdraw d amount (some e), Event.logWithdrawFailed e]⟩ := by
    unfold CheckAlert at hstep
    by_cases hen : m.cfg.Enabled = true
    · by_cases hr : (alertRule n v).1 = true
      · simp only [hen, hr, Bool.not_true, if_true, Bool.false_eq_true, if_false] at hstep
        unfold executeEmergencyWithdraw at hstep
        by_cases ht : m.triggered = true
        · simp only [ht, if_true, Option.some.injEq] at hstep
          subst hstep
          simp at hfail
        · simp only [ht, Bool.false_eq_true, if_false] at hstep
          cases hp : bigIntSetString10 m.cfg.WithdrawAmount with
          | none =>
            simp only [hp, Option.some.injEq] at hstep
            subst hstep
            simp at hfail
          | some a =>
            cases hd : m.delegate with
            | none => simp [hp, hd] at hstep
            | some d2 =>
              cases hw : env.withdrawResult with
              | some err =>
                simp only [hp, hd, hw, Option.some.injEq] at hstep
                subst hstep
                simp only [List.mem_cons, Event.withdraw.injEq, Option.some.injEq,
                  List.mem_singleton, List.not_mem_nil, or_false, false_or, reduceCtorEq]
                  at hfail
                obtain ⟨h1, h2, h3⟩ := hfail
                subst h1 h2 h3
                exact ⟨hen, by simpa using ht, rfl, rfl, rfl⟩
              | none =>
                simp only [hp, hd, hw, Option.some.injEq] at hstep
                subst hstep
                simp at hfail
      · simp only [hen, hr, Bool.not_true, Bool.false_eq_true, if_false, Option.some.injEq]
          at hstep
        subst hstep
        simp at hfail
    · simp only [hen, Bool.not_eq_true', Bool.not_false, if_true, Option.some.injEq] at hstep
      subst hstep
      simp at hfail
  obtain ⟨hen, ht, hp, hd, ho⟩ := key
  subst ho
  refine ⟨rfl, rfl, rfl, ht, rfl, ?_⟩
  intro between c outs hr hrun hall
  have hr1 := (alertRule_fst_iff _ _).2 hr
  rw [runCalls_snoc_of_stays between m c outs hrun hall]
  cases hw : c.env.withdrawResult <;>
    simp [CheckAlert, hen, hr1, executeEmergencyWithdraw, ht, hp, hd, hw]

/-- Witness of C3: the theorem at `sampleManager` with a failing delegate. -/
theorem checkAlert_failed_withdrawal_witness :
    (GoError.wrap "应急提款失败: " (GoError.leaf "nonce")).unwrap = some (GoError.leaf "nonce") ∧
    ∃ o2, runCalls sampleManager ([] ++ [pausedCall none 2]) = some ([] ++ [o2]) ∧
      Event.withdraw sampleDelegate 1000000000000000000 none ∈ o2.events :=
  have h := checkAlert_failed_withdrawal sampleManager ⟨some (GoError.leaf "nonce"), 1⟩
    "ink_eth_monitor_superchain_paused" F64.one
    ⟨sampleManager, some (GoError.wrap "应急提款失败: " (GoError.leaf "nonce")),
      [Event.logTrigger AlertReason.superchainPaused "1000000000000000000",
       Event.withdraw sampleDelegate 1000000000000000000 (some (GoError.leaf "nonce")),
       Event.logWithdrawFailed (GoError.leaf "nonce")]⟩
    sampleDelegate 1000000000000000000 (GoError.leaf "nonce")
    (by simp [CheckAlert, sampleManager, sampleConfig, alertRule, F64.eq, F64.one,
          executeEmergencyWithdraw,
          show bigIntSetString10 "1000000000000000000" = some 1000000000000000000
            from sampleAmount])
    (by simp)
  ⟨h.2.1, h.2.2.2.2.2 [] (pausedCall none 2) [] (ruleHolds_pausedCall none 2) rfl (by simp)⟩

/-- On an untriggered manager with a delegate `executeEmergencyWithdraw` returns and first
writes the log line of the trigger. -/
theorem executeEmergencyWithdraw_untriggered (m : Manager) (d : Delegate) (env : Env)
    (r : AlertReason) (hd : m.delegate = some d) (ht : m.triggered = false) :
    ∃ o, executeEmergencyWithdraw m env r = some o ∧
      Event.logTrigger r m.cfg.WithdrawAmount ∈ o.events := by
  unfold executeEmergencyWithdraw
  simp only [ht, Bool.false_eq_true, if_false, hd]
  cases hp : bigIntSetString10 m.cfg.WithdrawAmount with
  | none => exact ⟨_, rfl, by simp⟩
  | some amount =>
    cases hw : env.withdrawResult with
    | none => exact ⟨_, rfl, by simp⟩
    | some err => exact ⟨_, rfl, by simp⟩

/-- C4. For an enabled, untriggered manager (holding its delegate) a call `CheckAlert
(metricName, value)` returns, and it enters the trigger path (its events contain the log line
that opens `executeEmergencyWithdraw`) if and only if the rule table holds: one of the four
pause-flag metrics with `value == 1.0`, the price-spread metric with `value > 0.05`, or the
remaining-supply metric with `value < 2500`; otherwise the call does nothing.  For any other
metric name the table does not hold.  The float64 values 0.05 and 2500 do not trigger (nor
does a spread of exactly 1/20), the float64 values 0.0500001 and 2499.99 do. -/
theorem checkAlert_rule_table (m : Manager) (d : Delegate) (env : Env) (n : String) (v : F64)
    (hen : m.cfg.Enabled = true) (hd : m.delegate = some d) (ht : m.triggered = false) :
    (∃ o, CheckAlert m env n v = some o ∧
      ((∃ r a, Event.logTrigger r a ∈ o.events) ↔ ruleHolds n v) ∧
      (¬ ruleHolds n v → o = ⟨m, none, []⟩)) ∧
    ((alertRule n v).1 = true ↔ ruleHolds n v) ∧
    (n ≠ "ink_eth_monitor_superchain_paused" → n ≠ "ink_eth_monitor_optimism_portal_paused" →
      n ≠ "ink_eth_monitor_standard_bridge_paused" → n ≠ "ink_eth_monitor_tydro_pool_paused" →
      n ≠ "ink_eth_monitor_oracle_price_spread" → n ≠ "ink_eth_monitor_remaining_supply" →
      ¬ ruleHolds n v) ∧
    ¬ ruleHolds "ink_eth_monitor_oracle_price_spread" F64.c0_05 ∧
    ¬ ruleHolds "ink_eth_monitor_oracle_price_spread" (F64.fin (1 / 20)) ∧
    ruleHolds "ink_eth_monitor_oracle_price_spread" F64.c0_0500001 ∧
    ¬ ruleHolds "ink_eth_monitor_remaining_supply" F64.c2500 ∧
    ruleHolds "ink_eth_monitor_remaining_supply" F64.c2499_99 := by
  refine ⟨?_, alertRule_fst_iff n v, ?_, ?_, ?_, ?_, ?_, ?_⟩
  · by_cases hr : ruleHolds n v
    · have hr1 := (alertRule_fst_iff n v).2 hr
      obtain ⟨o, ho, hlog⟩ := executeEmergencyWithdraw_untriggered m d env (alertRule n v).2 hd ht
      refine ⟨o, by simp [CheckAlert, hen, hr1, ho], ?_, fun h => absurd hr h⟩
      exact ⟨fun _ => hr, fun _ => ⟨_, _, hlog⟩⟩
    · have hr1 : ¬ (alertRule n v).1 = true := fun h => hr ((alertRule_fst_iff n v).1 h)
      refine ⟨⟨m, none, []⟩, by simp [CheckAlert, hen, hr1], ?_, fun _ => rfl⟩
      simp [hr]
  · intro h1 h2 h3 h4 h5 h6
    simp [ruleHolds, h1, h2, h3, h4, h5, h6]
  · simp [ruleHolds, F64.gt, F64.lt, F64.c0_05]
  · simp [ruleHolds, F64.gt, F64.lt, F64.c0_05]
    norm_num
  · simp [ruleHolds, F64.gt, F64.lt, F64.c0_05, F64.c0_0500001]
    norm_num
  · simp [ruleHolds, F64.lt, F64.c2500]
  · simp [ruleHolds, F64.lt, F64.c2500, F64.c2499_99]
    norm_num

/-- Witness of C4: the theorem at `sampleManager` and the price-spread metric with the
float64 value 0.0500001. -/
theorem checkAlert_rule_table_witness :
    ∃ o, CheckAlert sampleManager ⟨none, 1⟩ "ink_eth_monitor_oracle_price_spread"
        F64.c0_0500001 = some o ∧
      ((∃ r a, Event.logTrigger r a ∈ o.events) ↔
        ruleHolds "ink_eth_monitor_oracle_price_spread" F64.c0_0500001) ∧
      (¬ ruleHolds "ink_eth_monitor_oracle_price_spread" F64.c0_0500001 →
        o = ⟨sampleManager, none, []⟩) :=
  (checkAlert_rule_table sampleManager sampleDelegate ⟨none, 1⟩
    "ink_eth_monitor_oracle_price_spread" F64.c0_0500001 rfl rfl rfl).1

theorem runCalls_disabled (calls : List Call) (m : Manager) (h : m.cfg.Enabled = false) :
    ∃ outs, runCalls m calls = some outs ∧ outs.length = calls.length ∧
      ∀ o ∈ outs, o = ⟨m, none, []⟩ := by
  induction calls with
  | nil => exact ⟨[], rfl, rfl, by simp⟩
  | cons c cs ih =>
    obtain ⟨outs, hrun, hlen, hall⟩ := ih
    refine ⟨⟨m, none, []⟩ :: outs, by simp [runCalls, CheckAlert, h, hrun], by simp [hlen], ?_⟩
    intro o ho
    rcases List.mem_cons.1 ho with h1 | h1
    · exact h1
    · exact hall o h1

/-- C5. `NewManager` on a configuration with the emergency feature disabled returns a
manager without error, and on that manager `CheckAlert` returns nil for every metric name and
value, with no event at all (no call of the delegate) and the manager unchanged; the same
holds along every sequence of calls, so `triggered` stays false. -/
theorem checkAlert_disabled (cfg : EmergencyConfig) (inkRPC : String)
    (newDelegate : String → String → String → String → Option Delegate)
    (h : cfg.Enabled = false) :
    ∃ m, NewManager cfg inkRPC newDelegate = some (.ok m) ∧ m.triggered = false ∧
      (∀ env n v, CheckAlert m env n v = some ⟨m, none, []⟩) ∧
      ∀ calls, ∃ outs, runCalls m calls = some outs ∧ outs.length = calls.length ∧
        ∀ o ∈ outs, o = ⟨m, none, []⟩ := by
  refine ⟨⟨cfg, none, false, 0⟩, by simp [NewManager, h], rfl, ?_, ?_⟩
  · intro env n v
    simp [CheckAlert, h]
  · intro calls
    exact runCalls_disabled calls _ h

/-- Witness of C5: the theorem at `sampleDisabled` with a `NewDelegate` that would fail. -/
theorem checkAlert_disabled_witness :
    ∃ m, NewManager sampleDisabled "http://localhost:8545" (fun _ _ _ _ => none)
        = some (.ok m) ∧ m.triggered = false ∧
      (∀ env n v, CheckAlert m env n v = some ⟨m, none, []⟩) ∧
      ∀ calls, ∃ outs, runCalls m calls = some outs ∧ outs.length = calls.length ∧
        ∀ o ∈ outs, o = ⟨m, none, []⟩ :=
  checkAlert_disabled sampleDisabled _ _ rfl

/-! ## Raw call layer -/

/-- C6. The boolean decoder: when the node returns `resp`, `CallBool` returns, for `resp` of at
least 32 bytes, the boolean "the byte at index 31 equals 1" (true if and only if it is 1,
false otherwise), and for `resp` of fewer than 32 bytes an error. -/
theorem callBool_decodes (node : Node) (addr : String) (data resp : List Byte)
    (h : node addr data = .ok resp) :
    (32 ≤ resp.length → ∃ b, resp[31]? = some b ∧
      CallBool node addr data = .ok (decide (b = 1)) ∧
      (CallBool node addr data = .ok true ↔ b = 1) ∧
      (CallBool node addr data = .ok false ↔ b ≠ 1)) ∧
    (resp.length < 32 → CallBool node addr data
      = .error (GoError.leaf ("返回数据长度不足: " ++ toString resp.length))) := by
  constructor
  · intro hlen
    have hlt : 31 < resp.length := by omega
    have hnot : ¬ resp.length < 32 := by omega
    refine ⟨resp.get ⟨31, hlt⟩, by simp [List.getElem?_eq_getElem hlt], ?_, ?_, ?_⟩
    · simp [CallBool, h, hnot]
    · simp [CallBool, h, hnot]
    · simp [CallBool, h, hnot]
  · intro hlen
    simp [CallBool, h, hlen]

/-- Witness of C6: the theorem at a node that returns 33 bytes with byte 31 equal to 1. -/
theorem callBool_decodes_witness :
    (32 ≤ longResponse.length → ∃ b, longResponse[31]? = some b ∧
      CallBool (constNode longResponse) "0x95703e09" [] = .ok (decide (b = 1)) ∧
      (CallBool (constNode longResponse) "0x95703e09" [] = .ok true ↔ b = 1) ∧
      (CallBool (constNode longResponse) "0x95703e09" [] = .ok false ↔ b ≠ 1)) ∧
    (longResponse.length < 32 → CallBool (constNode longResponse) "0x95703e09" []
      = .error (GoError.leaf ("返回数据长度不足: " ++ toString longResponse.length))) :=
  callBool_decodes (constNode longResponse) "0x95703e09" [] longResponse rfl

theorem setBytesAux_eq (bs : List Byte) (acc : Nat) :
    setBytesAux bs acc = acc * 256 ^ bs.length + setBytesAux bs 0 := by
  induction bs generalizing acc with
  | nil => simp [setBytesAux]
  | cons b rest ih =>
    simp only [setBytesAux, List.length_cons, Nat.zero_mul, Nat.zero_add]
    rw [ih (acc * 256 + b.val), ih b.val]
    ring

theorem setBytes_cons (b : Byte) (rest : List Byte) :
    setBytes (b :: rest) = b.val * 256 ^ rest.length + setBytes rest := by
  simp only [setBytes, setBytesAux, Nat.zero_mul, Nat.zero_add]
  exact setBytesAux_eq rest b.val

theorem setBytes_append (a b : List Byte) :
    setBytes (a ++ b) = setBytes a * 256 ^ b.length + setBytes b := by
  induction a with
  | nil => simp [setBytes, setBytesAux]
  | cons x xs ih =>
    rw [List.cons_append, setBytes_cons, setBytes_cons, ih, List.length_append]
    ring

/-- What `CallUint256` returns when the node returns `resp`: the big-endian value of all of
`resp` when it has at least 32 bytes, an error otherwise. -/
theorem callUint256_eq (node : Node) (addr : String) (data resp : List Byte)
    (h : node addr data = .ok resp) :
    CallUint256 node addr data =
      if resp.length < 32 then
        .error (GoError.leaf ("返回数据长度不足: " ++ toString resp.length))
      else .ok (setBytes resp : Nat) := by
  simp [CallUint256, h]

/-- C7, the code at a response of 33 bytes.  `CallUint256` reads the whole response as one
big-endian integer, not only its first word: for the word of value 1 followed by one zero
byte it returns 256, while the first 32 bytes denote 1; and two responses with the same first
word decode to different values. -/
theorem callUint256_reads_whole_response :
    CallUint256 (constNode longResponse) "0xc1457Acf" [] = .ok 256 ∧
    setBytes (longResponse.take 32) = 1 ∧
    longResponse.take 32 = (longResponse.take 32 ++ [1]).take 32 ∧
    CallUint256 (constNode (longResponse.take 32 ++ [1])) "0xc1457Acf" [] = .ok 257 := by
  refine ⟨?_, by decide, by decide, ?_⟩
  · rw [callUint256_eq _ _ _ longResponse rfl, if_neg (by decide)]
    exact congrArg _ (by decide)
  · rw [callUint256_eq _ _ _ (longResponse.take 32 ++ [1]) rfl, if_neg (by decide)]
    exact congrArg _ (by decide)

theorem roundToUlp_nonneg (sh : Int) (n d : Nat) : 0 ≤ roundToUlp sh n d := by
  unfold roundToUlp
  split_ifs
  · exact Rat.mkRat_nonneg (Int.natCast_nonneg _) _
  · exact Nat.cast_nonneg _

theorem roundToPrec_nonneg (prec : Nat) (q : ℚ) (hq : 0 ≤ q) : 0 ≤ roundToPrec prec q := by
  unfold roundToPrec
  split_ifs with h0 hneg
  · exact le_refl _
  · exact absurd hneg (not_lt.2 hq)
  · exact roundToUlp_nonneg _ _ _

/-- The float64 of a rational that is not negative is not negative. -/
theorem toFloat64_not_neg (q : ℚ) (hq : 0 ≤ q) : F64.lt (toFloat64 q) (F64.fin 0) = false := by
  have hneg : ¬ q < 0 := not_lt.2 hq
  unfold toFloat64
  by_cases h0 : q = 0
  · simp [h0, F64.lt]
  · rw [if_neg h0]
    simp only [if_neg hneg]
    split_ifs <;>
      first
        | (simp only [F64.lt, decide_eq_false_iff_not, not_lt]
           exact roundToUlp_nonneg _ _ _)
        | simp only [F64.lt]

theorem setBytes_lt (bs : List Byte) : setBytes bs < 256 ^ bs.length := by
  induction bs with
  | nil => simp [setBytes, setBytesAux]
  | cons b rest ih =>
    rw [setBytes_cons, List.length_cons, pow_succ]
    have hb : b.val + 1 ≤ 256 := b.isLt
    calc b.val * 256 ^ rest.length + setBytes rest
        < b.val * 256 ^ rest.length + 256 ^ rest.length := by omega
      _ = (b.val + 1) * 256 ^ rest.length := by ring
      _ ≤ 256 * 256 ^ rest.length := Nat.mul_le_mul_right _ hb
      _ = 256 ^ rest.length * 256 := by ring

/-- C8. `CallInt256` returns exactly what `CallUint256` returns, value or error, for every
node answer; a decoded value is never negative; a 32-byte word whose top bit is set decodes
to an integer of at least `2^255` (and below `2^256`), the word of the int256 value -1 to
`2^256 - 1`; and a price returned by `ChaosPushOracle.Monitor` is never negative. -/
theorem callInt256_unsigned :
    (∀ (node : Node) (addr : String) (data : List Byte),
      CallInt256 node addr data = CallUint256 node addr data) ∧
    (∀ (node : Node) (addr : String) (data : List Byte) (v : Int),
      CallInt256 node addr data = .ok v → 0 ≤ v) ∧
    (∀ (node : Node) (addr : String) (data : List Byte) (b : Byte) (rest : List Byte),
      node addr data = .ok (b :: rest) → rest.length = 31 → 128 ≤ b.val →
      ∃ v, CallInt256 node addr data = .ok v ∧ 2 ^ 255 ≤ v ∧ v < 2 ^ 256) ∧
    CallInt256 (constNode minusOneWord) "0x16313160" (selector "latestAnswer()")
      = .ok (2 ^ 256 - 1) ∧
    (∀ (node : Node) (address : String) (v : F64),
      ChaosPushOracle.Monitor node address = .ok v → F64.lt v (F64.fin 0) = false) := by
  have hnonneg : ∀ (node : Node) (addr : String) (data : List Byte) (v : Int),
      CallInt256 node addr data = .ok v → 0 ≤ v := by
    intro node addr data v hv
    unfold CallInt256 CallUint256 at hv
    cases hn : node addr data with
    | error e => simp [hn] at hv
    | ok resp =>
      simp only [hn] at hv
      split_ifs at hv
      · cases hv; exact Int.natCast_nonneg _
  refine ⟨fun _ _ _ => rfl, hnonneg, ?_, ?_, ?_⟩
  · intro node addr data b rest hn hlen hb
    have hnot : ¬ (b :: rest).length < 32 := by simp [hlen]
    refine ⟨(setBytes (b :: rest) : Nat), by simp [CallInt256, CallUint256, hn, hlen], ?_, ?_⟩
    · have h1 : 2 ^ 255 ≤ setBytes (b :: rest) := by
        rw [setBytes_cons, hlen]
        calc 2 ^ 255 = 128 * 256 ^ 31 := by norm_num
          _ ≤ b.val * 256 ^ 31 := Nat.mul_le_mul_right _ hb
          _ ≤ b.val * 256 ^ 31 + setBytes rest := Nat.le_add_right _ _
      exact_mod_cast h1
    · have h2 : setBytes (b :: rest) < 2 ^ 256 := by
        have := setBytes_lt (b :: rest)
        rw [List.length_cons, hlen] at this
        calc setBytes (b :: rest) < 256 ^ 32 := this
          _ = 2 ^ 256 := by norm_num
      exact_mod_cast h2
  · unfold CallInt256
    rw [callUint256_eq _ _ _ minusOneWord rfl, if_neg (by decide)]
    have h : setBytes minusOneWord = 2 ^ 256 - 1 := by decide
    rw [h]
    exact congrArg _ (by norm_num)
  · intro node address v hv
    unfold ChaosPushOracle.Monitor at hv
    cases hc : CallInt256 node address (selector "latestAnswer()") with
    | error e => simp [hc] at hv
    | ok price =>
      simp only [hc, Except.ok.injEq] at hv
      subst hv
      apply toFloat64_not_neg
      apply roundToPrec_nonneg
      have hp : (0 : ℚ) ≤ (price : ℚ) := by exact_mod_cast hnonneg _ _ _ _ hc
      positivity

/-- Witness of C8: the theorem at the node that answers with the word of the int256 value
-1. -/
theorem callInt256_unsigned_witness :
    (∃ v, CallInt256 (constNode minusOneWord) "0x16313160" [] = .ok v ∧
      2 ^ 255 ≤ v ∧ v < 2 ^ 256) ∧
    F64.lt (F64.fin 0) (F64.fin 0) = false :=
  ⟨callInt256_unsigned.2.2.1 (constNode minusOneWord) "0x16313160" [] 255
      (List.replicate 31 255) rfl (by decide) (by decide),
   callInt256_unsigned.2.2.2.2 (constNode (List.replicate 32 0)) "0x16313160" (F64.fin 0)
      (by
        unfold ChaosPushOracle.Monitor CallInt256
        rw [callUint256_eq _ _ _ (List.replicate 32 0) rfl, if_neg (by decide)]
        have h0 : setBytes (List.replicate 32 (0 : Byte)) = 0 := by decide
        rw [h0]
        simp [roundToPrec, toFloat64])⟩

/-! ## Retry helper -/

/-- The fuel of the loop of `Do` is no limit: with more fuel than iterations left, the
result does not depend on the fuel. -/
theorem doLoop_fuel {σ : Type} (ctx : Ctx) (fn : σ → Option GoError × σ) (maxRetries : Int)
    (k : Nat) :
    ∀ (fuel1 fuel2 i : Nat) (s : σ) (err : Option GoError) (calls waits : Nat),
      (maxRetries + 1 - i).toNat ≤ k → k < fuel1 → k < fuel2 →
      doLoop ctx fn maxRetries fuel1 i s err calls waits
        = doLoop ctx fn maxRetries fuel2 i s err calls waits := by
  induction k with
  | zero =>
    intro fuel1 fuel2 i s err calls waits hk h1 h2
    obtain ⟨f1, rfl⟩ : ∃ f, fuel1 = f + 1 := ⟨fuel1 - 1, by omega⟩
    obtain ⟨f2, rfl⟩ : ∃ f, fuel2 = f + 1 := ⟨fuel2 - 1, by omega⟩
    have hgt : ¬ (i : Int) ≤ maxRetries := by omega
    simp only [doLoop, hgt, if_false]
  | succ k ih =>
    intro fuel1 fuel2 i s err calls waits hk h1 h2
    obtain ⟨f1, rfl⟩ : ∃ f, fuel1 = f + 1 := ⟨fuel1 - 1, by omega⟩
    obtain ⟨f2, rfl⟩ : ∃ f, fuel2 = f + 1 := ⟨fuel2 - 1, by omega⟩
    by_cases hle : (i : Int) ≤ maxRetries
    · simp only [doLoop, hle, if_true]
      by_cases hb : ctx.doneBefore i = true
      · simp only [hb, if_true]
      · simp only [hb, Bool.false_eq_true, if_false]
        rcases hfn : fn s with ⟨r, s1⟩
        cases r with
        | none => rfl
        | some e =>
          simp only
          by_cases hlast : (i : Int) = maxRetries
          · simp only [hlast, if_true]
          · simp only [hlast, if_false]
            by_cases hw : ctx.doneInWait i = true
            · simp only [hw, if_true]
            · simp only [hw, Bool.false_eq_true, if_false]
              exact ih f1 f2 (i + 1) s1 (some e) (calls + 1) (waits + 1)
                (by push_cast; omega) (by omega) (by omega)
    · simp only [doLoop, hle, if_false]

/-- The loop of `Do` on a context that is never cancelled and a closure that always fails,
entered with `k` retries left: it calls the closure `k + 1` more times, waits `k` times and
ends with the error of exhaustion around the error of the last call. -/
theorem doLoop_always_failing {σ : Type} (fn : σ → Option GoError × σ) (maxRetries : Int)
    (hfail : ∀ s, (fn s).1 ≠ none) (k : Nat) :
    ∀ (fuel i : Nat) (s : σ) (err : Option GoError) (calls waits : Nat),
      (i : Int) + k = maxRetries → k + 1 ≤ fuel →
      doLoop Ctx.background fn maxRetries fuel i s err calls waits
        = ⟨some (exhaustedError maxRetries (fn (stateAfter fn k s)).1),
            stateAfter fn (k + 1) s, calls + (k + 1), waits + k⟩ := by
  induction k with
  | zero =>
    intro fuel i s err calls waits hi hfuel
    obtain ⟨f, rfl⟩ : ∃ f, fuel = f + 1 := ⟨fuel - 1, by omega⟩
    have hi2 : (i : Int) = maxRetries := by simpa using hi
    rcases hfn : fn s with ⟨r, s1⟩
    cases r with
    | none => exact absurd (by rw [hfn]) (hfail s)
    | some e =>
      simp [doLoop, hi2, Ctx.background, hfn, stateAfter]
  | succ k ih =>
    intro fuel i s err calls waits hi hfuel
    obtain ⟨f, rfl⟩ : ∃ f, fuel = f + 1 := ⟨fuel - 1, by omega⟩
    have hle : (i : Int) ≤ maxRetries := by omega
    have hne : ¬ (i : Int) = maxRetries := by omega
    rcases hfn : fn s with ⟨r, s1⟩
    cases r with
    | none => exact absurd (by rw [hfn]) (hfail s)
    | some e =>
      have hrec := ih f (i + 1) s1 (some e) (calls + 1) (waits + 1)
        (by push_cast; omega) (by omega)
      have hb : Ctx.background.doneBefore i = false := rfl
      have hw : Ctx.background.doneInWait i = false := rfl
      simp only [doLoop, hle, hne, if_true, if_false, hb, hw, Bool.false_eq_true, hfn]
      rw [hrec]
      simp only [stateAfter, hfn]
      congr 1 <;> omega

/-- C10. For every `maxRetries >= 0` and every closure `fn` that fails on every call,
`retry.Do` on a context that is never cancelled calls `fn` exactly `maxRetries + 1` times
(waiting `maxRetries` times in between) and returns a non-nil error that wraps the error `e`
of the last call and whose text is built from `maxRetries` in decimal, as the retry count,
and the text of `e`. -/
theorem do_always_failing {σ : Type} (fn : σ → Option GoError × σ) (maxRetries : Int) (s : σ)
    (hmax : 0 ≤ maxRetries) (hfail : ∀ s, (fn s).1 ≠ none) :
    ((Do Ctx.background fn maxRetries s).calls : Int) = maxRetries + 1 ∧
    (Do Ctx.background fn maxRetries s).waits = maxRetries.toNat ∧
    (Do Ctx.background fn maxRetries s).state = stateAfter fn (maxRetries.toNat + 1) s ∧
    ∃ e w, (fn (stateAfter fn maxRetries.toNat s)).1 = some e ∧
      (Do Ctx.background fn maxRetries s).err = some w ∧ w.unwrap = some e ∧
      w.message = "重试" ++ toString maxRetries ++ "次后仍然失败: " ++ e.message := by
  have hk : ((0 : Nat) : Int) + (maxRetries.toNat : Nat) = maxRetries := by
    rw [Int.toNat_of_nonneg hmax]; simp
  have hfuel : maxRetries.toNat + 1 ≤ (maxRetries + 2).toNat := by omega
  have hrun := doLoop_always_failing fn maxRetries hfail maxRetries.toNat
    (maxRetries + 2).toNat 0 s none 0 0 hk hfuel
  unfold Do
  rw [hrun]
  refine ⟨?_, by simp, rfl, ?_⟩
  · simp only [Nat.zero_add]
    push_cast
    rw [Int.toNat_of_nonneg hmax]
  · cases he : (fn (stateAfter fn maxRetries.toNat s)).1 with
    | none => exact absurd he (hfail _)
    | some e =>
      exact ⟨e, _, rfl, rfl, rfl, by simp [exhaustedError, GoError.message, String.append_assoc]⟩

/-- Witness of C10: the theorem at `maxRetries = 2`: three calls, two waits, and the error
text of the third call behind the count 2. -/
theorem do_always_failing_witness :
    ((Do Ctx.background alwaysFailing 2 0).calls : Int) = 2 + 1 ∧
    (Do Ctx.background alwaysFailing 2 0).waits = (2 : Int).toNat ∧
    (Do Ctx.background alwaysFailing 2 0).state = stateAfter alwaysFailing ((2 : Int).toNat + 1) 0 ∧
    ∃ e w, (alwaysFailing (stateAfter alwaysFailing (2 : Int).toNat 0)).1 = some e ∧
      (Do Ctx.background alwaysFailing 2 0).err = some w ∧ w.unwrap = some e ∧
      w.message = "重试" ++ toString (2 : Int) ++ "次后仍然失败: " ++ e.message :=
  do_always_failing alwaysFailing 2 0 (by decide) (fun s => by simp [alwaysFailing])

/-- The run of C10 at `maxRetries = 2`, evaluated: three attempts, and the text of the
returned error names the count 2 and the error of the third attempt. -/
theorem retry_twice_evaluated :
    (Do Ctx.background alwaysFailing 2 0).calls = 3 ∧
    (Do Ctx.background alwaysFailing 2 0).err.map GoError.message
      = some "重试2次后仍然失败: rpc timeout 2" := by
  decide

/-! ## Selectors -/

set_option maxRecDepth 1000000 in
/-- The Keccak-256 digest of the empty message, the reference value of the legacy Keccak. -/
theorem keccak256_empty :
    keccak256 [] =
      [0xc5, 0xd2, 0x46, 0x01, 0x86, 0xf7, 0x23, 0x3c, 0x92, 0x7e, 0x7d, 0xb2, 0xdc, 0xc7,
       0x03, 0xc0, 0xe5, 0x00, 0xb6, 0x53, 0xca, 0x82, 0x27, 0x3b, 0x7b, 0xfa, 0xd8, 0x04,
       0x5d, 0x85, 0xa4, 0x70] := by
  decide

set_option maxRecDepth 1000000 in
theorem selector_paused : selector "paused()" = [0x5c, 0x97, 0x5a, 0xbb] := by
  decide

set_option maxRecDepth 1000000 in
theorem selector_getPaused : selector "getPaused(address)" = [0xb5, 0x5d, 0x99, 0x04] := by
  decide

/-- C9. The method id of a signature is the first 4 bytes of the Keccak-256 digest of the
bytes of the signature string; the id of "paused()" is `0x5c975abb`, the id of
"getPaused(address)" is `0xb55d9904`, so the two differ; and these are the first four bytes
of the calldata the pause-flag accounts send: `SuperChainConfig.Monitor` calls with exactly
`0x5c975abb`, `AAveProtocolDataProvider.Monitor` with `0xb55d9904` followed by its
argument word. -/
theorem selector_reference :
    (∀ sig : String, selector sig = (keccak256 (strBytes sig)).take 4) ∧
    selector "paused()" = [0x5c, 0x97, 0x5a, 0xbb] ∧
    selector "getPaused(address)" = [0xb5, 0x5d, 0x99, 0x04] ∧
    selector "paused()" ≠ selector "getPaused(address)" ∧
    (∀ (node : Node) (address : String),
      SuperChainConfig.Monitor node address =
        match CallBool node address [0x5c, 0x97, 0x5a, 0xbb] with
        | .error e => .error e
        | .ok paused => if paused then .ok F64.one else .ok (F64.fin 0)) ∧
    (∀ (node : Node) (address : String),
      AAveProtocolDataProvider.Monitor node address =
        match CallBool node address
          ([0xb5, 0x5d, 0x99, 0x04] ++ leftPad32 (hexDecodeString (trimPrefix0x L2WETH))) with
        | .error e => .error e
        | .ok paused => if paused then .ok F64.one else .ok (F64.fin 0)) := by
  refine ⟨fun _ => rfl, selector_paused, selector_getPaused, ?_, ?_, ?_⟩
  · rw [selector_paused, selector_getPaused]
    decide
  · intro node address
    unfold SuperChainConfig.Monitor
    rw [selector_paused]
  · intro node address
    unfold AAveProtocolDataProvider.Monitor
    rw [selector_getPaused]

/-! ## Metrics sink -/

/-- C14, the code on a pair that is not in the table: the fallback name starts with
`ink_eth_monitor_`, it is not `"monitor_{chain}_{contractName}"`. -/
theorem getMetricName_fallback_differs :
    nameMap.lookup (metricKey "ethereum" "weth") = none ∧
    getMetricName "ethereum" "weth" = "ink_eth_monitor_ethereum_weth" ∧
    getMetricName "ethereum" "weth" ≠ specFallbackName "ethereum" "weth" := by
  decide

/-- C14, amended. `getMetricName(chain, contractName)` returns the static table entry when
`"{chain}_{contractName}"` is one of the six table keys, and for every other pair it returns
the fallback name `"ink_eth_monitor_{chain}_{contractName}"`. -/
theorem getMetricName_table_or_fallback (chain contractName : String) :
    (∀ name, nameMap.lookup (metricKey chain contractName) = some name →
      getMetricName chain contractName = name) ∧
    (nameMap.lookup (metricKey chain contractName) = none →
      getMetricName chain contractName = "ink_eth_monitor_" ++ chain ++ "_" ++ contractName) := by
  by_cases k1 : metricKey chain contractName = "ethereum_super_chain_config"
  · simp [getMetricName, nameMap, List.lookup, k1]
  by_cases k2 : metricKey chain contractName = "ethereum_ink_optimism_portal"
  · simp [getMetricName, nameMap, List.lookup, k2]
  by_cases k3 : metricKey chain contractName = "ethereum_l1_standard_bridge"
  · simp [getMetricName, nameMap, List.lookup, k3]
  by_cases k4 : metricKey chain contractName = "ink_aave_protocol_data_provider"
  · simp [getMetricName, nameMap, List.lookup, k4]
  by_cases k5 : metricKey chain contractName = "ink_chaos_push_oracle"
  · simp [getMetricName, nameMap, List.lookup, k5]
  by_cases k6 : metricKey chain contractName = "ink_variable_debt_InkWlWETH"
  · simp [getMetricName, nameMap, List.lookup, k6]
  have b1 : (metricKey chain contractName == "ethereum_super_chain_config") = false := by
    simpa using k1
  have b2 : (metricKey chain contractName == "ethereum_ink_optimism_portal") = false := by
    simpa using k2
  have b3 : (metricKey chain contractName == "ethereum_l1_standard_bridge") = false := by
    simpa using k3
  have b4 : (metricKey chain contractName == "ink_aave_protocol_data_provider") = false := by
    simpa using k4
  have b5 : (metricKey chain contractName == "ink_chaos_push_oracle") = false := by
    simpa using k5
  have b6 : (metricKey chain contractName == "ink_variable_debt_InkWlWETH") = false := by
    simpa using k6
  simp [getMetricName, nameMap, List.lookup, k1, k2, k3, k4, k5, k6, b1, b2, b3, b4, b5, b6]

/-- The amended C14 at the table key of the price feed and at a pair outside the table. -/
theorem getMetricName_table_or_fallback_witness :
    getMetricName "ink" "chaos_push_oracle" = "ink_eth_monitor_oracle_price_spread" ∧
    getMetricName "ethereum" "weth" = "ink_eth_monitor_" ++ "ethereum" ++ "_" ++ "weth" :=
  ⟨(getMetricName_table_or_fallback "ink" "chaos_push_oracle").1 _ (by decide),
   (getMetricName_table_or_fallback "ethereum" "weth").2 (by decide)⟩

/-- C15. `SetContractMetric` is total (it has no error result).  For a key without a gauge it
returns the registry as it was: no entry is added and no gauge changes (it only logs the
warning).  For a registered key it sets the value of exactly that gauge, keeping its name and
labels, and leaves the entry of every other key, and the set of keys, as they were. -/
theorem setContractMetric_frame (m : Metrics) (chain contractName : String) (value : F64) :
    (m.contractGauges (metricKey chain contractName) = none →
      m.SetContractMetric chain contractName value
        = (m, [MetricsLog.notRegistered (metricKey chain contractName)])) ∧
    (∀ g, m.contractGauges (metricKey chain contractName) = some g →
      (m.SetContractMetric chain contractName value).1.contractGauges
          (metricKey chain contractName) = some { g with value := value } ∧
      (∀ k, k ≠ metricKey chain contractName →
        (m.SetContractMetric chain contractName value).1.contractGauges k
          = m.contractGauges k) ∧
      (∀ k, ((m.SetContractMetric chain contractName value).1.contractGauges k).isSome
          = (m.contractGauges k).isSome) ∧
      (m.SetContractMetric chain contractName value).1.collectors = m.collectors) := by
  constructor
  · intro h
    simp [Metrics.SetContractMetric, h]
  · intro g h
    refine ⟨by simp [Metrics.SetContractMetric, h], ?_, ?_, by simp [Metrics.SetContractMetric, h]⟩
    · intro k hk
      simp [Metrics.SetContractMetric, h, hk]
    · intro k
      by_cases hk : k = metricKey chain contractName
      · subst hk
        simp [Metrics.SetContractMetric, h]
      · simp [Metrics.SetContractMetric, h, hk]

/-- C15 at `sampleMetrics`: an unregistered key and the registered key of the price feed. -/
theorem setContractMetric_frame_witness :
    sampleMetrics.SetContractMetric "ink" "weth" F64.one
        = (sampleMetrics, [MetricsLog.notRegistered (metricKey "ink" "weth")]) ∧
    (sampleMetrics.SetContractMetric "ink" "chaos_push_oracle" F64.one).1.contractGauges
        (metricKey "ethereum" "super_chain_config")
      = sampleMetrics.contractGauges (metricKey "ethereum" "super_chain_config") :=
  ⟨(setContractMetric_frame sampleMetrics "ink" "weth" F64.one).1 (by rfl),
   ((setContractMetric_frame sampleMetrics "ink" "chaos_push_oracle" F64.one).2
      ⟨"ink_eth_monitor_oracle_price_spread",
        "Monitor metric for ink contract chaos_push_oracle", "ink", "chaos_push_oracle",
        F64.fin 0⟩ (by rfl)).2.1 _ (by decide)⟩

/-! ## Contract accounts -/

/-- `CallBool` succeeds exactly on an answer of at least 32 bytes. -/
theorem callBool_ok_iff (node : Node) (addr : String) (data : List Byte) :
    (∃ b, CallBool node addr data = .ok b) ↔ answersWith node (addr, data, 32) := by
  unfold CallBool answersWith
  cases h : node addr data with
  | error e => simp
  | ok resp =>
    by_cases hlen : resp.length < 32
    · simp [hlen]
    · simp [hlen]; omega

/-- `CallUint256` succeeds exactly on an answer of at least 32 bytes. -/
theorem callUint256_ok_iff (node : Node) (addr : String) (data : List Byte) :
    (∃ v, CallUint256 node addr data = .ok v) ↔ answersWith node (addr, data, 32) := by
  unfold CallUint256 answersWith
  cases h : node addr data with
  | error e => simp
  | ok resp =>
    by_cases hlen : resp.length < 32
    · simp [hlen]
    · simp [hlen]; omega

/-- The shape shared by the four pause-flag monitors. -/
theorem flagMonitor_eq (r : Except GoError Bool) :
    (match r with
      | .error e => (.error e : Except GoError F64)
      | .ok paused => if paused then .ok F64.one else .ok (F64.fin 0))
      = r.map flagValue := by
  cases r with
  | error e => rfl
  | ok b => cases b <;> rfl

/-- The four pause-flag monitors as maps of `CallBool`. -/
theorem flagMonitors_eq (node : Node) (address : String) :
    SuperChainConfig.Monitor node address
      = (CallBool node address (selector "paused()")).map flagValue ∧
    InkOptimismPortal.Monitor node address
      = (CallBool node address (selector "paused()")).map flagValue ∧
    InkStandardBridge.Monitor node address
      = (CallBool node address (selector "paused()")).map flagValue ∧
    AAveProtocolDataProvider.Monitor node address
      = (CallBool node address (selector "getPaused(address)" ++ assetWord)).map flagValue :=
  ⟨flagMonitor_eq _, flagMonitor_eq _, flagMonitor_eq _, flagMonitor_eq _⟩

/-- C16. Each of the four boolean-flag monitors returns the error of `CallBool`, or, for the
decoded boolean `b`, exactly `1.0` when `b` is true and `0.0` when it is false; so a
successful `Monitor` returns `1.0` or `0.0` and no other value, whatever the node answers. -/
theorem flagMonitor_values (node : Node) (address : String) :
    SuperChainConfig.Monitor node address
      = (CallBool node address (selector "paused()")).map flagValue ∧
    InkOptimismPortal.Monitor node address
      = (CallBool node address (selector "paused()")).map flagValue ∧
    InkStandardBridge.Monitor node address
      = (CallBool node address (selector "paused()")).map flagValue ∧
    AAveProtocolDataProvider.Monitor node address
      = (CallBool node address (selector "getPaused(address)" ++ assetWord)).map flagValue ∧
    flagValue true = F64.fin 1 ∧ flagValue false = F64.fin 0 ∧
    ∀ (a : Account) (v : F64),
      a.kind = .superChainConfig ∨ a.kind = .inkOptimismPortal ∨
        a.kind = .inkStandardBridge ∨ a.kind = .aaveProtocolDataProvider →
      a.Monitor node = .ok v → v = F64.fin 1 ∨ v = F64.fin 0 := by
  obtain ⟨h1, h2, h3, h4⟩ := flagMonitors_eq node address
  refine ⟨h1, h2, h3, h4, rfl, rfl, ?_⟩
  intro a v hk hv
  have key : ∀ r : Except GoError Bool, r.map flagValue = .ok v →
      v = F64.fin 1 ∨ v = F64.fin 0 := by
    intro r hr
    cases r with
    | error e => cases hr
    | ok b =>
      cases b
      · right; cases hr; rfl
      · left; cases hr; rfl
  rcases hk with hk | hk | hk | hk <;> simp only [Account.Monitor, hk] at hv
  · exact key _ ((flagMonitor_eq _).symm.trans hv)
  · exact key _ ((flagMonitor_eq _).symm.trans hv)
  · exact key _ ((flagMonitor_eq _).symm.trans hv)
  · exact key _ ((flagMonitor_eq _).symm.trans hv)

/-- C16 at a node that answers with byte 31 equal to 1: the monitor of `sampleAccount`
returns a value, and it is `1.0` or `0.0`. -/
theorem flagMonitor_values_witness :
    sampleAccount.Monitor (constNode longResponse) = .ok (F64.fin 1) ∧
    (F64.fin 1 = F64.fin 1 ∨ F64.fin 1 = F64.fin 0) :=
  have h : sampleAccount.Monitor (constNode longResponse) = .ok (F64.fin 1) := rfl
  ⟨h, (flagMonitor_values (constNode longResponse) "").2.2.2.2.2.2 sampleAccount (F64.fin 1)
    (Or.inl rfl) h⟩

theorem except_map_ok_iff {α β : Type} (r : Except GoError α) (f : α → β) :
    (∃ v, r.map f = .ok v) ↔ ∃ b, r = .ok b := by
  cases r with
  | error e => simp [Except.map]
  | ok b => simp [Except.map]

/-- The reserve cap monitor succeeds exactly when both of its calls are answered with enough
bytes. -/
theorem inkWLWEth_ok_iff (node : Node) (address : String) :
    (∃ v, InkWLWEth.Monitor node address = .ok v) ↔
      answersWith node (DefaultL2AaveProtocolDataProvider,
        selector "getReserveCaps(address)" ++ assetWord, 64) ∧
      answersWith node (address, selector "totalSupply()", 32) := by
  rw [← callUint256_ok_iff]
  unfold InkWLWEth.Monitor CallRaw answersWith
  show _ ↔ (∃ resp, node DefaultL2AaveProtocolDataProvider
      (selector "getReserveCaps(address)" ++ assetWord) = .ok resp ∧ 64 ≤ resp.length) ∧ _
  cases h : node DefaultL2AaveProtocolDataProvider
      (selector "getReserveCaps(address)" ++ assetWord) with
  | error e =>
    have h2 : node DefaultL2AaveProtocolDataProvider (selector "getReserveCaps(address)" ++
        leftPad32 (hexDecodeString (trimPrefix0x "0x4200000000000000000000000000000000000006")))
        = .error e := h
    simp [h2]
  | ok resp =>
    have h2 : node DefaultL2AaveProtocolDataProvider (selector "getReserveCaps(address)" ++
        leftPad32 (hexDecodeString (trimPrefix0x "0x4200000000000000000000000000000000000006")))
        = .ok resp := h
    simp only [h2]
    by_cases hlen : resp.length < 64
    · simp [hlen]
    · have hge : 64 ≤ resp.length := by omega
      simp only [hlen, if_false]
      cases hc : CallUint256 node address (selector "totalSupply()") with
      | error e => simp
      | ok ts => simp [hge]

/-- An account's `Monitor` returns a value exactly when every call it needs is answered
without error and with enough bytes. -/
theorem monitor_ok_iff (a : Account) (node : Node) :
    (∃ v, a.Monitor node = .ok v) ↔ ∀ c ∈ a.calls, answersWith node c := by
  obtain ⟨kind, address⟩ := a
  cases kind
  · simp only [Account.Monitor, Account.calls, List.mem_singleton, forall_eq,
      (flagMonitors_eq node address).1, except_map_ok_iff, callBool_ok_iff]
  · simp only [Account.Monitor, Account.calls, List.mem_singleton, forall_eq,
      (flagMonitors_eq node address).2.1, except_map_ok_iff, callBool_ok_iff]
  · simp only [Account.Monitor, Account.calls, List.mem_singleton, forall_eq,
      (flagMonitors_eq node address).2.2.1, except_map_ok_iff, callBool_ok_iff]
  · simp only [Account.Monitor, Account.calls, List.mem_singleton, forall_eq,
      (flagMonitors_eq node address).2.2.2, except_map_ok_iff, callBool_ok_iff]
  · simp only [Account.Monitor, Account.calls, List.mem_singleton, forall_eq]
    rw [← callUint256_ok_iff]
    unfold ChaosPushOracle.Monitor CallInt256
    cases CallUint256 node address (selector "latestAnswer()") <;> simp
  · simp only [Account.Monitor, Account.calls, List.mem_cons, List.mem_singleton,
      List.not_mem_nil, or_false, forall_eq_or_imp, forall_eq]
    exact inkWLWEth_ok_iff node address

/-- If a call an account's `Monitor` needs fails or is answered with too few bytes, `Monitor`
returns an error. -/
theorem monitor_error_of_bad_call (a : Account) (node : Node)
    (h : ∃ c ∈ a.calls, ¬ answersWith node c) : ∃ e, a.Monitor node = .error e := by
  obtain ⟨c, hc, hbad⟩ := h
  cases hm : a.Monitor node with
  | error e => exact ⟨e, rfl⟩
  | ok v => exact absurd ((monitor_ok_iff a node).1 ⟨v, hm⟩ c hc) hbad

/-- C17. For each of the six contract variants `Monitor` returns a value (a nil error) if
and only if every call it needs is answered by the node without error and with at least the
bytes its decoder asks for (32 for a boolean or an integer, 64 for `getReserveCaps`); so if
any underlying call fails or any answer is undersized, `Monitor` returns a non-nil error, and
never a substitute value. -/
theorem monitor_error_surfaces (a : Account) (node : Node) :
    ((∃ v, a.Monitor node = .ok v) ↔ ∀ c ∈ a.calls, answersWith node c) ∧
    ((∃ c ∈ a.calls, ¬ answersWith node c) → ∃ e, a.Monitor node = .error e) :=
  ⟨monitor_ok_iff a node, monitor_error_of_bad_call a node⟩

/-- C17 at `sampleAccount` and a node that fails every call. -/
theorem monitor_error_surfaces_witness :
    ∃ e, sampleAccount.Monitor deadNode = .error e :=
  (monitor_error_surfaces sampleAccount deadNode).2
    ⟨(sampleAccount.address, selector "paused()", 32), List.mem_singleton.2 rfl,
      by simp [answersWith, deadNode]⟩

/-- As long as the context is not done at the checks and the attempts fail, the loop of `Do`
moves on: after `n` such rounds it stands at the loop condition with counter `i + n`, having
called the closure `n` times and waited `n` times. -/
theorem doLoop_advance {σ : Type} (ctx : Ctx) (fn : σ → Option GoError × σ) (maxRetries : Int)
    (n : Nat) :
    ∀ (fuel i : Nat) (s : σ) (err : Option GoError) (calls waits : Nat),
      ((i + n : Nat) : Int) ≤ maxRetries →
      (∀ j, j < n → ctx.doneBefore (i + j) = false ∧ (fn (stateAfter fn j s)).1 ≠ none ∧
        ctx.doneInWait (i + j) = false) →
      ∃ err2, doLoop ctx fn maxRetries (fuel + n) i s err calls waits
        = doLoop ctx fn maxRetries fuel (i + n) (stateAfter fn n s) err2 (calls + n)
            (waits + n) := by
  induction n with
  | zero =>
    intro fuel i s err calls waits _ _
    exact ⟨err, rfl⟩
  | succ n ih =>
    intro fuel i s err calls waits hle hall
    obtain ⟨hb, hf, hw⟩ := hall 0 (Nat.succ_pos n)
    simp only [Nat.add_zero] at hb hw
    have hle1 : (i : Int) ≤ maxRetries := by push_cast at hle; omega
    have hne : ¬ (i : Int) = maxRetries := by push_cast at hle; omega
    rcases hfn : fn s with ⟨r, s1⟩
    cases r with
    | none =>
      exact absurd (by rw [show stateAfter fn 0 s = s from rfl, hfn]) hf
    | some e =>
      obtain ⟨err2, hrec⟩ := ih fuel (i + 1) s1 (some e) (calls + 1) (waits + 1)
        (by push_cast at hle ⊢; omega)
        (fun j hj => by
          have h := hall (j + 1) (Nat.succ_lt_succ hj)
          have hs : stateAfter fn (j + 1) s = stateAfter fn j s1 := by
            simp [stateAfter, hfn]
          rw [hs] at h
          have hidx : i + (j + 1) = i + 1 + j := by omega
          rw [hidx] at h
          exact h)
      refine ⟨err2, ?_⟩
      have hfuel : fuel + (n + 1) = (fuel + n) + 1 := by omega
      rw [hfuel]
      simp only [doLoop, hle1, hne, if_true, if_false, hb, hw, Bool.false_eq_true, hfn]
      rw [hrec]
      have hs : stateAfter fn (n + 1) s = stateAfter fn n s1 := by simp [stateAfter, hfn]
      rw [hs]
      congr 1 <;> omega

/-- C11, the code at `maxRetries = -1` on a context that is already cancelled: the loop body
never runs, so the closure is not called, but the returned error is the error of exhaustion,
not the cancellation error of the context. -/
theorem do_cancelled_negative_retries :
    (Do Ctx.cancelled alwaysFailing (-1) 0).calls = 0 ∧
    (Do Ctx.cancelled alwaysFailing (-1) 0).err
      = some (GoError.wrapNil "重试-1次后仍然失败: ") ∧
    (Do Ctx.cancelled alwaysFailing (-1) 0).err ≠ some Ctx.cancelled.err := by
  decide

/-- C11, amended: for `maxRetries >= 0`, `retry.Do` checks cancellation before every attempt
and during every delay wait.  (1) If the context is already done at the first check, the
closure is called zero times and `ctx.Err()` is returned.  (2) If the first `k` attempts fail
with no cancellation seen before them, and the context is then found done, either in the
wait after attempt `k - 1` or at the check before attempt `k`, `Do` returns `ctx.Err()`
having called the closure exactly those `k` times. -/
theorem do_cancellation {σ : Type} (ctx : Ctx) (fn : σ → Option GoError × σ)
    (maxRetries : Int) (s : σ) (hmax : 0 ≤ maxRetries) :
    (ctx.doneBefore 0 = true → Do ctx fn maxRetries s = ⟨some ctx.err, s, 0, 0⟩) ∧
    (∀ k : Nat, (k : Int) ≤ maxRetries →
      (∀ j, j < k → ctx.doneBefore j = false ∧ (fn (stateAfter fn j s)).1 ≠ none) →
      (∀ j, j + 1 < k → ctx.doneInWait j = false) →
      ((0 < k ∧ ctx.doneInWait (k - 1) = true) ∨
        ((k = 0 ∨ ctx.doneInWait (k - 1) = false) ∧ ctx.doneBefore k = true)) →
      (Do ctx fn maxRetries s).err = some ctx.err ∧
      (Do ctx fn maxRetries s).calls = k ∧
      (Do ctx fn maxRetries s).state = stateAfter fn k s) := by
  constructor
  · intro h0
    obtain ⟨f, hf⟩ : ∃ f, (maxRetries + 2).toNat = f + 1 :=
      ⟨(maxRetries + 2).toNat - 1, by omega⟩
    unfold Do
    rw [hf]
    have hle : ((0 : Nat) : Int) ≤ maxRetries := by simpa using hmax
    simp only [doLoop, hle, if_true, h0]
  · intro k hk hpre hwait hcase
    unfold Do
    rcases hcase with ⟨hpos, hw⟩ | ⟨hprev, hb⟩
    · -- cancelled in the wait after attempt k - 1
      obtain ⟨n, rfl⟩ : ∃ n, k = n + 1 := ⟨k - 1, by omega⟩
      simp only [Nat.add_sub_cancel] at hw
      obtain ⟨f, hf⟩ : ∃ f, (maxRetries + 2).toNat = (f + 1) + n :=
        ⟨(maxRetries + 2).toNat - n - 1, by push_cast at hk; omega⟩
      obtain ⟨err2, hadv⟩ := doLoop_advance ctx fn maxRetries n (f + 1) 0 s none 0 0
        (by push_cast at hk ⊢; omega)
        (fun j hj => by
          have h := hpre j (by omega)
          simp only [Nat.zero_add]
          exact ⟨h.1, h.2, hwait j (by omega)⟩)
      rw [hf, hadv]
      obtain ⟨hbn, hfn⟩ := hpre n (by omega)
      have hle : ((0 + n : Nat) : Int) ≤ maxRetries := by push_cast at hk ⊢; omega
      have hne : ¬ ((0 + n : Nat) : Int) = maxRetries := by push_cast at hk ⊢; omega
      have hbn2 : ctx.doneBefore (0 + n) = false := by simpa using hbn
      have hw2 : ctx.doneInWait (0 + n) = true := by simpa using hw
      rcases hcall : fn (stateAfter fn n s) with ⟨r, s1⟩
      cases r with
      | none => exact absurd (by rw [hcall]) hfn
      | some e =>
        simp only [doLoop, hle, hne, if_true, if_false, hbn2, hw2, Bool.false_eq_true, hcall]
        refine ⟨trivial, by omega, ?_⟩
        have : ∀ (m : Nat) (t : σ), stateAfter fn (m + 1) t = (fn (stateAfter fn m t)).2 := by
          intro m
          induction m with
          | zero => intro t; rfl
          | succ m ihm => intro t; exact ihm (fn t).2
        rw [this n s, hcall]
    · -- cancelled at the check before attempt k
      obtain ⟨f, hf⟩ : ∃ f, (maxRetries + 2).toNat = (f + 1) + k :=
        ⟨(maxRetries + 2).toNat - k - 1, by omega⟩
      obtain ⟨err2, hadv⟩ := doLoop_advance ctx fn maxRetries k (f + 1) 0 s none 0 0
        (by simpa using hk)
        (fun j hj => by
          have h := hpre j hj
          simp only [Nat.zero_add]
          refine ⟨h.1, h.2, ?_⟩
          by_cases hlast : j + 1 < k
          · exact hwait j hlast
          · have hj2 : j = k - 1 := by omega
            rcases hprev with h0 | hp
            · omega
            · rw [hj2]; exact hp)
      rw [hf, hadv]
      have hle : ((0 + k : Nat) : Int) ≤ maxRetries := by simpa using hk
      have hb2 : ctx.doneBefore (0 + k) = true := by simpa using hb
      simp only [doLoop, hle, if_true, hb2]
      exact ⟨trivial, by omega, trivial⟩

/-- The amended C11 at `maxRetries = 2`: a context already cancelled, and a context
cancelled during the wait after the first attempt. -/
theorem do_cancellation_witness :
    Do Ctx.cancelled alwaysFailing 2 0 = ⟨some Ctx.cancelled.err, 0, 0, 0⟩ ∧
    ((Do (Ctx.cancelledInWait 0) alwaysFailing 2 0).err = some (Ctx.cancelledInWait 0).err ∧
      (Do (Ctx.cancelledInWait 0) alwaysFailing 2 0).calls = 1 ∧
      (Do (Ctx.cancelledInWait 0) alwaysFailing 2 0).state = stateAfter alwaysFailing 1 0) :=
  ⟨(do_cancellation Ctx.cancelled alwaysFailing 2 0 (by decide)).1 rfl,
   (do_cancellation (Ctx.cancelledInWait 0) alwaysFailing 2 0 (by decide)).2 1 (by decide)
     (fun j hj => by
       have hj0 : j = 0 := by omega
       subst hj0
       exact ⟨rfl, by simp [alwaysFailing]⟩)
     (fun j hj => by omega)
     (Or.inl ⟨by decide, rfl⟩)⟩

/-! ## Polling scheduler -/

/-- A check of a primary-chain contract whose `Monitor` fails returns an error. -/
theorem checkEthereumContract_fails (w : World) (contract : Account) (st : SchedState)
    (e : GoError) (h : contract.Monitor (w.ethNode st.clock) = .error e) :
    checkEthereumContract w contract st
      = (some (GoError.wrap "监控合约失败: " e), { st with clock := st.clock + 1 }) := by
  simp [checkEthereumContract, h]

/-- A check of a secondary-chain contract whose `Monitor` fails returns an error, on the
price-deviation path as on the plain one. -/
theorem checkInkContract_fails (w : World) (contract : Account) (st : SchedState)
    (e : GoError) (h : contract.Monitor (w.inkNode st.clock) = .error e) :
    ∃ err, checkInkContract w contract st = (some err, { st with clock := st.clock + 1 }) := by
  unfold checkInkContract
  split_ifs
  · exact ⟨GoError.wrap "获取INK链价格失败: " e, by simp [checkPriceFeedDeviation, h]⟩
  · exact ⟨GoError.wrap "监控合约失败: " e, by simp [h]⟩

/-- Every check moves the attempt counter on by one. -/
theorem checkEthereumContract_clock (w : World) (contract : Account) (st : SchedState) :
    (checkEthereumContract w contract st).2.clock = st.clock + 1 := by
  unfold checkEthereumContract
  cases contract.Monitor (w.ethNode st.clock) <;> rfl

theorem checkInkContract_clock (w : World) (contract : Account) (st : SchedState) :
    (checkInkContract w contract st).2.clock = st.clock + 1 := by
  unfold checkInkContract checkPriceFeedDeviation
  split_ifs
  · cases contract.Monitor (w.inkNode st.clock) with
    | error e => rfl
    | ok v => cases ChaosPushOracle.Monitor (w.ethNode st.clock) chainlinkAddr <;> rfl
  · cases contract.Monitor (w.inkNode st.clock) <;> rfl

theorem stateAfter_clock {fn : SchedState → Option GoError × SchedState}
    (hclock : ∀ s, (fn s).2.clock = s.clock + 1) (k : Nat) :
    ∀ s, (stateAfter fn k s).clock = s.clock + k := by
  induction k with
  | zero => intro s; rfl
  | succ k ih =>
    intro s
    simp only [stateAfter]
    rw [ih, hclock]
    omega

/-- The retry-wrapped run of a check that fails at every attempt: `RetryTimes + 1` attempts,
and the error of exhaustion. -/
theorem do_check_always_failing (fn : SchedState → Option GoError × SchedState)
    (hclock : ∀ s, (fn s).2.clock = s.clock + 1) (hfail : ∀ s, (fn s).1 ≠ none)
    (retryTimes : Int) (hretry : 0 ≤ retryTimes) (st : SchedState) :
    ((Do Ctx.background fn retryTimes st).calls : Int) = retryTimes + 1 ∧
    (Do Ctx.background fn retryTimes st).state.clock = st.clock + (retryTimes.toNat + 1) ∧
    (∃ e, (Do Ctx.background fn retryTimes st).err = some e) := by
  have hk : ((0 : Nat) : Int) + (retryTimes.toNat : Nat) = retryTimes := by
    rw [Int.toNat_of_nonneg hretry]; simp
  have hfuel : retryTimes.toNat + 1 ≤ (retryTimes + 2).toNat := by omega
  have hrun := doLoop_always_failing fn retryTimes hfail retryTimes.toNat
    (retryTimes + 2).toNat 0 st none 0 0 hk hfuel
  unfold Do
  rw [hrun]
  refine ⟨?_, stateAfter_clock hclock _ st, _, rfl⟩
  simp only [Nat.zero_add]
  push_cast
  rw [Int.toNat_of_nonneg hretry]

/-- The poll functions return the result of `retry.Do` and keep its attempt counter. -/
theorem pollEthereumContract_result (w : World) (ctx : Ctx) (cfg : MonitorConfig)
    (contract : Account) (st : SchedState) :
    (pollEthereumContract w ctx cfg contract st).1
      = Do ctx (checkEthereumContract w contract) cfg.RetryTimes st ∧
    (pollEthereumContract w ctx cfg contract st).2.clock
      = (Do ctx (checkEthereumContract w contract) cfg.RetryTimes st).state.clock := by
  unfold pollEthereumContract
  generalize Do ctx (checkEthereumContract w contract) cfg.RetryTimes st = r
  rcases r with ⟨err, state, calls, waits⟩
  cases err <;> exact ⟨rfl, rfl⟩

theorem pollInkContract_result (w : World) (ctx : Ctx) (cfg : MonitorConfig)
    (contract : Account) (st : SchedState) :
    (pollInkContract w ctx cfg contract st).1
      = Do ctx (checkInkContract w contract) cfg.RetryTimes st ∧
    (pollInkContract w ctx cfg contract st).2.clock
      = (Do ctx (checkInkContract w contract) cfg.RetryTimes st).state.clock := by
  unfold pollInkContract
  generalize Do ctx (checkInkContract w contract) cfg.RetryTimes st = r
  rcases r with ⟨err, state, calls, waits⟩
  cases err <;> exact ⟨rfl, rfl⟩

/-- C12, the code on a decode failure with two retries configured: the node answers the
`paused()` call of `sampleAccount` with 31 bytes at every attempt, `Monitor` fails with the
error of the undersized answer, and the retry-wrapped poll makes three attempts, not one. -/
theorem poll_retries_decode_failure :
    sampleAccount.Monitor (constNode shortResponse)
      = .error (GoError.leaf "返回数据长度不足: 31") ∧
    (pollEthereumContract (constWorld shortResponse) Ctx.background sampleMonitorConfig
      sampleAccount sampleState).1.calls = 3 ∧
    (pollEthereumContract (constWorld shortResponse) Ctx.background sampleMonitorConfig
      sampleAccount sampleState).1.calls ≠ 1 := by
  refine ⟨rfl, ?_, ?_⟩ <;> decide

/-- C12, amended: a decode failure is retried like every other failure.  When at every
attempt some call the contract's `Monitor` needs fails or is answered with too few bytes (for
example fewer than 32 bytes for a boolean), the retry-wrapped poll of the contract, on either
chain and with a context that is not cancelled, makes exactly `RetryTimes + 1` attempts in
the tick, for every configured retry count `RetryTimes >= 0` (one attempt only for
`RetryTimes = 0`), and then logs the failure. -/
theorem poll_attempts_on_failure (w : World) (cfg : MonitorConfig) (contract : Account)
    (st : SchedState) (hretry : 0 ≤ cfg.RetryTimes) :
    ((∀ t, ∃ c ∈ contract.calls, ¬ answersWith (w.ethNode t) c) →
      ((pollEthereumContract w Ctx.background cfg contract st).1.calls : Int)
        = cfg.RetryTimes + 1 ∧
      (pollEthereumContract w Ctx.background cfg contract st).2.clock
        = st.clock + (cfg.RetryTimes.toNat + 1) ∧
      ∃ e, (pollEthereumContract w Ctx.background cfg contract st).1.err = some e) ∧
    ((∀ t, ∃ c ∈ contract.calls, ¬ answersWith (w.inkNode t) c) →
      ((pollInkContract w Ctx.background cfg contract st).1.calls : Int)
        = cfg.RetryTimes + 1 ∧
      (pollInkContract w Ctx.background cfg contract st).2.clock
        = st.clock + (cfg.RetryTimes.toNat + 1) ∧
      ∃ e, (pollInkContract w Ctx.background cfg contract st).1.err = some e) := by
  constructor
  · intro hbad
    have hfail : ∀ s, (checkEthereumContract w contract s).1 ≠ none := by
      intro s
      obtain ⟨e, he⟩ := monitor_error_of_bad_call contract (w.ethNode s.clock) (hbad s.clock)
      rw [checkEthereumContract_fails w contract s e he]
      simp
    obtain ⟨h1, h2, e, h3⟩ := do_check_always_failing (checkEthereumContract w contract)
      (checkEthereumContract_clock w contract) hfail cfg.RetryTimes hretry st
    obtain ⟨hr, hc⟩ := pollEthereumContract_result w Ctx.background cfg contract st
    rw [hr, hc]
    exact ⟨h1, h2, e, h3⟩
  · intro hbad
    have hfail : ∀ s, (checkInkContract w contract s).1 ≠ none := by
      intro s
      obtain ⟨e, he⟩ := monitor_error_of_bad_call contract (w.inkNode s.clock) (hbad s.clock)
      obtain ⟨err, herr⟩ := checkInkContract_fails w contract s e he
      rw [herr]
      simp
    obtain ⟨h1, h2, e, h3⟩ := do_check_always_failing (checkInkContract w contract)
      (checkInkContract_clock w contract) hfail cfg.RetryTimes hretry st
    obtain ⟨hr, hc⟩ := pollInkContract_result w Ctx.background cfg contract st
    rw [hr, hc]
    exact ⟨h1, h2, e, h3⟩

/-- The amended C12 at two retries and a node that answers with 31 bytes. -/
theorem poll_attempts_on_failure_witness :
    ((pollEthereumContract (constWorld shortResponse) Ctx.background sampleMonitorConfig
        sampleAccount sampleState).1.calls : Int) = sampleMonitorConfig.RetryTimes + 1 ∧
    (pollEthereumContract (constWorld shortResponse) Ctx.background sampleMonitorConfig
        sampleAccount sampleState).2.clock
      = sampleState.clock + (sampleMonitorConfig.RetryTimes.toNat + 1) ∧
    ∃ e, (pollEthereumContract (constWorld shortResponse) Ctx.background sampleMonitorConfig
        sampleAccount sampleState).1.err = some e :=
  (poll_attempts_on_failure (constWorld shortResponse) sampleMonitorConfig sampleAccount
    sampleState (by decide)).1
    (fun _ => ⟨(sampleAccount.address, selector "paused()", 32), List.mem_singleton.2 rfl,
      by simp [answersWith, constWorld, constNode, shortResponse]⟩)

/-- C13, the code at a tick in which the superchain configuration reports `paused() = true`:
the check obtains the value `1.0` and its whole effect is the call of the metrics sink, which
sets the gauge to `1.0`, and two log lines.  The scheduler holds no emergency manager and the
check makes no call of `CheckAlert`, although the pause flag at `1.0` satisfies the rule
table. -/
theorem check_sets_metric_only :
    sampleAccount.Monitor ((constWorld longResponse).ethNode sampleState.clock)
      = .ok F64.one ∧
    (checkEthereumContract (constWorld longResponse) sampleAccount sampleState).1 = none ∧
    (checkEthereumContract (constWorld longResponse) sampleAccount sampleState).2.events
      = [SchedEvent.setMetric "ethereum" "super_chain_config" F64.one,
         SchedEvent.metricsLog (MetricsLog.valueSet "ethereum_super_chain_config" F64.one),
         SchedEvent.logChecked "ethereum" "super_chain_config" "pause_simple" F64.one] ∧
    Option.map Gauge.value
      ((checkEthereumContract (constWorld longResponse) sampleAccount
        sampleState).2.metrics.contractGauges "ethereum_super_chain_config") = some F64.one ∧
    ruleHolds (getMetricName "ethereum" sampleAccount.Name) F64.one := by
  refine ⟨rfl, rfl, rfl, rfl, ?_⟩
  exact Or.inl ⟨Or.inl (by decide), by simp [F64.eq, F64.one]⟩

/-! ## Transaction submission -/

theorem submitted_append (a b : List RpcEvent) : submitted (a ++ b) = submitted a ++ submitted b := by
  induction a with
  | nil => rfl
  | cons x xs ih => cases x <;> simp [submitted, ih]

/-- C20. In `SendTransaction`, for every gas estimate `g`, suggested tip `t` and latest base
fee `b` (with the nonce and the chain id fetched), the transaction that is signed has gas
limit `max(g, 3000000)`, tip cap `t` and fee cap exactly `t + 2 b`, and when signing succeeds
it is the one and only transaction handed to the submit operation; its fee cap is at least
its tip cap whenever `b >= 0`. -/
theorem sendTransaction_fees (d : Delegate) (rpc : ChainRPC) (sender dest : String) (value : Int)
    (data : List Byte) (nonce g : Nat) (chainID t b : Int)
    (hnonce : rpc.pendingNonceAt (rpc.botAddress d.privateKey) = .ok nonce)
    (hchain : rpc.chainID = .ok chainID)
    (hgas : rpc.estimateGas sender dest value data = .ok g)
    (htip : rpc.suggestGasTipCap = .ok t)
    (hbase : rpc.headerBaseFee = .ok (some b)) :
    ∃ res evs, d.SendTransaction rpc sender dest value data = some (res, evs) ∧
      RpcEvent.signTx ⟨chainID, nonce, t, t + 2 * b, max g 3000000, dest, value, data⟩ ∈ evs ∧
      (∀ stx, rpc.signTx ⟨chainID, nonce, t, t + 2 * b, max g 3000000, dest, value, data⟩
          chainID d.privateKey = .ok stx → submitted evs = [stx]) ∧
      (∀ e, rpc.signTx ⟨chainID, nonce, t, t + 2 * b, max g 3000000, dest, value, data⟩
          chainID d.privateKey = .error e → submitted evs = [] ∧ res = .error e) ∧
      (0 ≤ b → t ≤ t + 2 * b) := by
  have hmax : (if g < 3000000 then 3000000 else g) = max g 3000000 := by
    split_ifs with h
    · exact (max_eq_right (le_of_lt h)).symm
    · exact (max_eq_left (not_lt.1 h)).symm
  have hfee : t + b * 2 = t + 2 * b := by ring
  unfold Delegate.SendTransaction
  simp only [hnonce, hchain, hgas, htip, hbase, hmax, hfee]
  cases hs : rpc.signTx ⟨chainID, nonce, t, t + 2 * b, max g 3000000, dest, value, data⟩
      chainID d.privateKey with
  | error e =>
    refine ⟨_, _, rfl, by simp, by simp, ?_, fun hb => by omega⟩
    intro e2 he2
    cases he2
    exact ⟨by simp [submitted], rfl⟩
  | ok stx =>
    simp only []
    cases hsend : rpc.sendTransaction stx with
    | some e =>
      simp only []
      refine ⟨_, _, rfl, by simp, ?_, by simp, fun hb => by omega⟩
      intro stx2 h2
      cases h2
      simp [submitted]
    | none =>
      simp only []
      refine ⟨_, _, rfl, by simp, ?_, by simp, fun hb => by omega⟩
      intro stx2 h2
      cases h2
      simp [submitted]

/-- C20 at a gas estimate of 21000, a tip of 2 and a base fee of 10: gas limit 3000000, fee
cap 22. -/
theorem sendTransaction_fees_witness :
    ∃ res evs, sampleDelegate.SendTransaction (sampleRPC 21000 2 10) "0x725889fd"
        sampleDelegate.argus 0 [] = some (res, evs) ∧
      RpcEvent.signTx ⟨57073, 7, 2, 2 + 2 * 10, max 21000 3000000, sampleDelegate.argus, 0, []⟩
        ∈ evs ∧
      (∀ stx, (sampleRPC 21000 2 10).signTx
          ⟨57073, 7, 2, 2 + 2 * 10, max 21000 3000000, sampleDelegate.argus, 0, []⟩
          57073 sampleDelegate.privateKey = .ok stx → submitted evs = [stx]) ∧
      (∀ e, (sampleRPC 21000 2 10).signTx
          ⟨57073, 7, 2, 2 + 2 * 10, max 21000 3000000, sampleDelegate.argus, 0, []⟩
          57073 sampleDelegate.privateKey = .error e → submitted evs = [] ∧ res = .error e) ∧
      ((0 : Int) ≤ 10 → (2 : Int) ≤ 2 + 2 * 10) :=
  sendTransaction_fees sampleDelegate (sampleRPC 21000 2 10) "0x725889fd"
    sampleDelegate.argus 0 [] 7 21000 57073 2 10 rfl rfl rfl rfl rfl

/-! ## Rounding of `big.Float` and float64 -/

theorem bitLenAux_zero (fuel : Nat) : bitLenAux fuel 0 = 0 := by
  cases fuel <;> simp [bitLenAux]

/-- The bit length of a positive number `n` is the `b` with `2^(b-1) ≤ n < 2^b`. -/
theorem bitLenAux_spec (fuel : Nat) :
    ∀ n, n ≤ fuel → 0 < n →
      1 ≤ bitLenAux fuel n ∧ 2 ^ (bitLenAux fuel n - 1) ≤ n ∧ n < 2 ^ bitLenAux fuel n := by
  induction fuel with
  | zero => intro n h0 hpos; omega
  | succ f ih =>
    intro n hn hpos
    have hne : n ≠ 0 := by omega
    simp only [bitLenAux, hne, if_false]
    by_cases h1 : n / 2 = 0
    · have hn1 : n = 1 := by omega
      subst hn1
      simp [bitLenAux_zero]
    · obtain ⟨hb1, hlo, hhi⟩ := ih (n / 2) (by omega) (by omega)
      refine ⟨by omega, ?_, ?_⟩
      · have : bitLenAux f (n / 2) + 1 - 1 = (bitLenAux f (n / 2) - 1) + 1 := by omega
        rw [this, pow_succ]
        omega
      · rw [pow_succ]
        omega

theorem bitLen_spec (n : Nat) (hpos : 0 < n) :
    1 ≤ bitLen n ∧ 2 ^ (bitLen n - 1) ≤ n ∧ n < 2 ^ bitLen n :=
  bitLenAux_spec n n (le_refl n) hpos

/-- The rational `n / d` lies strictly between `2^(k-1)` and `2^(k+1)` for the difference
`k` of the bit lengths. -/
theorem bitLen_ratio (n d : Nat) (hn : 0 < n) (hd : 0 < d) :
    (2 : ℚ) ^ ((bitLen n : Int) - bitLen d - 1) < (n : ℚ) / d ∧
    (n : ℚ) / d < (2 : ℚ) ^ ((bitLen n : Int) - bitLen d + 1) := by
  obtain ⟨hn1, hnlo, hnhi⟩ := bitLen_spec n hn
  obtain ⟨hd1, hdlo, hdhi⟩ := bitLen_spec d hd
  have hdq : (0 : ℚ) < d := by exact_mod_cast hd
  have hnlo' : (2 : ℚ) ^ ((bitLen n : Int) - 1) ≤ n := by
    have : ((2 ^ (bitLen n - 1) : Nat) : ℚ) ≤ n := by exact_mod_cast hnlo
    rw [Nat.cast_pow] at this
    have e : ((bitLen n : Int) - 1) = ((bitLen n - 1 : Nat) : Int) := by omega
    rw [e, zpow_natCast]
    exact_mod_cast this
  have hnhi' : (n : ℚ) < (2 : ℚ) ^ (bitLen n : Int) := by
    rw [zpow_natCast]; exact_mod_cast hnhi
  have hdlo' : (2 : ℚ) ^ ((bitLen d : Int) - 1) ≤ d := by
    have : ((2 ^ (bitLen d - 1) : Nat) : ℚ) ≤ d := by exact_mod_cast hdlo
    rw [Nat.cast_pow] at this
    have e : ((bitLen d : Int) - 1) = ((bitLen d - 1 : Nat) : Int) := by omega
    rw [e, zpow_natCast]
    exact_mod_cast this
  have hdhi' : (d : ℚ) < (2 : ℚ) ^ (bitLen d : Int) := by
    rw [zpow_natCast]; exact_mod_cast hdhi
  have h2 : (0 : ℚ) < 2 := by norm_num
  constructor
  · rw [lt_div_iff₀ hdq]
    have e : ((bitLen n : Int) - bitLen d - 1) = ((bitLen n : Int) - 1) - bitLen d := by ring
    rw [e, zpow_sub₀ (by norm_num : (2 : ℚ) ≠ 0)]
    have hpos : (0 : ℚ) < (2 : ℚ) ^ (bitLen d : Int) := zpow_pos h2 _
    calc (2 : ℚ) ^ ((bitLen n : Int) - 1) / (2 : ℚ) ^ (bitLen d : Int) * d
        < (2 : ℚ) ^ ((bitLen n : Int) - 1) / (2 : ℚ) ^ (bitLen d : Int)
            * (2 : ℚ) ^ (bitLen d : Int) := by
          apply mul_lt_mul_of_pos_left hdhi'
          exact div_pos (zpow_pos h2 _) hpos
      _ = (2 : ℚ) ^ ((bitLen n : Int) - 1) := by field_simp
      _ ≤ n := hnlo'
  · rw [div_lt_iff₀ hdq]
    have e : ((bitLen n : Int) - bitLen d + 1) = (bitLen n : Int) - ((bitLen d : Int) - 1) := by
      ring
    rw [e, zpow_sub₀ (by norm_num : (2 : ℚ) ≠ 0)]
    have hpos : (0 : ℚ) < (2 : ℚ) ^ ((bitLen d : Int) - 1) := zpow_pos h2 _
    calc (n : ℚ) < (2 : ℚ) ^ (bitLen n : Int) := hnhi'
      _ = (2 : ℚ) ^ (bitLen n : Int) / (2 : ℚ) ^ ((bitLen d : Int) - 1)
            * (2 : ℚ) ^ ((bitLen d : Int) - 1) := by field_simp
      _ ≤ (2 : ℚ) ^ (bitLen n : Int) / (2 : ℚ) ^ ((bitLen d : Int) - 1) * d := by
          apply mul_le_mul_of_nonneg_left hdlo'
          exact le_of_lt (div_pos (zpow_pos h2 _) hpos)

/-- The exponent computed by `floorLog2`: `2^e ≤ n / d < 2^(e+1)`. -/
theorem floorLog2_spec (n d : Nat) (hn : 0 < n) (hd : 0 < d) :
    (2 : ℚ) ^ (floorLog2 n d) ≤ (n : ℚ) / d ∧ (n : ℚ) / d < (2 : ℚ) ^ (floorLog2 n d + 1) := by
  obtain ⟨hlo, hhi⟩ := bitLen_ratio n d hn hd
  have hdq : (0 : ℚ) < d := by exact_mod_cast hd
  have h2 : (0 : ℚ) < 2 := by norm_num
  have h2ne : (2 : ℚ) ≠ 0 := by norm_num
  unfold floorLog2
  simp only []
  generalize hk : (bitLen n : Int) - (bitLen d : Int) = k at hlo hhi ⊢
  by_cases hk0 : 0 ≤ k
  · simp only [hk0, if_true]
    have hpow : (2 : ℚ) ^ k = ((2 ^ k.toNat : Nat) : ℚ) := by
      rw [Nat.cast_pow, Nat.cast_ofNat, ← zpow_natCast, Int.toNat_of_nonneg hk0]
    by_cases ht : d * 2 ^ k.toNat ≤ n
    · simp only [ht, if_true]
      refine ⟨?_, hhi⟩
      rw [le_div_iff₀ hdq, hpow]
      have : ((d * 2 ^ k.toNat : Nat) : ℚ) ≤ n := by exact_mod_cast ht
      rw [Nat.cast_mul] at this
      linarith [mul_comm (d : ℚ) ((2 ^ k.toNat : Nat) : ℚ)]
    · simp only [ht, if_false]
      refine ⟨le_of_lt hlo, ?_⟩
      rw [sub_add_cancel, div_lt_iff₀ hdq, hpow]
      have : (n : ℚ) < ((d * 2 ^ k.toNat : Nat) : ℚ) := by exact_mod_cast not_le.1 ht
      rw [Nat.cast_mul] at this
      linarith [mul_comm (d : ℚ) ((2 ^ k.toNat : Nat) : ℚ)]
  · simp only [hk0, if_false]
    have hneg : 0 ≤ -k := by omega
    have hpow : (2 : ℚ) ^ k * ((2 ^ (-k).toNat : Nat) : ℚ) = 1 := by
      have e : ((2 ^ (-k).toNat : Nat) : ℚ) = (2 : ℚ) ^ (-k) := by
        rw [Nat.cast_pow, Nat.cast_ofNat, ← zpow_natCast, Int.toNat_of_nonneg hneg]
      rw [e, ← zpow_add₀ h2ne]
      simp
    have hppos : (0 : ℚ) < ((2 ^ (-k).toNat : Nat) : ℚ) := by positivity
    have hkpos : (0 : ℚ) < (2 : ℚ) ^ k := zpow_pos h2 _
    by_cases ht : d ≤ n * 2 ^ (-k).toNat
    · simp only [ht, if_true]
      refine ⟨?_, hhi⟩
      rw [le_div_iff₀ hdq]
      have : (d : ℚ) ≤ ((n * 2 ^ (-k).toNat : Nat) : ℚ) := by exact_mod_cast ht
      rw [Nat.cast_mul] at this
      calc (2 : ℚ) ^ k * d ≤ (2 : ℚ) ^ k * (n * ((2 ^ (-k).toNat : Nat) : ℚ)) :=
            mul_le_mul_of_nonneg_left this (le_of_lt hkpos)
        _ = n * ((2 : ℚ) ^ k * ((2 ^ (-k).toNat : Nat) : ℚ)) := by ring
        _ = n := by rw [hpow, mul_one]
    · simp only [ht, if_false]
      refine ⟨le_of_lt hlo, ?_⟩
      rw [sub_add_cancel, div_lt_iff₀ hdq]
      have : ((n * 2 ^ (-k).toNat : Nat) : ℚ) < d := by exact_mod_cast not_le.1 ht
      rw [Nat.cast_mul] at this
      calc (n : ℚ) = (2 : ℚ) ^ k * (n * ((2 ^ (-k).toNat : Nat) : ℚ)) := by
            rw [mul_comm (n : ℚ), ← mul_assoc, hpow, one_mul]
        _ < (2 : ℚ) ^ k * d := mul_lt_mul_of_pos_left this hkpos

/-- The integer chosen by `divRoundHalfEven` is within one half of `n / d`. -/
theorem divRoundHalfEven_error (n d : Nat) (hd : 0 < d) :
    |((divRoundHalfEven n d : Nat) : ℚ) - (n : ℚ) / d| ≤ 1 / 2 := by
  have hdq : (0 : ℚ) < d := by exact_mod_cast hd
  have hdiv : (n : ℚ) / d = (n / d : Nat) + ((n % d : Nat) : ℚ) / d := by
    have h := Nat.div_add_mod n d
    have : (n : ℚ) = (d : ℚ) * (n / d : Nat) + (n % d : Nat) := by exact_mod_cast h.symm
    field_simp
    linarith
  have hr : ((n % d : Nat) : ℚ) / d < 1 := by
    rw [div_lt_one hdq]; exact_mod_cast Nat.mod_lt n hd
  have hr0 : (0 : ℚ) ≤ ((n % d : Nat) : ℚ) / d := by positivity
  unfold divRoundHalfEven
  split_ifs with h1 h2 h3
  · have : ((n % d : Nat) : ℚ) / d < 1 / 2 := by
      rw [div_lt_iff₀ hdq]
      have : ((2 * (n % d) : Nat) : ℚ) < d := by exact_mod_cast h1
      push_cast at this; linarith
    rw [hdiv, abs_le]; constructor <;> linarith
  · have : (1 : ℚ) / 2 < ((n % d : Nat) : ℚ) / d := by
      rw [lt_div_iff₀ hdq]
      have : (d : ℚ) < ((2 * (n % d) : Nat) : ℚ) := by exact_mod_cast h2
      push_cast at this; linarith
    rw [hdiv, abs_le]; push_cast; constructor <;> linarith
  · have : ((n % d : Nat) : ℚ) / d = 1 / 2 := by
      rw [div_eq_iff (ne_of_gt hdq)]
      have : 2 * (n % d) = d := by omega
      have : ((2 * (n % d) : Nat) : ℚ) = d := by exact_mod_cast this
      push_cast at this; linarith
    rw [hdiv, abs_le]; constructor <;> linarith
  · have : ((n % d : Nat) : ℚ) / d = 1 / 2 := by
      rw [div_eq_iff (ne_of_gt hdq)]
      have : 2 * (n % d) = d := by omega
      have : ((2 * (n % d) : Nat) : ℚ) = d := by exact_mod_cast this
      push_cast at this; linarith
    rw [hdiv, abs_le]; push_cast; constructor <;> linarith

/-- The multiple of `2^(-sh)` chosen by `roundToUlp` is within half a unit of `n / d`. -/
theorem roundToUlp_error (sh : Int) (n d : Nat) (hd : 0 < d) :
    |roundToUlp sh n d - (n : ℚ) / d| ≤ (2 : ℚ) ^ (-sh) / 2 := by
  have hdq : (0 : ℚ) < d := by exact_mod_cast hd
  have h2ne : (2 : ℚ) ≠ 0 := by norm_num
  unfold roundToUlp
  by_cases hs : 0 ≤ sh
  · simp only [hs, if_true]
    have hp : (0 : ℚ) < (2 : ℚ) ^ sh.toNat := by positivity
    have hzp : (2 : ℚ) ^ (-sh) = 1 / (2 : ℚ) ^ sh.toNat := by
      rw [zpow_neg, ← zpow_natCast, Int.toNat_of_nonneg hs, one_div]
    have herr := divRoundHalfEven_error (n * 2 ^ sh.toNat) d hd
    rw [Rat.mkRat_eq_div]
    push_cast at herr ⊢
    have key : ((divRoundHalfEven (n * 2 ^ sh.toNat) d : Nat) : ℚ) / (2 : ℚ) ^ sh.toNat
        - (n : ℚ) / d
        = (((divRoundHalfEven (n * 2 ^ sh.toNat) d : Nat) : ℚ)
            - (n : ℚ) * (2 : ℚ) ^ sh.toNat / d) / (2 : ℚ) ^ sh.toNat := by
      field_simp
      ring
    rw [key, abs_div, abs_of_pos hp, hzp, div_le_iff₀ hp]
    calc |((divRoundHalfEven (n * 2 ^ sh.toNat) d : Nat) : ℚ)
            - (n : ℚ) * (2 : ℚ) ^ sh.toNat / d| ≤ 1 / 2 := herr
      _ = 1 / (2 : ℚ) ^ sh.toNat / 2 * (2 : ℚ) ^ sh.toNat := by field_simp
  · simp only [hs, if_false]
    have hneg : 0 ≤ -sh := by omega
    have hp : (0 : ℚ) < (2 : ℚ) ^ (-sh).toNat := by positivity
    have hzp : (2 : ℚ) ^ (-sh) = (2 : ℚ) ^ (-sh).toNat := by
      rw [← zpow_natCast, Int.toNat_of_nonneg hneg]
    have herr := divRoundHalfEven_error n (d * 2 ^ (-sh).toNat) (by positivity)
    push_cast at herr ⊢
    have key : ((divRoundHalfEven n (d * 2 ^ (-sh).toNat) : Nat) : ℚ) * (2 : ℚ) ^ (-sh).toNat
        - (n : ℚ) / d
        = (((divRoundHalfEven n (d * 2 ^ (-sh).toNat) : Nat) : ℚ)
            - (n : ℚ) / ((d : ℚ) * (2 : ℚ) ^ (-sh).toNat)) * (2 : ℚ) ^ (-sh).toNat := by
      field_simp
      ring
    rw [key, abs_mul, abs_of_pos hp, hzp]
    calc |((divRoundHalfEven n (d * 2 ^ (-sh).toNat) : Nat) : ℚ)
            - (n : ℚ) / ((d : ℚ) * (2 : ℚ) ^ (-sh).toNat)| * (2 : ℚ) ^ (-sh).toNat
        ≤ 1 / 2 * (2 : ℚ) ^ (-sh).toNat := mul_le_mul_of_nonneg_right herr (le_of_lt hp)
      _ = (2 : ℚ) ^ (-sh).toNat / 2 := by ring

/-- The absolute value of a rational as the quotient of two natural numbers. -/
theorem abs_eq_natAbs_div (q : ℚ) : |q| = (q.num.natAbs : ℚ) / q.den := by
  have hd : (0 : ℚ) < q.den := by exact_mod_cast q.den_pos
  conv_lhs => rw [← Rat.num_div_den q]
  rw [abs_div, abs_of_pos hd]
  congr 1
  rw [Nat.cast_natAbs, Int.cast_abs]

theorem natAbs_num_pos (q : ℚ) (hq : q ≠ 0) : 0 < q.num.natAbs :=
  Int.natAbs_pos.2 (Rat.num_ne_zero.2 hq)

/-- The value chosen by `roundToPrec` differs from `q` by at most `|q| * 2^(-prec)`: it is
`q` rounded to `prec` bits. -/
theorem roundToPrec_error (prec : Nat) (q : ℚ) :
    |roundToPrec prec q - q| ≤ |q| * (2 : ℚ) ^ (-(prec : Int)) := by
  unfold roundToPrec
  by_cases h0 : q = 0
  · simp [h0]
  · simp only [h0, if_false]
    have hn := natAbs_num_pos q h0
    obtain ⟨hlo, _⟩ := floorLog2_spec q.num.natAbs q.den hn q.den_pos
    have herr := roundToUlp_error ((prec : Int) - 1 - floorLog2 q.num.natAbs q.den)
      q.num.natAbs q.den q.den_pos
    rw [← abs_eq_natAbs_div] at hlo herr
    have hexp : (2 : ℚ) ^ (-((prec : Int) - 1 - floorLog2 q.num.natAbs q.den)) / 2
        = (2 : ℚ) ^ (floorLog2 q.num.natAbs q.den) * (2 : ℚ) ^ (-(prec : Int)) := by
      rw [← zpow_add₀ (by norm_num : (2 : ℚ) ≠ 0)]
      have : -((prec : Int) - 1 - floorLog2 q.num.natAbs q.den)
          = (floorLog2 q.num.natAbs q.den + -(prec : Int)) + 1 := by ring
      rw [this, zpow_add_one₀ (by norm_num : (2 : ℚ) ≠ 0)]
      ring
    have hpp : (0 : ℚ) ≤ (2 : ℚ) ^ (-(prec : Int)) := le_of_lt (zpow_pos (by norm_num) _)
    have hbound : |roundToUlp ((prec : Int) - 1 - floorLog2 q.num.natAbs q.den)
        q.num.natAbs q.den - abs q| ≤ |q| * (2 : ℚ) ^ (-(prec : Int)) := by
      calc _ ≤ (2 : ℚ) ^ (-((prec : Int) - 1 - floorLog2 q.num.natAbs q.den)) / 2 := herr
        _ = (2 : ℚ) ^ (floorLog2 q.num.natAbs q.den) * (2 : ℚ) ^ (-(prec : Int)) := hexp
        _ ≤ |q| * (2 : ℚ) ^ (-(prec : Int)) := mul_le_mul_of_nonneg_right hlo hpp
    by_cases hneg : q < 0
    · simp only [hneg, if_true]
      rw [abs_of_neg hneg] at hbound ⊢
      have : -roundToUlp ((prec : Int) - 1 - floorLog2 q.num.natAbs q.den) q.num.natAbs q.den - q
          = -(roundToUlp ((prec : Int) - 1 - floorLog2 q.num.natAbs q.den)
              q.num.natAbs q.den - -q) := by ring
      rw [this, abs_neg]
      exact hbound
    · simp only [hneg, if_false]
      rw [abs_of_nonneg (not_lt.1 hneg)] at hbound ⊢
      exact hbound

/-- The float64 chosen by `toFloat64` for a rational below `2^1023` in absolute value is
finite, has the sign of `q`, and differs from `q` by at most `|q| / 2^53` (half a unit in the
last place of a normal number) plus `2^(-1075)` (half the spacing of the denormals). -/
theorem toFloat64_error (q : ℚ) (hq : |q| < 2 ^ 1023) :
    ∃ r, toFloat64 q = F64.fin r ∧ |r - q| ≤ |q| / 2 ^ 53 + 1 / 2 ^ 1075 ∧
      (0 ≤ q → 0 ≤ r) ∧ (q ≤ 0 → r ≤ 0) := by
  have hP53 : (0 : ℚ) < 2 ^ 53 := pow_pos (by norm_num) 53
  have hP1075 : (0 : ℚ) < 2 ^ 1075 := pow_pos (by norm_num) 1075
  have hden : (0 : ℚ) ≤ 1 / 2 ^ 1075 := le_of_lt (one_div_pos.2 hP1075)
  unfold toFloat64
  by_cases h0 : q = 0
  · refine ⟨0, by rw [if_pos h0], ?_, fun _ => le_refl _, fun _ => le_refl _⟩
    rw [h0, sub_zero, abs_zero, zero_div, zero_add]
    exact hden
  · simp only [h0, if_false]
    have hn := natAbs_num_pos q h0
    obtain ⟨hlo, _⟩ := floorLog2_spec q.num.natAbs q.den hn q.den_pos
    rw [← abs_eq_natAbs_div] at hlo
    have habs : (0 : ℚ) ≤ |q| := abs_nonneg q
    have hB : |roundToUlp
        (if floorLog2 q.num.natAbs q.den < -1022 then 1074
          else 52 - floorLog2 q.num.natAbs q.den) q.num.natAbs q.den - abs q|
        ≤ |q| / 2 ^ 53 + 1 / 2 ^ 1075 := by
      by_cases he : floorLog2 q.num.natAbs q.den < -1022
      · simp only [he, if_true]
        have herr := roundToUlp_error 1074 q.num.natAbs q.den q.den_pos
        rw [← abs_eq_natAbs_div] at herr
        have hc : (2 : ℚ) ^ (-(1074 : Int)) / 2 = 1 / 2 ^ 1075 := by
          rw [zpow_neg]
          norm_num
        rw [hc] at herr
        have : (0 : ℚ) ≤ |q| / 2 ^ 53 := div_nonneg habs (le_of_lt hP53)
        linarith
      · simp only [he, if_false]
        have herr := roundToUlp_error (52 - floorLog2 q.num.natAbs q.den)
          q.num.natAbs q.den q.den_pos
        rw [← abs_eq_natAbs_div] at herr
        have hc : (2 : ℚ) ^ (-(52 - floorLog2 q.num.natAbs q.den)) / 2
            = (2 : ℚ) ^ (floorLog2 q.num.natAbs q.den) / 2 ^ 53 := by
          have : -(52 - floorLog2 q.num.natAbs q.den)
              = floorLog2 q.num.natAbs q.den + -(52 : Int) := by ring
          rw [this, zpow_add₀ (by norm_num : (2 : ℚ) ≠ 0), zpow_neg]
          norm_num
          ring
        rw [hc] at herr
        have h1 : (2 : ℚ) ^ (floorLog2 q.num.natAbs q.den) / 2 ^ 53 ≤ |q| / 2 ^ 53 :=
          div_le_div_of_nonneg_right hlo (le_of_lt hP53)
        linarith
    have hru0 := roundToUlp_nonneg
      (if floorLog2 q.num.natAbs q.den < -1022 then 1074
        else 52 - floorLog2 q.num.natAbs q.den) q.num.natAbs q.den
    generalize roundToUlp
      (if floorLog2 q.num.natAbs q.den < -1022 then 1074
        else 52 - floorLog2 q.num.natAbs q.den) q.num.natAbs q.den = ru at hB hru0 ⊢
    have hno : ¬ (2 : ℚ) ^ 1024 ≤ ru := by
      have h1 : ru ≤ |q| + (|q| / 2 ^ 53 + 1 / 2 ^ 1075) := by
        have := (abs_le.1 hB).2
        linarith
      have h2 : |q| / 2 ^ 53 ≤ |q| := div_le_self habs (by norm_num)
      have h3 : (1 : ℚ) / 2 ^ 1075 ≤ 1 := by
        rw [div_le_one hP1075]
        exact one_le_pow₀ (by norm_num)
      have h4 : (2 : ℚ) ^ 1024 = 2 ^ 1023 + 2 ^ 1023 := by ring
      intro hcon
      have h6 : |q| * (1 + 1 / 2 ^ 53) + 1 / 2 ^ 1075 < 2 ^ 1024 := by
        have hq2 : |q| * (1 + 1 / 2 ^ 53) < 2 ^ 1023 * (1 + 1 / 2 ^ 53) :=
          mul_lt_mul_of_pos_right hq (by linarith [one_div_pos.2 hP53])
        have hc : (2 : ℚ) ^ 1023 * (1 + 1 / 2 ^ 53) + 1 ≤ 2 ^ 1024 := by
          have e1 : (2 : ℚ) ^ 1023 = 2 ^ 970 * 2 ^ 53 := by rw [← pow_add]
          have e2 : (2 : ℚ) ^ 1024 = 2 * (2 ^ 970 * 2 ^ 53) := by
            rw [← pow_add, ← pow_succ']
          have e3 : (1 : ℚ) ≤ 2 ^ 970 := one_le_pow₀ (by norm_num)
          have e4 : (2 : ℚ) ^ 970 * 2 ^ 53 * (1 + 1 / 2 ^ 53)
              = 2 ^ 970 * 2 ^ 53 + 2 ^ 970 := by
            have gen : ∀ A B : ℚ, 0 < B → A * B * (1 + 1 / B) = A * B + A := by
              intro A B hB
              field_simp
              ring
            exact gen _ _ hP53
          have e5 : (2 : ℚ) * 2 ^ 970 ≤ 2 ^ 970 * 2 ^ 53 := by
            have : (2 : ℚ) ≤ 2 ^ 53 := by norm_num
            nlinarith
          rw [e1, e2, e4]
          linarith
        linarith
      have h7 : |q| + (|q| / 2 ^ 53 + 1 / 2 ^ 1075)
          = |q| * (1 + 1 / 2 ^ 53) + 1 / 2 ^ 1075 := by ring
      linarith
    simp only [hno, if_false]
    by_cases hneg : q < 0
    · simp only [hneg, if_true]
      refine ⟨-ru, rfl, ?_, fun h => absurd hneg (not_lt.2 h), fun _ => by linarith⟩
      rw [abs_of_neg hneg] at hB ⊢
      have : -ru - q = -(ru - -q) := by ring
      rw [this, abs_neg]
      exact hB
    · simp only [hneg, if_false]
      refine ⟨ru, rfl, ?_, fun _ => hru0, fun h => absurd (le_antisymm h (not_lt.1 hneg)) h0⟩
      rw [abs_of_nonneg (not_lt.1 hneg)] at hB ⊢
      exact hB

/-- With at least 64 bits of precision `roundToPrec` is within `|q| / 2^64` of `q`. -/
theorem roundToPrec_error64 (prec : Nat) (hp : 64 ≤ prec) (q : ℚ) :
    |roundToPrec prec q - q| ≤ |q| / 2 ^ 64 := by
  have h := roundToPrec_error prec q
  have hmono : (2 : ℚ) ^ (-(prec : Int)) ≤ 1 / 2 ^ 64 := by
    rw [zpow_neg, zpow_natCast, one_div]
    apply inv_anti₀ (pow_pos (by norm_num) 64)
    exact pow_le_pow_right₀ (by norm_num) hp
  calc |roundToPrec prec q - q| ≤ |q| * (2 : ℚ) ^ (-(prec : Int)) := h
    _ ≤ |q| * (1 / 2 ^ 64) := mul_le_mul_of_nonneg_left hmono (abs_nonneg q)
    _ = |q| / 2 ^ 64 := by ring

/-- The float64 of a quotient `a / D` computed through `big.Float`, for a divisor between 2
and `2^64` and `a < 2^1023`: it is finite, not negative, and within `(a / D) / 2^52` of the
exact quotient. -/
theorem quoFloat64_error (a : Nat) (D : ℚ) (hD1 : 2 ≤ D) (hD2 : D ≤ 2 ^ 64)
    (ha : (a : ℚ) < 2 ^ 1023) :
    ∃ r, quoFloat64 a D = F64.fin r ∧ 0 ≤ r ∧ |r - (a : ℚ) / D| ≤ (a : ℚ) / D / 2 ^ 52 := by
  have hDpos : (0 : ℚ) < D := by linarith
  have ha0 : (0 : ℚ) ≤ a := Nat.cast_nonneg a
  have hq0 : (0 : ℚ) ≤ (a : ℚ) / D := div_nonneg ha0 (le_of_lt hDpos)
  have hqle : (a : ℚ) / D ≤ a / 2 := div_le_div_of_nonneg_left ha0 (by norm_num) hD1
  have hP64 : (0 : ℚ) < 2 ^ 64 := pow_pos (by norm_num) 64
  have hP1075 : (0 : ℚ) < 2 ^ 1075 := pow_pos (by norm_num) 1075
  have h1 := roundToPrec_error64 (max (bitLen a) 64) (le_max_right _ _) ((a : ℚ) / D)
  have hn1 := roundToPrec_nonneg (max (bitLen a) 64) ((a : ℚ) / D) hq0
  rw [abs_of_nonneg hq0] at h1
  have hqlow : (a : ℚ) / D = 0 ∨ 1 / 2 ^ 64 ≤ (a : ℚ) / D := by
    rcases Nat.eq_zero_or_pos a with h0 | hpos
    · left; simp [h0]
    · right
      have h1a : (1 : ℚ) ≤ a := by exact_mod_cast hpos
      calc (1 : ℚ) / 2 ^ 64 ≤ 1 / D := one_div_le_one_div_of_le hDpos hD2
        _ ≤ (a : ℚ) / D := div_le_div_of_nonneg_right h1a (le_of_lt hDpos)
  unfold quoFloat64
  generalize roundToPrec (max (bitLen a) 64) ((a : ℚ) / D) = q1 at h1 hn1
  generalize (a : ℚ) / D = q at hq0 hqle h1 hqlow
  have hq1le : q1 ≤ q + q / 2 ^ 64 := by
    have := (abs_le.1 h1).2; linarith
  have hsmall : q / 2 ^ 64 ≤ q := div_le_self hq0 (one_le_pow₀ (by norm_num))
  have hq1lt : |q1| < 2 ^ 1023 := by
    rw [abs_of_nonneg hn1]
    linarith
  obtain ⟨r, hr, herr, hpos, _⟩ := toFloat64_error q1 hq1lt
  rw [abs_of_nonneg hn1] at herr
  refine ⟨r, hr, hpos hn1, ?_⟩
  by_cases hq : q = 0
  · -- the quotient is zero: everything is zero
    subst hq
    have hq10 : q1 = 0 := by
      have : |q1 - 0| ≤ 0 := by simpa using h1
      simpa using abs_nonpos_iff.1 this
    subst hq10
    have hr0 : toFloat64 0 = F64.fin 0 := by
      unfold toFloat64
      rw [if_pos rfl]
    rw [hr0] at hr
    cases hr
    simp
  · have hlow : 1 / 2 ^ 64 ≤ q := hqlow.resolve_left hq
    have k1 : q1 / 2 ^ 53 ≤ (q + q / 2 ^ 64) / 2 ^ 53 :=
      div_le_div_of_nonneg_right hq1le (le_of_lt (pow_pos (by norm_num) 53))
    have k2 : (1 : ℚ) / 2 ^ 1075 ≤ q / 2 ^ 54 := by
      have e1 : (1 : ℚ) / 2 ^ 1075 ≤ 1 / 2 ^ 118 :=
        one_div_le_one_div_of_le (pow_pos (by norm_num) 118)
          (pow_le_pow_right₀ (by norm_num) (by norm_num))
      have e2 : (1 : ℚ) / 2 ^ 118 = 1 / 2 ^ 64 / 2 ^ 54 := by
        rw [div_div, ← pow_add]
      have e3 : (1 : ℚ) / 2 ^ 64 / 2 ^ 54 ≤ q / 2 ^ 54 :=
        div_le_div_of_nonneg_right hlow (le_of_lt (pow_pos (by norm_num) 54))
      linarith
    have k3 : q / 2 ^ 64 + (q + q / 2 ^ 64) / 2 ^ 53 + q / 2 ^ 54 ≤ q / 2 ^ 52 := by
      have e1 : q / 2 ^ 64 + (q + q / 2 ^ 64) / 2 ^ 53 + q / 2 ^ 54
          = q * (1 / 2 ^ 64 + (1 + 1 / 2 ^ 64) / 2 ^ 53 + 1 / 2 ^ 54) := by ring
      have e2 : q / 2 ^ 52 = q * (1 / 2 ^ 52) := by ring
      rw [e1, e2]
      exact mul_le_mul_of_nonneg_left (by norm_num) hq0
    have htri : |r - q| ≤ |r - q1| + |q1 - q| := by
      have := abs_add (r - q1) (q1 - q)
      simpa using this
    linarith

/-- Rounding to a multiple of `2^(-sh)` keeps a quotient that already is such a multiple. -/
theorem roundToUlp_exact (sh : Int) (n d : Nat) (hd : 0 < d) (hs : 0 ≤ sh)
    (hdiv : d ∣ n * 2 ^ sh.toNat) : roundToUlp sh n d = (n : ℚ) / d := by
  have hdq : (d : ℚ) ≠ 0 := by exact_mod_cast (Nat.pos_iff_ne_zero.1 hd)
  obtain ⟨c, hc⟩ := hdiv
  have hround : divRoundHalfEven (n * 2 ^ sh.toNat) d = c := by
    unfold divRoundHalfEven
    have hmod : n * 2 ^ sh.toNat % d = 0 := by rw [hc]; exact Nat.mul_mod_right d c
    have hquo : n * 2 ^ sh.toNat / d = c := by rw [hc]; exact Nat.mul_div_cancel_left c hd
    rw [hmod, hquo]
    simp [hd]
  unfold roundToUlp
  rw [if_pos hs, hround, Rat.mkRat_eq_div]
  have hcq : (n : ℚ) * 2 ^ sh.toNat = d * c := by exact_mod_cast hc
  have hp : ((2 : ℚ) ^ sh.toNat) ≠ 0 := pow_ne_zero _ (by norm_num)
  push_cast
  field_simp
  linarith

theorem lt_two_pow_1023 (n : Nat) (h : n < 2 ^ 64) : n < 2 ^ 1023 :=
  Nat.lt_of_lt_of_le h (Nat.pow_le_pow_right (by decide) (by decide))

/-- What the price feed monitor returns on a node answer of at least 32 bytes. -/
theorem chaosPushOracle_eq (node : Node) (address : String) (resp : List Byte)
    (h : node address (selector "latestAnswer()") = .ok resp) (hlen : 32 ≤ resp.length) :
    ChaosPushOracle.Monitor node address = .ok (quoFloat64 (setBytes resp) (10 ^ 8)) := by
  have hnot : ¬ resp.length < 32 := by omega
  unfold ChaosPushOracle.Monitor CallInt256
  rw [callUint256_eq node address _ resp h, if_neg hnot]
  simp only [quoFloat64, Int.natAbs_ofNat, Int.cast_natCast]
  norm_num

set_option maxRecDepth 1000000 in
theorem selector_latestAnswer : selector "latestAnswer()" = [0x50, 0xd2, 0x5b, 0xcd] := by
  decide

/-- The float64 of 250000000000 / 10^8 computed through `big.Float` is 2500. -/
theorem quoFloat64_price_example : quoFloat64 250000000000 (10 ^ 8) = F64.fin 2500 := by
  have hq : ((250000000000 : Nat) : ℚ) / 10 ^ 8 = 2500 := by norm_num
  have hb : max (bitLen 250000000000) 64 = 64 := by decide
  have hnum : (2500 : ℚ).num.natAbs = 2500 := by norm_num
  have hden : (2500 : ℚ).den = 1 := by norm_num
  have hfl : floorLog2 2500 1 = 11 := by decide
  have h1 : roundToPrec 64 2500 = 2500 := by
    unfold roundToPrec
    simp only [hnum, hden, hfl]
    rw [if_neg (by norm_num), if_neg (by norm_num),
      roundToUlp_exact _ _ _ (by decide) (by decide) (by simp)]
    norm_num
  unfold quoFloat64
  rw [hq, hb, h1]
  unfold toFloat64
  simp only [hnum, hden, hfl]
  have hru : roundToUlp (if (11 : Int) < -1022 then 1074 else 52 - 11) 2500 1 = 2500 := by
    rw [if_neg (by norm_num), roundToUlp_exact _ _ _ (by decide) (by decide) (by simp)]
    norm_num
  rw [if_neg (by norm_num)]
  simp only [hru]
  rw [if_neg (by norm_num), if_neg (by norm_num)]

/-- C19. The price feed `Monitor` calls `latestAnswer()` (calldata `0x50d25bcd`) and, for
every integer `a` decoded from an answer of at least 32 bytes, returns `a / 10^8` as the
price: the float64 of the `big.Float` quotient of `a` by `10^8`, which (for `a < 2^1023`) is
finite, not negative and within `(a / 10^8) / 2^52` of `a / 10^8`.  A raw answer of
250000000000 yields exactly 2500. -/
theorem priceFeed_quotient :
    selector "latestAnswer()" = [0x50, 0xd2, 0x5b, 0xcd] ∧
    (∀ (node : Node) (address : String) (resp : List Byte),
      node address (selector "latestAnswer()") = .ok resp → 32 ≤ resp.length →
      ChaosPushOracle.Monitor node address = .ok (quoFloat64 (setBytes resp) (10 ^ 8)) ∧
      (setBytes resp < 2 ^ 1023 →
        ∃ r, ChaosPushOracle.Monitor node address = .ok (F64.fin r) ∧ 0 ≤ r ∧
          |r - (setBytes resp : ℚ) / 10 ^ 8| ≤ (setBytes resp : ℚ) / 10 ^ 8 / 2 ^ 52)) ∧
    setBytes (wordOf 250000000000) = 250000000000 ∧
    (∀ address : String,
      ChaosPushOracle.Monitor (constNode (wordOf 250000000000)) address
        = .ok (F64.fin 2500)) := by
  refine ⟨selector_latestAnswer, ?_, by decide, ?_⟩
  · intro node address resp h hlen
    have heq := chaosPushOracle_eq node address resp h hlen
    refine ⟨heq, ?_⟩
    intro hlt
    have hlt' : ((setBytes resp : Nat) : ℚ) < 2 ^ 1023 := by exact_mod_cast hlt
    obtain ⟨r, hr, h0, herr⟩ := quoFloat64_error (setBytes resp) (10 ^ 8) (by norm_num)
      (by norm_num) hlt'
    exact ⟨r, by rw [heq, hr], h0, herr⟩
  · intro address
    rw [chaosPushOracle_eq (constNode (wordOf 250000000000)) address (wordOf 250000000000) rfl
      (by decide)]
    have : setBytes (wordOf 250000000000) = 250000000000 := by decide
    rw [this, quoFloat64_price_example]

/-- C19 at the answer 250000000000. -/
theorem priceFeed_quotient_witness :
    ChaosPushOracle.Monitor (constNode (wordOf 250000000000))
        "0x163131609562E578754aF12E998635BfCa56712C"
      = .ok (quoFloat64 (setBytes (wordOf 250000000000)) (10 ^ 8)) ∧
    ∃ r, ChaosPushOracle.Monitor (constNode (wordOf 250000000000))
        "0x163131609562E578754aF12E998635BfCa56712C" = .ok (F64.fin r) ∧ 0 ≤ r ∧
      |r - (setBytes (wordOf 250000000000) : ℚ) / 10 ^ 8|
        ≤ (setBytes (wordOf 250000000000) : ℚ) / 10 ^ 8 / 2 ^ 52 :=
  have h := priceFeed_quotient.2.1 (constNode (wordOf 250000000000))
    "0x163131609562E578754aF12E998635BfCa56712C" (wordOf 250000000000) rfl (by decide)
  ⟨h.1, h.2 (lt_two_pow_1023 _ (by decide))⟩

/-! ## The reserve cap account -/

theorem wordBytes_length (n w : Nat) : (wordBytes n w).length = n := by
  induction n generalizing w with
  | zero => rfl
  | succ k ih => simp [wordBytes, ih]

theorem wordOf_length (n : Nat) : (wordOf n).length = 32 := by
  simp [wordOf, wordBytes_length]

/-- Bytes 32..63 of a response are its second word. -/
theorem second_word (w1 w2 rest : List Byte) (h1 : w1.length = 32) (h2 : w2.length = 32) :
    ((w1 ++ w2 ++ rest).drop 32).take 32 = w2 := by
  rw [List.append_assoc, List.drop_left' h1, List.take_left' h2]

/-- A value that fits the mantissa is not changed by `roundToPrec`. -/
theorem roundToPrec_exact (prec : Nat) (q : ℚ) (n d : Nat) (e : Int) (hq : q ≠ 0)
    (hn : q.num.natAbs = n) (hd : q.den = d) (he : floorLog2 n d = e)
    (hs : 0 ≤ (prec : Int) - 1 - e) (hdiv : d ∣ n * 2 ^ ((prec : Int) - 1 - e).toNat) :
    roundToPrec prec q = q := by
  have hdpos : 0 < d := by rw [← hd]; exact q.den_pos
  have habs : |q| = (n : ℚ) / d := by rw [abs_eq_natAbs_div, hn, hd]
  unfold roundToPrec
  rw [if_neg hq]
  simp only [hn, hd, he]
  rw [roundToUlp_exact _ _ _ hdpos hs hdiv, ← habs]
  by_cases hneg : q < 0
  · rw [if_pos hneg, abs_of_neg hneg, neg_neg]
  · rw [if_neg hneg, abs_of_nonneg (not_lt.1 hneg)]

/-- A value that is a normal float64 is not changed by `toFloat64`. -/
theorem toFloat64_exact (q : ℚ) (n d : Nat) (e : Int) (k : Nat) (hq : q ≠ 0)
    (hn : q.num.natAbs = n) (hd : q.den = d) (he : floorLog2 n d = e)
    (hnorm : ¬ e < -1022) (hs : 0 ≤ 52 - e) (hdiv : d ∣ n * 2 ^ (52 - e).toNat)
    (hk : k ≤ 1024) (hlt : |q| < 2 ^ k) :
    toFloat64 q = F64.fin q := by
  have hdpos : 0 < d := by rw [← hd]; exact q.den_pos
  have habs : |q| = (n : ℚ) / d := by rw [abs_eq_natAbs_div, hn, hd]
  have hbig : |q| < (2 : ℚ) ^ 1024 :=
    lt_of_lt_of_le hlt (pow_le_pow_right₀ (by norm_num) hk)
  unfold toFloat64
  rw [if_neg hq]
  simp only [hn, hd, he]
  rw [if_neg hnorm, roundToUlp_exact _ _ _ hdpos hs hdiv, ← habs, if_neg (not_le.2 hbig)]
  by_cases hneg : q < 0
  · rw [if_pos hneg, abs_of_neg hneg, neg_neg]
  · rw [if_neg hneg, abs_of_nonneg (not_lt.1 hneg)]

/-- What the reserve cap monitor returns when both of its calls are answered with enough
bytes. -/
theorem inkWLWEth_eq (node : Node) (address : String) (resp1 resp2 : List Byte)
    (h1 : node DefaultL2AaveProtocolDataProvider
      (selector "getReserveCaps(address)" ++ assetWord) = .ok resp1)
    (hlen1 : 64 ≤ resp1.length)
    (h2 : node address (selector "totalSupply()") = .ok resp2) (hlen2 : 32 ≤ resp2.length) :
    InkWLWEth.Monitor node address
      = .ok (subFloat64FromInt (setBytes ((resp1.drop 32).take 32) : Nat)
          (quoFloat64 (setBytes resp2) (10 ^ 18))) := by
  have hnot1 : ¬ resp1.length < 64 := by omega
  have hnot2 : ¬ resp2.length < 32 := by omega
  have h1' : node DefaultL2AaveProtocolDataProvider (selector "getReserveCaps(address)" ++
      leftPad32 (hexDecodeString (trimPrefix0x "0x4200000000000000000000000000000000000006")))
      = .ok resp1 := h1
  unfold InkWLWEth.Monitor CallRaw
  simp only [h1', hnot1, if_false]
  rw [callUint256_eq node address _ resp2 h2, if_neg hnot2]
  simp only [quoFloat64, Int.natAbs_ofNat, Int.cast_natCast]
  norm_num

theorem num_five_halves : ((5 : ℚ) / 2).num.natAbs = 5 ∧ ((5 : ℚ) / 2).den = 2 := by
  have h1 := Rat.num_div_eq_of_coprime (a := 5) (b := 2) (by norm_num) (by norm_num)
  have h2 := Rat.den_div_eq_of_coprime (a := 5) (b := 2) (by norm_num) (by norm_num)
  have e : ((5 : ℤ) : ℚ) / ((2 : ℤ) : ℚ) = 5 / 2 := by norm_num
  rw [e] at h1 h2
  rw [h1]
  exact ⟨rfl, by exact_mod_cast h2⟩

/-- The float64 of 2500000000000000000 / 10^18 computed through `big.Float` is 2.5. -/
theorem quoFloat64_supply_example :
    quoFloat64 2500000000000000000 (10 ^ 18) = F64.fin (5 / 2) := by
  have hq : ((2500000000000000000 : Nat) : ℚ) / 10 ^ 18 = 5 / 2 := by norm_num
  have hb : max (bitLen 2500000000000000000) 64 = 64 := by decide
  have hne : (5 : ℚ) / 2 ≠ 0 := by norm_num
  have habs : |(5 : ℚ) / 2| < 2 ^ 2 := by rw [abs_of_pos (by norm_num)]; norm_num
  unfold quoFloat64
  rw [hq, hb,
    roundToPrec_exact 64 (5 / 2) 5 2 1 hne num_five_halves.1 num_five_halves.2 (by decide)
      (by decide) (by decide),
    toFloat64_exact (5 / 2) 5 2 1 2 hne num_five_halves.1 num_five_halves.2 (by decide)
      (by decide) (by decide) (by decide) (by decide) habs]

theorem num_9995_halves : ((9995 : ℚ) / 2).num.natAbs = 9995 ∧ ((9995 : ℚ) / 2).den = 2 := by
  have h1 := Rat.num_div_eq_of_coprime (a := 9995) (b := 2) (by norm_num) (by norm_num)
  have h2 := Rat.den_div_eq_of_coprime (a := 9995) (b := 2) (by norm_num) (by norm_num)
  have e : ((9995 : ℤ) : ℚ) / ((2 : ℤ) : ℚ) = 9995 / 2 := by norm_num
  rw [e] at h1 h2
  rw [h1]
  exact ⟨rfl, by exact_mod_cast h2⟩

theorem num_neg_five_halves :
    (-(5 : ℚ) / 2).num.natAbs = 5 ∧ (-(5 : ℚ) / 2).den = 2 := by
  have h1 := Rat.num_div_eq_of_coprime (a := -5) (b := 2) (by norm_num) (by norm_num)
  have h2 := Rat.den_div_eq_of_coprime (a := -5) (b := 2) (by norm_num) (by norm_num)
  have e : ((-5 : ℤ) : ℚ) / ((2 : ℤ) : ℚ) = -5 / 2 := by norm_num
  rw [e] at h1 h2
  rw [h1]
  exact ⟨rfl, by exact_mod_cast h2⟩

/-- 5000 - 2.5 computed through `big.Float` and `Float64` is 4997.5. -/
theorem subFloat64_example :
    subFloat64FromInt ((5000 : Nat) : Int) (F64.fin (5 / 2)) = F64.fin (9995 / 2) := by
  have hq : (((5000 : Nat) : Int) : ℚ) - 5 / 2 = 9995 / 2 := by norm_num
  have hb : max (bitLen ((5000 : Nat) : Int).natAbs) 64 = 64 := by decide
  have hne : (9995 : ℚ) / 2 ≠ 0 := by norm_num
  have habs : |(9995 : ℚ) / 2| < 2 ^ 13 := by rw [abs_of_pos (by norm_num)]; norm_num
  unfold subFloat64FromInt
  simp only []
  rw [hq, hb,
    roundToPrec_exact 64 (9995 / 2) 9995 2 12 hne num_9995_halves.1 num_9995_halves.2
      (by decide) (by decide) (by decide),
    toFloat64_exact (9995 / 2) 9995 2 12 13 hne num_9995_halves.1 num_9995_halves.2
      (by decide) (by decide) (by decide) (by decide) (by decide) habs]

/-- 0 - 2.5 computed through `big.Float` and `Float64` is -2.5. -/
theorem subFloat64_negative_example :
    subFloat64FromInt ((0 : Nat) : Int) (F64.fin (5 / 2)) = F64.fin (-5 / 2) := by
  have hq : (((0 : Nat) : Int) : ℚ) - 5 / 2 = -5 / 2 := by norm_num
  have hb : max (bitLen ((0 : Nat) : Int).natAbs) 64 = 64 := by decide
  have hne : -(5 : ℚ) / 2 ≠ 0 := by norm_num
  have habs : |-(5 : ℚ) / 2| < 2 ^ 2 := by rw [abs_of_neg (by norm_num)]; norm_num
  unfold subFloat64FromInt
  simp only []
  rw [hq, hb,
    roundToPrec_exact 64 (-5 / 2) 5 2 1 hne num_neg_five_halves.1 num_neg_five_halves.2
      (by decide) (by decide) (by decide),
    toFloat64_exact (-5 / 2) 5 2 1 2 hne num_neg_five_halves.1 num_neg_five_halves.2
      (by decide) (by decide) (by decide) (by decide) (by decide) habs]

/-- The monitor on a node that reports the caps `(borrowCap, supplyCap)` and the total
supply `totalSupply`. -/
theorem inkWLWEth_reserveNode (token : String) (borrowCap supplyCap totalSupply : Nat)
    (htoken : token ≠ DefaultL2AaveProtocolDataProvider) :
    InkWLWEth.Monitor (reserveNode token borrowCap supplyCap totalSupply) token
      = .ok (subFloat64FromInt (setBytes (wordOf supplyCap) : Nat)
          (quoFloat64 (setBytes (wordOf totalSupply)) (10 ^ 18))) := by
  have h1 : reserveNode token borrowCap supplyCap totalSupply DefaultL2AaveProtocolDataProvider
      (selector "getReserveCaps(address)" ++ assetWord)
      = .ok (capsResponse borrowCap supplyCap) := by
    unfold reserveNode
    rw [if_neg (Ne.symm htoken)]
  have h2 : reserveNode token borrowCap supplyCap totalSupply token (selector "totalSupply()")
      = .ok (wordOf totalSupply) := by
    unfold reserveNode
    rw [if_pos rfl]
  have hw : ((capsResponse borrowCap supplyCap).drop 32).take 32 = wordOf supplyCap := by
    have := second_word (wordOf borrowCap) (wordOf supplyCap) [] (wordOf_length _)
      (wordOf_length _)
    rwa [List.append_nil] at this
  rw [inkWLWEth_eq _ token _ _ h1 (by simp [capsResponse, wordOf_length]) h2
    (by simp [wordOf_length]), hw]

theorem toFloat64_zero : toFloat64 0 = F64.fin 0 := by
  unfold toFloat64
  rw [if_pos rfl]

/-- The accuracy of the remaining capacity: the three roundings (the quotient to 64 bits or
more, its float64, the difference and its float64) keep the result within
`(cap + ts / 10^18) / 2^50` of `cap - ts / 10^18`. -/
theorem subFloat64_error (cap ts : Nat) (hcapq : (cap : ℚ) < 2 ^ 256)
    (htsq : (ts : ℚ) < 2 ^ 1023) :
    ∃ r, subFloat64FromInt (cap : Int) (quoFloat64 ts (10 ^ 18)) = F64.fin r ∧
      |r - ((cap : ℚ) - (ts : ℚ) / 10 ^ 18)| ≤ ((cap : ℚ) + (ts : ℚ) / 10 ^ 18) / 2 ^ 50 := by
  have hcap0 : (0 : ℚ) ≤ cap := Nat.cast_nonneg cap
  have hts0 : (0 : ℚ) ≤ ts := Nat.cast_nonneg ts
  obtain ⟨t, ht, ht0, hterr⟩ := quoFloat64_error ts (10 ^ 18) (by norm_num) (by norm_num) htsq
  have hT0 : (0 : ℚ) ≤ (ts : ℚ) / 10 ^ 18 := div_nonneg hts0 (by norm_num)
  -- the size of the quotient
  have hT8 : (ts : ℚ) / 10 ^ 18 ≤ (ts : ℚ) / 8 := by
    apply div_le_div_of_nonneg_left hts0 (by norm_num) (by norm_num)
  have hP52 : (0 : ℚ) < 2 ^ 52 := pow_pos (by norm_num) 52
  have hP53 : (0 : ℚ) < 2 ^ 53 := pow_pos (by norm_num) 53
  have hP64 : (0 : ℚ) < 2 ^ 64 := pow_pos (by norm_num) 64
  have hP1020 : (0 : ℚ) < 2 ^ 1020 := pow_pos (by norm_num) 1020
  have hP1075 : (0 : ℚ) < 2 ^ 1075 := pow_pos (by norm_num) 1075
  have e1023 : (2 : ℚ) ^ 1023 = 8 * 2 ^ 1020 := by ring
  have e256 : (2 : ℚ) ^ 256 ≤ 2 ^ 1020 := pow_le_pow_right₀ (by norm_num) (by norm_num)
  have hSlow : (cap : ℚ) + (ts : ℚ) / 10 ^ 18 = 0 ∨
      1 / 2 ^ 64 ≤ (cap : ℚ) + (ts : ℚ) / 10 ^ 18 := by
    have h64le : (1 : ℚ) / 2 ^ 64 ≤ 1 / 10 ^ 18 :=
      one_div_le_one_div_of_le (by norm_num) (by norm_num)
    rcases Nat.eq_zero_or_pos cap with hc | hc
    · rcases Nat.eq_zero_or_pos ts with hz | hz
      · left; simp [hc, hz]
      · right
        have h1 : (1 : ℚ) ≤ ts := by exact_mod_cast hz
        have h2 : (1 : ℚ) / 10 ^ 18 ≤ (ts : ℚ) / 10 ^ 18 :=
          (div_le_div_iff_of_pos_right (by norm_num)).2 h1
        linarith
    · right
      have h1 : (1 : ℚ) ≤ cap := by exact_mod_cast hc
      have h2 : (1 : ℚ) / 2 ^ 64 ≤ 1 := by
        rw [div_le_iff₀ (pow_pos (by norm_num) 64)]
        have : (1 : ℚ) ≤ 2 ^ 64 := one_le_pow₀ (by norm_num)
        linarith
      linarith
  generalize hTdef : (ts : ℚ) / 10 ^ 18 = T at *
  generalize hCdef : (cap : ℚ) = C at *
  have hTlt : T < 2 ^ 1020 := by
    have : (ts : ℚ) / 8 < 2 ^ 1020 := by
      rw [div_lt_iff₀ (by norm_num)]; linarith
    linarith
  have hT52 : T / 2 ^ 52 ≤ T := div_le_self hT0 (one_le_pow₀ (by norm_num))
  have htT : t ≤ 2 * T := by
    have := (abs_le.1 hterr).2
    linarith
  have htT' : T - T / 2 ^ 52 ≤ t := by
    have := (abs_le.1 hterr).1
    linarith
  rw [ht]
  unfold subFloat64FromInt
  simp only [Int.natAbs_ofNat, Int.cast_natCast, hCdef]
  generalize hprec : max (bitLen cap) 64 = prec
  have hp64 : 64 ≤ prec := by rw [← hprec]; exact le_max_right _ _
  have h64 := roundToPrec_error64 prec hp64 (C - t)
  generalize hd1 : roundToPrec prec (C - t) = d1 at h64
  have hD2 : |C - t| ≤ C + 2 * T := by
    rw [abs_le]; constructor <;> linarith
  have hD64 : |C - t| / 2 ^ 64 ≤ |C - t| := div_le_self (abs_nonneg _) (one_le_pow₀ (by norm_num))
  have hd1abs : |d1| ≤ 2 * |C - t| := by
    have h := abs_sub_abs_le_abs_sub d1 (C - t)
    linarith
  have hd1lt : |d1| < 2 ^ 1023 := by
    have : C + 2 * T < 4 * 2 ^ 1020 := by linarith
    linarith
  obtain ⟨r, hr, herr, -, -⟩ := toFloat64_error d1 hd1lt
  refine ⟨r, hr, ?_⟩
  have hP50 : (0 : ℚ) < 2 ^ 50 := pow_pos (by norm_num) 50
  have hP54 : (0 : ℚ) < 2 ^ 54 := pow_pos (by norm_num) 54
  rcases hSlow with hS | hS
  · have hC0 : C = 0 := by linarith
    have hT00 : T = 0 := by linarith
    have ht00 : t = 0 := by linarith
    have hd0 : d1 = 0 := by
      rw [hC0, ht00, sub_zero, abs_zero, zero_div, sub_zero] at h64
      exact abs_nonpos_iff.1 h64
    have hr0 : r = 0 := by
      rw [hd0, toFloat64_zero] at hr
      exact (F64.fin.inj hr).symm
    rw [hr0, hC0, hT00, sub_zero, sub_zero, abs_zero, add_zero, zero_div]
  · have hw : (1 : ℚ) / 2 ^ 1075 ≤ (C + T) / 2 ^ 54 := by
      have e1 : (1 : ℚ) / 2 ^ 1075 ≤ 1 / 2 ^ 118 :=
        one_div_le_one_div_of_le (pow_pos (by norm_num) 118)
          (pow_le_pow_right₀ (by norm_num) (by norm_num))
      have e2 : (1 : ℚ) / 2 ^ 118 = 1 / 2 ^ 64 / 2 ^ 54 := by
        rw [div_div, ← pow_add]
      have e3 : (1 : ℚ) / 2 ^ 64 / 2 ^ 54 ≤ (C + T) / 2 ^ 54 :=
        (div_le_div_iff_of_pos_right hP54).2 hS
      linarith
    have k1 : |d1| / 2 ^ 53 ≤ 4 * (C + T) / 2 ^ 53 := by
      apply (div_le_div_iff_of_pos_right hP53).2
      linarith
    have k2 : |C - t| / 2 ^ 64 ≤ 2 * (C + T) / 2 ^ 64 := by
      apply (div_le_div_iff_of_pos_right hP64).2
      linarith
    have a1 := abs_le.1 herr
    have a2 := abs_le.1 h64
    have a3 := abs_le.1 hterr
    have hST : 0 ≤ C + T := by linarith
    have k3 : T / 2 ^ 52 ≤ (C + T) / 2 ^ 52 := by
      apply (div_le_div_iff_of_pos_right hP52).2
      linarith
    have f1 : 4 * (C + T) / 2 ^ 53 = 8 * ((C + T) / 2 ^ 54) := by ring
    have f2 : 2 * (C + T) / 2 ^ 64 ≤ (C + T) / 2 ^ 54 := by
      rw [div_le_div_iff₀ hP64 hP54]
      have : (2 : ℚ) ^ 64 = 1024 * 2 ^ 54 := by ring
      rw [this]
      nlinarith [pow_pos (by norm_num : (0 : ℚ) < 2) 54]
    have f3 : (C + T) / 2 ^ 52 = 4 * ((C + T) / 2 ^ 54) := by ring
    have f4 : (C + T) / 2 ^ 50 = 16 * ((C + T) / 2 ^ 54) := by ring
    have hq0 : 0 ≤ (C + T) / 2 ^ 54 := div_nonneg hST (le_of_lt hP54)
    rw [f4, abs_le]
    constructor <;> linarith [a1.1, a1.2, a2.1, a2.2, a3.1, a3.2]

/-- C18. The reserve cap `Monitor` takes `supplyCap` from bytes 32..63 of the
`getReserveCaps` answer (the second word, whatever the first word and any later bytes are)
and `totalSupply` from `totalSupply()` on the token, and returns, never an error, the float64
of `supplyCap - totalSupply / 10^18` as `big.Float` computes it: for `totalSupply < 2^1023`
a finite number within `(supplyCap + totalSupply / 10^18) / 2^50` of that difference.  With
`supplyCap = 5000` and `totalSupply = 2500000000000000000` the result is exactly 4997.5, and
with `supplyCap = 0` it is `-2.5`, again without an error. -/
theorem reserveCap_remaining :
    (∀ (node : Node) (address : String) (resp1 resp2 : List Byte),
      node DefaultL2AaveProtocolDataProvider
        (selector "getReserveCaps(address)" ++ assetWord) = .ok resp1 →
      64 ≤ resp1.length →
      node address (selector "totalSupply()") = .ok resp2 → 32 ≤ resp2.length →
      InkWLWEth.Monitor node address
        = .ok (subFloat64FromInt (setBytes ((resp1.drop 32).take 32) : Nat)
            (quoFloat64 (setBytes resp2) (10 ^ 18))) ∧
      (setBytes resp2 < 2 ^ 1023 →
        ∃ r, InkWLWEth.Monitor node address = .ok (F64.fin r) ∧
          |r - ((setBytes ((resp1.drop 32).take 32) : ℚ) - (setBytes resp2 : ℚ) / 10 ^ 18)|
            ≤ ((setBytes ((resp1.drop 32).take 32) : ℚ) + (setBytes resp2 : ℚ) / 10 ^ 18)
                / 2 ^ 50)) ∧
    (∀ w1 w2 rest : List Byte, w1.length = 32 → w2.length = 32 →
      setBytes (((w1 ++ w2 ++ rest).drop 32).take 32) = setBytes w2) ∧
    (∀ (token : String) (borrowCap : Nat), token ≠ DefaultL2AaveProtocolDataProvider →
      InkWLWEth.Monitor (reserveNode token borrowCap 5000 2500000000000000000) token
        = .ok (F64.fin (9995 / 2)) ∧
      InkWLWEth.Monitor (reserveNode token borrowCap 0 2500000000000000000) token
        = .ok (F64.fin (-5 / 2))) := by
  refine ⟨?_, ?_, ?_⟩
  · intro node address resp1 resp2 h1 hlen1 h2 hlen2
    have heq := inkWLWEth_eq node address resp1 resp2 h1 hlen1 h2 hlen2
    refine ⟨heq, ?_⟩
    intro hlt
    have htsq : ((setBytes resp2 : Nat) : ℚ) < 2 ^ 1023 := by exact_mod_cast hlt
    have hcapq : ((setBytes ((resp1.drop 32).take 32) : Nat) : ℚ) < 2 ^ 256 := by
      have h := setBytes_lt ((resp1.drop 32).take 32)
      have hl : ((resp1.drop 32).take 32).length ≤ 32 := by
        rw [List.length_take]; exact Nat.min_le_left _ _
      have h' : ((setBytes ((resp1.drop 32).take 32) : Nat) : ℚ)
          < (256 : ℚ) ^ ((resp1.drop 32).take 32).length := by exact_mod_cast h
      have h'' : (256 : ℚ) ^ ((resp1.drop 32).take 32).length ≤ 256 ^ 32 :=
        pow_le_pow_right₀ (by norm_num) hl
      have e : (256 : ℚ) ^ 32 = 2 ^ 256 := by norm_num
      linarith
    obtain ⟨r, hr, herr⟩ := subFloat64_error _ _ hcapq htsq
    exact ⟨r, by rw [heq, hr], herr⟩
  · intro w1 w2 rest h1 h2
    rw [second_word w1 w2 rest h1 h2]
  · intro token borrowCap htoken
    have hs : setBytes (wordOf 2500000000000000000) = 2500000000000000000 := by decide
    have hc : setBytes (wordOf 5000) = 5000 := by decide
    have hz : setBytes (wordOf 0) = 0 := by decide
    constructor
    · rw [inkWLWEth_reserveNode token borrowCap _ _ htoken, hs, hc, quoFloat64_supply_example,
        subFloat64_example]
    · rw [inkWLWEth_reserveNode token borrowCap _ _ htoken, hs, hz, quoFloat64_supply_example,
        subFloat64_negative_example]

/-- C18 on a node that reports the caps `(7, 5000)` and the total supply
2500000000000000000. -/
theorem reserveCap_remaining_witness :
    (InkWLWEth.Monitor (reserveNode "0xToken" 7 5000 2500000000000000000) "0xToken"
      = .ok (subFloat64FromInt
          (setBytes (((capsResponse 7 5000).drop 32).take 32) : Nat)
          (quoFloat64 (setBytes (wordOf 2500000000000000000)) (10 ^ 18))) ∧
    ∃ r, InkWLWEth.Monitor (reserveNode "0xToken" 7 5000 2500000000000000000) "0xToken"
        = .ok (F64.fin r) ∧
      |r - ((setBytes (((capsResponse 7 5000).drop 32).take 32) : ℚ)
          - (setBytes (wordOf 2500000000000000000) : ℚ) / 10 ^ 18)|
        ≤ ((setBytes (((capsResponse 7 5000).drop 32).take 32) : ℚ)
          + (setBytes (wordOf 2500000000000000000) : ℚ) / 10 ^ 18) / 2 ^ 50) ∧
    setBytes (((wordOf 7 ++ wordOf 5000 ++ []).drop 32).take 32) = setBytes (wordOf 5000) ∧
    InkWLWEth.Monitor (reserveNode "0xToken" 7 5000 2500000000000000000) "0xToken"
      = .ok (F64.fin (9995 / 2)) ∧
    InkWLWEth.Monitor (reserveNode "0xToken" 7 0 2500000000000000000) "0xToken"
      = .ok (F64.fin (-5 / 2)) :=
  have h := reserveCap_remaining.1 (reserveNode "0xToken" 7 5000 2500000000000000000)
    "0xToken" (capsResponse 7 5000) (wordOf 2500000000000000000)
    (by unfold reserveNode; rw [if_neg (by decide)]) (by decide)
    (by unfold reserveNode; rw [if_pos rfl]) (by decide)
  ⟨⟨h.1, h.2 (lt_two_pow_1023 _ (by decide))⟩,
    reserveCap_remaining.2.1 (wordOf 7) (wordOf 5000) [] (by decide) (by decide),
    reserveCap_remaining.2.2 "0xToken" 7 (by decide)⟩

/-! ## Retry helper: success -/

theorem stateAfter_succ {σ : Type} (fn : σ → Option GoError × σ) (k : Nat) (s : σ) :
    stateAfter fn (k + 1) s = (fn (stateAfter fn k s)).2 := by
  induction k generalizing s with
  | zero => rfl
  | succ k ih =>
    have h : stateAfter fn (k + 1 + 1) s = stateAfter fn (k + 1) (fn s).2 := rfl
    rw [h, ih]
    rfl

/-- On a context that is not cancelled, `Do` ends at the first successful call: if the calls
with index below `k` fail and the call with index `k <= maxRetries` succeeds, the closure is
called `k + 1` times and the result is nil. -/
theorem do_first_success {σ : Type} (ctx : Ctx) (fn : σ → Option GoError × σ)
    (maxRetries : Int) (s : σ)
    (hctx : ∀ i, ctx.doneBefore i = false ∧ ctx.doneInWait i = false)
    (k : Nat) (hk : (k : Int) ≤ maxRetries)
    (hfail : ∀ j, j < k → (fn (stateAfter fn j s)).1 ≠ none)
    (hok : (fn (stateAfter fn k s)).1 = none) :
    Do ctx fn maxRetries s = ⟨none, stateAfter fn (k + 1) s, k + 1, k⟩ := by
  obtain ⟨f, hf⟩ : ∃ f, (maxRetries + 2).toNat = (f + 1) + k := ⟨(maxRetries + 2).toNat - k - 1,
    by omega⟩
  obtain ⟨err2, hadv⟩ := doLoop_advance ctx fn maxRetries k (f + 1) 0 s none 0 0
    (by simpa using hk)
    (fun j hj => ⟨(hctx _).1, hfail j hj, (hctx _).2⟩)
  unfold Do
  rw [hf, hadv]
  simp only [Nat.zero_add]
  rcases hfn : fn (stateAfter fn k s) with ⟨r, s1⟩
  have hr : r = none := by rw [hfn] at hok; exact hok
  subst hr
  have hs : stateAfter fn (k + 1) s = s1 := by rw [stateAfter_succ, hfn]
  simp only [doLoop, hk, if_true, (hctx k).1, Bool.false_eq_true, if_false, hfn, hs]

/-- On a context that is not cancelled, with `maxRetries >= 0` and the first
`maxRetries + 1` calls failing, `Do` makes exactly these calls and returns the error of
exhaustion. -/
theorem do_all_fail {σ : Type} (ctx : Ctx) (fn : σ → Option GoError × σ)
    (maxRetries : Int) (s : σ)
    (hctx : ∀ i, ctx.doneBefore i = false ∧ ctx.doneInWait i = false)
    (hmax : 0 ≤ maxRetries)
    (hfail : ∀ j : Nat, (j : Int) ≤ maxRetries → (fn (stateAfter fn j s)).1 ≠ none) :
    ∃ e, Do ctx fn maxRetries s
      = ⟨some (exhaustedError maxRetries (some e)), stateAfter fn (maxRetries.toNat + 1) s,
          maxRetries.toNat + 1, maxRetries.toNat⟩ := by
  obtain ⟨f, hf⟩ : ∃ f, (maxRetries + 2).toNat = (f + 1) + maxRetries.toNat :=
    ⟨(maxRetries + 2).toNat - maxRetries.toNat - 1, by omega⟩
  have hkk : ((maxRetries.toNat : Nat) : Int) = maxRetries := Int.toNat_of_nonneg hmax
  obtain ⟨err2, hadv⟩ := doLoop_advance ctx fn maxRetries maxRetries.toNat (f + 1) 0 s none 0 0
    (by simp [hkk])
    (fun j hj => ⟨(hctx _).1, hfail j (by omega), (hctx _).2⟩)
  unfold Do
  rw [hf, hadv]
  simp only [Nat.zero_add]
  rcases hfn : fn (stateAfter fn maxRetries.toNat s) with ⟨r, s1⟩
  cases r with
  | none => exact absurd (by rw [hfn]) (hfail maxRetries.toNat (by omega))
  | some e =>
    have hs : stateAfter fn (maxRetries.toNat + 1) s = s1 := by rw [stateAfter_succ, hfn]
    refine ⟨e, ?_⟩
    simp only [doLoop, hkk, le_refl, if_true, (hctx maxRetries.toNat).1, Bool.false_eq_true,
      if_false, hfn, hs]

/-- With a negative `maxRetries` the loop body of `Do` never runs. -/
theorem do_negative_retries {σ : Type} (ctx : Ctx) (fn : σ → Option GoError × σ)
    (maxRetries : Int) (s : σ) (hneg : maxRetries < 0) :
    Do ctx fn maxRetries s = ⟨some (exhaustedError maxRetries none), s, 0, 0⟩ := by
  unfold Do
  have hnot : ¬ ((0 : Nat) : Int) ≤ maxRetries := by simp; exact hneg
  cases h : (maxRetries + 2).toNat with
  | zero => rfl
  | succ f => simp only [doLoop, hnot, if_false]

theorem exhaustedError_ne (maxRetries : Int) (err : Option GoError) :
    (some (exhaustedError maxRetries err) : Option GoError) ≠ none := by
  simp

/-- C27. On a context that is never cancelled, `retry.Do` returns nil if and only if one of
the first `maxRetries + 1` calls of `fn` (the calls with index `0..maxRetries`) succeeds; if
the first success is the call with index `k`, `fn` is called exactly `k + 1` times (with `k`
waits in between) and not again; and for `maxRetries < 0` `fn` is never called and `Do`
returns a non-nil error. -/
theorem do_nil_iff_success {σ : Type} (ctx : Ctx) (fn : σ → Option GoError × σ)
    (maxRetries : Int) (s : σ)
    (hctx : ∀ i, ctx.doneBefore i = false ∧ ctx.doneInWait i = false) :
    ((Do ctx fn maxRetries s).err = none ↔
      ∃ k : Nat, (k : Int) ≤ maxRetries ∧ (fn (stateAfter fn k s)).1 = none) ∧
    (∀ k : Nat, (k : Int) ≤ maxRetries →
      (∀ j, j < k → (fn (stateAfter fn j s)).1 ≠ none) →
      (fn (stateAfter fn k s)).1 = none →
      (Do ctx fn maxRetries s).err = none ∧ (Do ctx fn maxRetries s).calls = k + 1 ∧
      (Do ctx fn maxRetries s).waits = k ∧
      (Do ctx fn maxRetries s).state = stateAfter fn (k + 1) s) ∧
    (maxRetries < 0 →
      (Do ctx fn maxRetries s).calls = 0 ∧ (Do ctx fn maxRetries s).state = s ∧
      ∃ e, (Do ctx fn maxRetries s).err = some e) := by
  refine ⟨⟨?_, ?_⟩, ?_, ?_⟩
  · intro hnil
    by_contra hnone
    have hall : ∀ j : Nat, (j : Int) ≤ maxRetries → (fn (stateAfter fn j s)).1 ≠ none :=
      fun j hj hj2 => hnone ⟨j, hj, hj2⟩
    by_cases hmax : 0 ≤ maxRetries
    · obtain ⟨e, he⟩ := do_all_fail ctx fn maxRetries s hctx hmax hall
      rw [he] at hnil
      exact exhaustedError_ne _ _ hnil
    · rw [do_negative_retries ctx fn maxRetries s (by omega)] at hnil
      exact exhaustedError_ne _ _ hnil
  · intro hex
    classical
    have hk := Nat.find_spec hex
    have hmin : ∀ j, j < Nat.find hex → (fn (stateAfter fn j s)).1 ≠ none := by
      intro j hj hj2
      exact Nat.find_min hex hj ⟨by omega, hj2⟩
    rw [do_first_success ctx fn maxRetries s hctx (Nat.find hex) hk.1 hmin hk.2]
  · intro k hk hfail hok
    rw [do_first_success ctx fn maxRetries s hctx k hk hfail hok]
    exact ⟨rfl, rfl, rfl, rfl⟩
  · intro hneg
    rw [do_negative_retries ctx fn maxRetries s hneg]
    exact ⟨rfl, rfl, _, rfl⟩

/-- C27 with three retries on a closure whose third call (index 2) is the first to
succeed: three calls, two waits, nil; and with `maxRetries = -1`: no call, an error. -/
theorem do_nil_iff_success_witness :
    (((Do Ctx.background (succeedsFrom 2) 3 0).err = none ↔
      ∃ k : Nat, (k : Int) ≤ 3 ∧ (succeedsFrom 2 (stateAfter (succeedsFrom 2) k 0)).1 = none) ∧
    ((Do Ctx.background (succeedsFrom 2) 3 0).err = none ∧
      (Do Ctx.background (succeedsFrom 2) 3 0).calls = 2 + 1 ∧
      (Do Ctx.background (succeedsFrom 2) 3 0).waits = 2 ∧
      (Do Ctx.background (succeedsFrom 2) 3 0).state
        = stateAfter (succeedsFrom 2) (2 + 1) 0)) ∧
    ((Do Ctx.background (succeedsFrom 0) (-1) 0).calls = 0 ∧
      (Do Ctx.background (succeedsFrom 0) (-1) 0).state = 0 ∧
      ∃ e, (Do Ctx.background (succeedsFrom 0) (-1) 0).err = some e) :=
  have h := do_nil_iff_success Ctx.background (succeedsFrom 2) 3 0 (fun _ => ⟨rfl, rfl⟩)
  ⟨⟨h.1, h.2.1 2 (by decide) (by decide) (by decide)⟩,
    (do_nil_iff_success Ctx.background (succeedsFrom 0) (-1) 0 (fun _ => ⟨rfl, rfl⟩)).2.2
      (by decide)⟩

/-! ## Calldata of the one-argument calls -/

set_option maxRecDepth 1000000 in
theorem selector_getReserveCaps :
    selector "getReserveCaps(address)" = [0x46, 0xfb, 0xe5, 0x58] := by
  decide

/-- The argument word of both calls: twelve zero bytes, then the asset address. -/
theorem assetWord_bytes :
    leftPad32 (hexDecodeString (trimPrefix0x L2WETH)) = List.replicate 12 0 ++ assetAddressBytes ∧
    assetWord = List.replicate 12 0 ++ assetAddressBytes := by
  constructor <;> decide

theorem callBool_word_one (node : Node) (addr : String) (data : List Byte)
    (h : node addr data = .ok (wordOf 1)) : CallBool node addr data = .ok true := by
  have hlen : ¬ (wordOf 1).length < 32 := by decide
  have h2 : (wordOf 1)[31]? = some 1 := by decide
  obtain ⟨_, h3⟩ := List.getElem?_eq_some.1 h2
  simp [CallBool, h, hlen, h3]

theorem callBool_node_error (node : Node) (addr : String) (data : List Byte) (e : GoError)
    (h : node addr data = .error e) :
    CallBool node addr data = .error (GoError.wrap "调用合约失败: " e) := by
  simp [CallBool, h]

/-- C26. `AAveProtocolDataProvider.Monitor` calls the account with, and
`InkWLWEth.Monitor` calls the data provider with, a calldata of exactly 36 bytes: the 4-byte
method id (`b55d9904` of `getPaused(address)`, `46fbe558` of `getReserveCaps(address)`)
followed by one 32-byte word, twelve zero bytes and then the 20 bytes of the asset address
`0x4200000000000000000000000000000000000006`.  Each monitor is its decoding of the answer to
these bytes; on a node that answers one calldata only, the pause monitor returns the flag
exactly when that calldata is these 36 bytes, and on a node that answers the caps to one
calldata only, the reserve cap monitor returns a value exactly when that calldata is these
36 bytes. -/
theorem one_argument_calldata :
    ([0xb5, 0x5d, 0x99, 0x04] ++ (List.replicate 12 0 ++ assetAddressBytes)).length = 36 ∧
    ([0x46, 0xfb, 0xe5, 0x58] ++ (List.replicate 12 0 ++ assetAddressBytes)).length = 36 ∧
    assetAddressBytes = hexDecodeString "4200000000000000000000000000000000000006".data ∧
    assetAddressBytes.length = 20 ∧
    (∀ (node : Node) (address : String),
      AAveProtocolDataProvider.Monitor node address
        = match CallBool node address
            ([0xb5, 0x5d, 0x99, 0x04] ++ (List.replicate 12 0 ++ assetAddressBytes)) with
          | .error e => .error e
          | .ok paused => if paused then .ok F64.one else .ok (F64.fin 0)) ∧
    (∀ (node : Node) (address : String),
      InkWLWEth.Monitor node address
        = match CallRaw node DefaultL2AaveProtocolDataProvider
            ([0x46, 0xfb, 0xe5, 0x58] ++ (List.replicate 12 0 ++ assetAddressBytes)) with
          | .error e => .error (GoError.wrap "调用 getReserveCaps 失败: " e)
          | .ok result =>
            if result.length < 64 then
              .error (GoError.leaf ("返回数据长度不足: " ++ toString result.length))
            else
              match CallUint256 node address (selector "totalSupply()") with
              | .error e => .error (GoError.wrap "调用 totalSupply 失败: " e)
              | .ok totalSupply =>
                .ok (subFloat64FromInt (setBytes ((result.drop 32).take 32) : Nat)
                  (toFloat64 (roundToPrec (max (bitLen totalSupply.natAbs) 64)
                    ((totalSupply : ℚ) / 1000000000000000000))))) ∧
    (∀ (address : String) (data : List Byte),
      AAveProtocolDataProvider.Monitor (onlyOn address data (wordOf 1)) address = .ok F64.one ↔
        data = [0xb5, 0x5d, 0x99, 0x04] ++ (List.replicate 12 0 ++ assetAddressBytes)) ∧
    (∀ (address : String) (data : List Byte),
      (∃ v, InkWLWEth.Monitor (capsOn data) address = .ok v) ↔
        data = [0x46, 0xfb, 0xe5, 0x58] ++ (List.replicate 12 0 ++ assetAddressBytes)) := by
  have h1 : selector "getPaused(address)" ++ leftPad32 (hexDecodeString (trimPrefix0x L2WETH))
      = [0xb5, 0x5d, 0x99, 0x04] ++ (List.replicate 12 0 ++ assetAddressBytes) := by
    rw [selector_getPaused, assetWord_bytes.1]
  have h2 : selector "getReserveCaps(address)" ++
        leftPad32 (hexDecodeString (trimPrefix0x "0x4200000000000000000000000000000000000006"))
      = [0x46, 0xfb, 0xe5, 0x58] ++ (List.replicate 12 0 ++ assetAddressBytes) := by
    rw [selector_getReserveCaps]
    exact congrArg _ assetWord_bytes.2
  have hA : ∀ (node : Node) (address : String),
      AAveProtocolDataProvider.Monitor node address
        = match CallBool node address
            ([0xb5, 0x5d, 0x99, 0x04] ++ (List.replicate 12 0 ++ assetAddressBytes)) with
          | .error e => .error e
          | .ok paused => if paused then .ok F64.one else .ok (F64.fin 0) := by
    intro node address
    unfold AAveProtocolDataProvider.Monitor
    rw [h1]
  have hI : ∀ (node : Node) (address : String),
      InkWLWEth.Monitor node address
        = match CallRaw node DefaultL2AaveProtocolDataProvider
            ([0x46, 0xfb, 0xe5, 0x58] ++ (List.replicate 12 0 ++ assetAddressBytes)) with
          | .error e => .error (GoError.wrap "调用 getReserveCaps 失败: " e)
          | .ok result =>
            if result.length < 64 then
              .error (GoError.leaf ("返回数据长度不足: " ++ toString result.length))
            else
              match CallUint256 node address (selector "totalSupply()") with
              | .error e => .error (GoError.wrap "调用 totalSupply 失败: " e)
              | .ok totalSupply =>
                .ok (subFloat64FromInt (setBytes ((result.drop 32).take 32) : Nat)
                  (toFloat64 (roundToPrec (max (bitLen totalSupply.natAbs) 64)
                    ((totalSupply : ℚ) / 1000000000000000000)))) := by
    intro node address
    unfold InkWLWEth.Monitor
    rw [h2]
  refine ⟨by decide, by decide, by decide, by decide, hA, hI, ?_, ?_⟩
  · intro address data
    rw [hA]
    by_cases hd : [0xb5, 0x5d, 0x99, 0x04] ++ (List.replicate 12 0 ++ assetAddressBytes) = data
    · have hnode : onlyOn address data (wordOf 1) address
          ([0xb5, 0x5d, 0x99, 0x04] ++ (List.replicate 12 0 ++ assetAddressBytes))
          = .ok (wordOf 1) := by
        unfold onlyOn
        rw [if_pos ⟨rfl, hd⟩]
      rw [callBool_word_one _ _ _ hnode]
      exact ⟨fun _ => hd.symm, fun _ => rfl⟩
    · have hnode : onlyOn address data (wordOf 1) address
          ([0xb5, 0x5d, 0x99, 0x04] ++ (List.replicate 12 0 ++ assetAddressBytes))
          = .error (GoError.leaf "execution reverted") := by
        unfold onlyOn
        rw [if_neg (fun h => hd h.2)]
      rw [callBool_node_error _ _ _ _ hnode]
      constructor
      · intro h
        cases h
      · intro h
        exact absurd h.symm hd
  · intro address data
    rw [hI]
    unfold CallRaw CallUint256 capsOn
    by_cases hd : [0x46, 0xfb, 0xe5, 0x58] ++ (List.replicate 12 0 ++ assetAddressBytes) = data
    · simp only [if_pos hd]
      have hlen : ¬ (capsResponse 7 5000).length < 64 := by decide
      rw [if_neg hlen]
      refine ⟨fun _ => hd.symm, fun _ => ?_⟩
      by_cases hs : selector "totalSupply()" = data
      · simp only [if_pos hs]
        have h32 : ¬ (capsResponse 7 5000).length < 32 := by decide
        rw [if_neg h32]
        exact ⟨_, rfl⟩
      · simp only [if_neg hs]
        have h32 : ¬ (wordOf 0).length < 32 := by decide
        rw [if_neg h32]
        exact ⟨_, rfl⟩
    · simp only [if_neg hd]
      have hlen : (wordOf 0).length < 64 := by decide
      rw [if_pos hlen]
      constructor
      · rintro ⟨v, hv⟩
        cases hv
      · intro h
        exact absurd h.symm hd

/-- C26 on nodes that answer the 36 bytes, and on nodes that answer the method id without
the argument word: the monitors succeed on the first and fail on the second. -/
theorem one_argument_calldata_witness :
    AAveProtocolDataProvider.Monitor
        (onlyOn "0x96086C25"
          ([0xb5, 0x5d, 0x99, 0x04] ++ (List.replicate 12 0 ++ assetAddressBytes)) (wordOf 1))
        "0x96086C25" = .ok F64.one ∧
    AAveProtocolDataProvider.Monitor (onlyOn "0x96086C25" [0xb5, 0x5d, 0x99, 0x04] (wordOf 1))
        "0x96086C25" ≠ .ok F64.one ∧
    (∃ v, InkWLWEth.Monitor
        (capsOn ([0x46, 0xfb, 0xe5, 0x58] ++ (List.replicate 12 0 ++ assetAddressBytes)))
        "0xc1457Acf" = .ok v) ∧
    ¬ (∃ v, InkWLWEth.Monitor (capsOn [0x46, 0xfb, 0xe5, 0x58]) "0xc1457Acf" = .ok v) :=
  ⟨(one_argument_calldata.2.2.2.2.2.2.1 "0x96086C25" _).2 rfl,
    mt (one_argument_calldata.2.2.2.2.2.2.1 "0x96086C25" [0xb5, 0x5d, 0x99, 0x04]).1
      (by decide),
    (one_argument_calldata.2.2.2.2.2.2.2 "0xc1457Acf" _).2 rfl,
    mt (one_argument_calldata.2.2.2.2.2.2.2 "0xc1457Acf" [0x46, 0xfb, 0xe5, 0x58]).1
      (by decide)⟩

/-! ## Validation of the emergency settings -/

theorem sampleKey_valid : (HexToECDSA sampleKey).isSome = true := by
  decide

theorem shortKey_invalid : HexToECDSA "4c0883a6" = none := by
  decide

theorem newDelegate_ok (dial : String → Option GoError) (rpcUrl key safe argus : String)
    (hdial : dial rpcUrl = none) (hkey : (HexToECDSA key).isSome = true) :
    NewDelegate dial rpcUrl key safe argus = some ⟨rpcUrl, key, safe, argus⟩ := by
  unfold NewDelegate
  obtain ⟨D, hD⟩ := Option.isSome_iff_exists.1 hkey
  simp only [hdial, hD]

theorem newDelegate_fatal (dial : String → Option GoError) (rpcUrl key safe argus : String)
    (h : (∃ e, dial rpcUrl = some e) ∨ HexToECDSA key = none) :
    NewDelegate dial rpcUrl key safe argus = none := by
  unfold NewDelegate
  cases hd : dial rpcUrl with
  | some e => rfl
  | none =>
    rcases h with ⟨e, he⟩ | hk
    · rw [hd] at he
      cases he
    · simp only [hk]

/-- C25 as stated fails on the code: an enabled configuration with a well-formed private key
(64 hexadecimal digits below the group order, which `crypto.HexToECDSA` accepts), the safe
and argus addresses of the repository's test, and the node URL `http://localhost:8545`
(`ethclient.Dial` of an `http` URL opens no connection and returns no error), whose withdraw
amount `abc` is not a base-10 integer, is accepted by `NewManager`, which returns a manager
and no error. -/
theorem newManager_accepts_bad_amount :
    bigIntSetString10 badAmountConfig.WithdrawAmount = none ∧
    (HexToECDSA badAmountConfig.PrivateKey).isSome = true ∧
    NewManager badAmountConfig "http://localhost:8545" (NewDelegate (fun _ => none))
      = some (.ok ⟨badAmountConfig,
          some ⟨"http://localhost:8545", sampleKey, "0x5a372D431B99DB15ff6fdbf39Cf17dd8F0f6bDAb",
            "0x6A7180F6217a1279646222d6B28Cc60C7FfCc995"⟩, false, 0⟩) := by
  refine ⟨by decide, sampleKey_valid, ?_⟩
  have hd := newDelegate_ok (fun _ => none) "http://localhost:8545" sampleKey
    "0x5a372D431B99DB15ff6fdbf39Cf17dd8F0f6bDAb" "0x6A7180F6217a1279646222d6B28Cc60C7FfCc995"
    rfl sampleKey_valid
  have h1 : ¬ sampleKey = "" := by decide
  simp only [NewManager, badAmountConfig, Bool.not_true, Bool.false_eq_true, if_false, h1, hd]
  simp

/-- C25, amended. With the feature enabled `NewManager` returns an error for every
configuration in which the private key, the safe address, the argus address or the withdraw
amount is empty; with the feature disabled it returns a manager whatever the other settings
are.  With four non-empty settings, `NewManager` returns no error: if the node cannot be
dialled or the private key is not a valid key, `NewDelegate` ends the process (`log.Fatal`);
otherwise `NewManager` returns the manager around the delegate, whatever the text of the
withdraw amount is.  An amount that is not a base-10 integer is rejected only when an alert
triggers, where `executeEmergencyWithdraw` returns the parse error without calling the
delegate and leaves the manager as it was. -/
theorem newManager_validation (cfg : EmergencyConfig) (inkRPC : String)
    (dial : String → Option GoError) :
    (cfg.Enabled = true →
      cfg.PrivateKey = "" ∨ cfg.SafeAddress = "" ∨ cfg.ArgusAddress = "" ∨
        cfg.WithdrawAmount = "" →
      ∃ e, NewManager cfg inkRPC (NewDelegate dial) = some (.error e)) ∧
    (cfg.Enabled = false →
      NewManager cfg inkRPC (NewDelegate dial) = some (.ok ⟨cfg, none, false, 0⟩)) ∧
    (cfg.Enabled = true → cfg.PrivateKey ≠ "" → cfg.SafeAddress ≠ "" →
      cfg.ArgusAddress ≠ "" → cfg.WithdrawAmount ≠ "" →
      ((∃ e, dial inkRPC = some e) ∨ HexToECDSA cfg.PrivateKey = none →
        NewManager cfg inkRPC (NewDelegate dial) = none) ∧
      (dial inkRPC = none → (HexToECDSA cfg.PrivateKey).isSome = true →
        NewManager cfg inkRPC (NewDelegate dial)
          = some (.ok ⟨cfg, some ⟨inkRPC, cfg.PrivateKey, cfg.SafeAddress, cfg.ArgusAddress⟩,
              false, 0⟩) ∧
        (bigIntSetString10 cfg.WithdrawAmount = none →
          ∀ (env : Env) (reason : AlertReason),
            executeEmergencyWithdraw
                ⟨cfg, some ⟨inkRPC, cfg.PrivateKey, cfg.SafeAddress, cfg.ArgusAddress⟩,
                  false, 0⟩ env reason
              = some ⟨⟨cfg, some ⟨inkRPC, cfg.PrivateKey, cfg.SafeAddress, cfg.ArgusAddress⟩,
                    false, 0⟩,
                  some (GoError.leaf ("无法解析提款金额: " ++ cfg.WithdrawAmount)),
                  [Event.logTrigger reason cfg.WithdrawAmount]⟩))) := by
  refine ⟨?_, ?_, ?_⟩
  · intro hen hempty
    unfold NewManager
    simp only [hen, Bool.not_true, Bool.false_eq_true, if_false]
    by_cases h1 : cfg.PrivateKey = ""
    · exact ⟨_, by rw [if_pos h1]⟩
    · rw [if_neg h1]
      by_cases h2 : cfg.SafeAddress = ""
      · exact ⟨_, by rw [if_pos h2]⟩
      · rw [if_neg h2]
        by_cases h3 : cfg.ArgusAddress = ""
        · exact ⟨_, by rw [if_pos h3]⟩
        · rw [if_neg h3]
          have h4 : cfg.WithdrawAmount = "" := by
            rcases hempty with h | h | h | h
            · exact absurd h h1
            · exact absurd h h2
            · exact absurd h h3
            · exact h
          exact ⟨_, by rw [if_pos h4]⟩
  · intro hdis
    unfold NewManager
    simp [hdis]
  · intro hen h1 h2 h3 h4
    constructor
    · intro hfatal
      unfold NewManager
      simp only [hen, Bool.not_true, Bool.false_eq_true, if_false, h1, h2, h3, h4,
        newDelegate_fatal dial inkRPC cfg.PrivateKey cfg.SafeAddress cfg.ArgusAddress hfatal]
    · intro hdial hkey
      constructor
      · unfold NewManager
        simp only [hen, Bool.not_true, Bool.false_eq_true, if_false, h1, h2, h3, h4,
          newDelegate_ok dial inkRPC cfg.PrivateKey cfg.SafeAddress cfg.ArgusAddress hdial hkey]
      · intro hbad env reason
        unfold executeEmergencyWithdraw
        simp only [Bool.false_eq_true, if_false, hbad]

/-- C25, amended, at configurations with a well-formed key: one with an empty amount, a
disabled one, one with the amount `abc`, and one with a key of 8 digits. -/
theorem newManager_validation_witness :
    (∃ e, NewManager { badAmountConfig with WithdrawAmount := "" } "http://localhost:8545"
      (NewDelegate (fun _ => none)) = some (.error e)) ∧
    NewManager sampleDisabled "http://localhost:8545" (NewDelegate (fun _ => none))
      = some (.ok ⟨sampleDisabled, none, false, 0⟩) ∧
    NewManager { badAmountConfig with PrivateKey := "4c0883a6" } "http://localhost:8545"
      (NewDelegate (fun _ => none)) = none ∧
    (NewManager badAmountConfig "http://localhost:8545" (NewDelegate (fun _ => none))
      = some (.ok ⟨badAmountConfig,
          some ⟨"http://localhost:8545", badAmountConfig.PrivateKey,
            badAmountConfig.SafeAddress, badAmountConfig.ArgusAddress⟩, false, 0⟩) ∧
    ∀ (env : Env) (reason : AlertReason),
      executeEmergencyWithdraw ⟨badAmountConfig,
          some ⟨"http://localhost:8545", badAmountConfig.PrivateKey,
            badAmountConfig.SafeAddress, badAmountConfig.ArgusAddress⟩, false, 0⟩
          env reason
        = some ⟨⟨badAmountConfig,
              some ⟨"http://localhost:8545", badAmountConfig.PrivateKey,
                badAmountConfig.SafeAddress, badAmountConfig.ArgusAddress⟩, false, 0⟩,
            some (GoError.leaf ("无法解析提款金额: " ++ badAmountConfig.WithdrawAmount)),
            [Event.logTrigger reason badAmountConfig.WithdrawAmount]⟩) :=
  have h := ((newManager_validation badAmountConfig "http://localhost:8545"
    (fun _ => none)).2.2 rfl (by decide) (by decide) (by decide) (by decide)).2
    rfl sampleKey_valid
  ⟨(newManager_validation { badAmountConfig with WithdrawAmount := "" }
      "http://localhost:8545" (fun _ => none)).1 rfl (Or.inr (Or.inr (Or.inr rfl))),
    (newManager_validation sampleDisabled "http://localhost:8545" (fun _ => none)).2.1 rfl,
    ((newManager_validation { badAmountConfig with PrivateKey := "4c0883a6" }
      "http://localhost:8545" (fun _ => none)).2.2 rfl (by decide) (by decide) (by decide)
      (by decide)).1 (Or.inr shortKey_invalid),
    h.1, h.2 (by decide)⟩

/-! ## Price deviation -/

/-- The float64 of a rational that is not negative is an infinity or a finite value that is
not negative. -/
theorem toFloat64_nonneg_cases (q : ℚ) (hq : 0 ≤ q) :
    toFloat64 q = F64.posInf ∨ ∃ r, 0 ≤ r ∧ toFloat64 q = F64.fin r := by
  have hneg : ¬ q < 0 := not_lt.2 hq
  unfold toFloat64
  by_cases h0 : q = 0
  · right; exact ⟨0, le_refl _, by rw [if_pos h0]⟩
  · rw [if_neg h0]
    simp only [if_neg hneg]
    split_ifs <;>
      first
        | exact Or.inl rfl
        | exact Or.inr ⟨_, roundToUlp_nonneg _ _ _, rfl⟩

/-- Rounding to float64 commutes with the change of sign. -/
theorem toFloat64_neg (q : ℚ) : toFloat64 (-q) = F64.neg (toFloat64 q) := by
  unfold toFloat64
  by_cases h0 : q = 0
  · simp [h0, F64.neg]
  · have h0n : ¬ -q = 0 := by simpa using h0
    rw [if_neg h0, if_neg h0n]
    simp only [Rat.neg_num, Rat.neg_den, Int.natAbs_neg]
    rcases lt_or_gt_of_ne h0 with hlt | hgt
    · have h1 : ¬ -q < 0 := by simp; exact le_of_lt hlt
      simp only [if_pos hlt, if_neg h1]
      split_ifs <;> simp [F64.neg]
    · have h1 : -q < 0 := by simpa using hgt
      have h2 : ¬ q < 0 := not_lt.2 (le_of_lt hgt)
      simp only [if_pos h1, if_neg h2]
      split_ifs <;> simp [F64.neg]

/-- The source's order (divide, then drop the sign) and the specification's order (drop the
sign, then divide) give the same float64 for a positive `ethPrice`. -/
theorem priceDeviation_eq_spec (inkPrice : F64) (e : ℚ) (he : 0 < e) :
    priceDeviation inkPrice (F64.fin e) = specDeviation inkPrice (F64.fin e) := by
  have hne : F64.ne (F64.fin e) (F64.fin 0) = true := by
    simp [F64.ne, F64.eq, ne_of_gt he]
  have he0 : ¬ e = 0 := ne_of_gt he
  have hle : 0 ≤ e := le_of_lt he
  unfold priceDeviation specDeviation
  simp only [hne, if_true]
  cases hs : F64.sub inkPrice (F64.fin e) with
  | nan => simp [F64.div, F64.abs, F64.lt]
  | posInf => simp [F64.div, F64.abs, F64.lt, hle]
  | negInf => simp [F64.div, F64.abs, F64.lt, F64.neg, hle]
  | fin x =>
    simp only [F64.div, F64.abs, if_neg he0]
    by_cases hx : 0 ≤ x
    · rw [abs_of_nonneg hx, toFloat64_not_neg (x / e) (div_nonneg hx hle)]
      simp
    · have hxneg : x < 0 := not_le.1 hx
      have hq : |x| / e = -(x / e) := by rw [abs_of_neg hxneg, neg_div]
      rw [hq, toFloat64_neg]
      have hpos : 0 ≤ -(x / e) := by
        rw [← neg_div]
        exact div_nonneg (by linarith) hle
      have hback : toFloat64 (x / e) = F64.neg (toFloat64 (-(x / e))) := by
        rw [← toFloat64_neg, neg_neg]
      rcases toFloat64_nonneg_cases (-(x / e)) hpos with hinf | ⟨r, hr0, hr⟩
      · rw [hback, hinf]
        simp [F64.neg, F64.lt]
      · rw [hback, hr]
        simp only [F64.neg, F64.lt, neg_neg]
        by_cases hr1 : r = 0
        · simp [hr1]
        · have : -r < 0 := by
            have : 0 < r := lt_of_le_of_ne hr0 (Ne.symm hr1)
            linarith
          simp [this]

theorem div_le_mul_of_inv_le (a e c : ℚ) (ha : 0 ≤ a) (he : 0 < e) (hc : 1 ≤ e * c) :
    a / e ≤ a * c := by
  rw [div_le_iff₀ he]
  nlinarith

theorem one_div_mul_cancel_right (a b : ℚ) (ha : a ≠ 0) (hb : b ≠ 0) :
    1 / (a * b) * b = 1 / a := by
  field_simp
  ring

/-- The accuracy of the deviation: for prices up to `2^900` in absolute value and an
`ethPrice` of at least `2^-64`, the float64 computed by `checkPriceFeedDeviation` is finite,
not negative, and within `δ / 2^51 + 2^-900` of the exact `δ = |inkPrice - ethPrice| /
ethPrice`. -/
theorem priceDeviation_error (i e : ℚ) (he : 1 / 2 ^ 64 ≤ e) (he2 : e ≤ 2 ^ 900)
    (hi : |i| ≤ 2 ^ 900) :
    ∃ d, priceDeviation (F64.fin i) (F64.fin e) = F64.fin d ∧ 0 ≤ d ∧
      |d - |i - e| / e| ≤ |i - e| / e / 2 ^ 51 + 1 / 2 ^ 900 := by
  have h2 : (0 : ℚ) < 2 := by norm_num
  have h2ne : (2 : ℚ) ≠ 0 := by norm_num
  have hP64 : (0 : ℚ) < 2 ^ 64 := pow_pos h2 64
  have hP : (0 : ℚ) < 2 ^ 900 := pow_pos h2 900
  have hP1 : (1 : ℚ) ≤ 2 ^ 900 := one_le_pow₀ (by norm_num)
  have he0 : 0 < e := lt_of_lt_of_le (one_div_pos.2 hP64) he
  have hec : 1 ≤ e * 2 ^ 64 := by
    have := (div_le_iff₀ hP64).1 he
    linarith
  -- the tiny absolute term of the float64 rounding
  have hη0 : (0 : ℚ) ≤ 1 / 2 ^ 1075 := le_of_lt (one_div_pos.2 (pow_pos h2 1075))
  have hη1 : (1 : ℚ) / 2 ^ 1075 ≤ 1 / 2 ^ 900 / 4 := by
    rw [div_div]
    apply one_div_le_one_div_of_le (by linarith)
    have e1 : (2 : ℚ) ^ 1075 = 2 ^ 900 * 2 ^ 175 := pow_add 2 900 175
    have e2 : (4 : ℚ) ≤ 2 ^ 175 := by norm_num
    rw [e1]
    exact mul_le_mul_of_nonneg_left e2 (le_of_lt hP)
  have hη2 : (1 : ℚ) / 2 ^ 1075 * 2 ^ 64 ≤ 1 / 2 ^ 900 / 4 := by
    have e1 : (2 : ℚ) ^ 1075 = 2 ^ 1011 * 2 ^ 64 := pow_add 2 1011 64
    rw [e1, one_div_mul_cancel_right _ _ (pow_ne_zero _ h2ne) (pow_ne_zero _ h2ne), div_div]
    apply one_div_le_one_div_of_le (by linarith)
    have e3 : (2 : ℚ) ^ 1011 = 2 ^ 900 * 2 ^ 111 := pow_add 2 900 111
    have e4 : (4 : ℚ) ≤ 2 ^ 111 := by norm_num
    rw [e3]
    exact mul_le_mul_of_nonneg_left e4 (le_of_lt hP)
  have hw1 : (1 : ℚ) / 2 ^ 900 ≤ 1 := by
    rw [div_le_iff₀ hP]; linarith
  have hbig : (8 : ℚ) * 2 ^ 900 * 2 ^ 64 < 2 ^ 1023 := by
    have e1 : (2 : ℚ) ^ 1023 = 2 ^ 900 * 2 ^ 123 := pow_add 2 900 123
    have e2 : (8 : ℚ) * 2 ^ 64 < 2 ^ 123 := by norm_num
    have := mul_lt_mul_of_pos_left e2 hP
    rw [e1]
    linarith
  have hbig2 : (2 : ℚ) * 2 ^ 900 < 2 ^ 1023 := by
    have : (1 : ℚ) ≤ 2 ^ 64 := one_le_pow₀ (by norm_num)
    nlinarith
  generalize h1023 : (2 : ℚ) ^ 1023 = B at hbig hbig2
  generalize hηdef : (1 : ℚ) / 2 ^ 1075 = η at hη0 hη1 hη2
  generalize hPdef : (2 : ℚ) ^ 900 = P at *
  generalize hCdef : (2 : ℚ) ^ 64 = C at *
  -- the difference
  have hD : |i - e| ≤ 2 * P := by
    have := abs_sub i e
    have he' : |e| = e := abs_of_pos he0
    linarith
  have hDlt : |i - e| < 2 ^ 1023 := by rw [h1023]; linarith
  obtain ⟨x, hx, hxerr, -, -⟩ := toFloat64_error (i - e) hDlt
  rw [hηdef] at hxerr
  have h53 : (0 : ℚ) < 2 ^ 53 := pow_pos h2 53
  have hD53 : |i - e| / 2 ^ 53 ≤ |i - e| := div_le_self (abs_nonneg _) (one_le_pow₀ (by norm_num))
  have hηP : η ≤ P := by
    have : (1 : ℚ) / P / 4 ≤ 1 := by linarith
    linarith
  have hxabs : |x| ≤ 5 * P := by
    have := abs_sub_abs_le_abs_sub x (i - e)
    linarith
  have hQabs : |x / e| ≤ 5 * P * C := by
    rw [abs_div, abs_of_pos he0]
    have := div_le_mul_of_inv_le |x| e C (abs_nonneg _) he0 hec
    have hC0 : 0 ≤ C := le_of_lt hP64
    nlinarith
  have hQlt : |x / e| < 2 ^ 1023 := by
    rw [h1023]
    have : 0 < P * C := mul_pos hP hP64
    nlinarith
  obtain ⟨d, hd, hderr, -, -⟩ := toFloat64_error (x / e) hQlt
  rw [hηdef] at hderr
  have hne : F64.ne (F64.fin e) (F64.fin 0) = true := by
    simp [F64.ne, F64.eq, ne_of_gt he0]
  have hval : priceDeviation (F64.fin i) (F64.fin e) = F64.fin |d| := by
    unfold priceDeviation
    simp only [hne, if_true, F64.sub, hx, F64.div, if_neg (ne_of_gt he0), hd, F64.lt]
    by_cases hneg : d < 0
    · simp [hneg, F64.neg, abs_of_neg hneg]
    · simp [hneg, abs_of_nonneg (not_lt.1 hneg)]
  refine ⟨|d|, hval, abs_nonneg _, ?_⟩
  -- the exact deviation and the distance to it
  have hδ : |(i - e) / e| = |i - e| / e := by rw [abs_div, abs_of_pos he0]
  have hstep1 : |x / e - (i - e) / e| ≤ |i - e| / e / 2 ^ 53 + η * C := by
    have e1 : x / e - (i - e) / e = (x - (i - e)) / e := by ring
    rw [e1, abs_div, abs_of_pos he0]
    have e2 : |x - (i - e)| / e ≤ (|i - e| / 2 ^ 53 + η) / e :=
      (div_le_div_iff_of_pos_right he0).2 hxerr
    have e3 : (|i - e| / 2 ^ 53 + η) / e = |i - e| / e / 2 ^ 53 + η / e := by
      rw [add_div, div_right_comm]
    have e4 := div_le_mul_of_inv_le η e C hη0 he0 hec
    linarith
  have hδ0 : 0 ≤ |i - e| / e := div_nonneg (abs_nonneg _) (le_of_lt he0)
  have hQ2 : |x / e| ≤ |i - e| / e + (|i - e| / e / 2 ^ 53 + η * C) := by
    have := abs_sub_abs_le_abs_sub (x / e) ((i - e) / e)
    rw [hδ] at this
    linarith
  have hQ53 : |x / e| / 2 ^ 53
      ≤ (|i - e| / e + (|i - e| / e / 2 ^ 53 + η * C)) / 2 ^ 53 :=
    (div_le_div_iff_of_pos_right h53).2 hQ2
  have htri : |d - (i - e) / e| ≤ |d - x / e| + |x / e - (i - e) / e| := by
    have := abs_sub_le d (x / e) ((i - e) / e)
    exact this
  have hrev : |(|d| - |i - e| / e)| ≤ |d - (i - e) / e| := by
    have := abs_abs_sub_abs_le_abs_sub d ((i - e) / e)
    rw [hδ] at this
    exact this
  generalize hδdef : |i - e| / e = δ at *
  have hηC0 : 0 ≤ η * C := mul_nonneg hη0 (le_of_lt hP64)
  have hfinal : |d - x / e| + |x / e - (i - e) / e| ≤ δ / 2 ^ 51 + 1 / P := by
    have e5 : (δ + (δ / 2 ^ 53 + η * C)) / 2 ^ 53
        = δ / 2 ^ 53 + δ / 2 ^ 53 / 2 ^ 53 + η * C / 2 ^ 53 := by ring
    have e6 : δ / 2 ^ 53 / 2 ^ 53 ≤ δ / 2 ^ 53 :=
      div_le_self (div_nonneg hδ0 (le_of_lt h53)) (one_le_pow₀ (by norm_num))
    have e7 : η * C / 2 ^ 53 ≤ η * C := div_le_self hηC0 (one_le_pow₀ (by norm_num))
    have e8 : δ / 2 ^ 51 = 4 * (δ / 2 ^ 53) := by ring
    linarith
  linarith

theorem deviationFlag_fin (d : ℚ) :
    deviationFlag (F64.fin d)
      = if (3602879701896397 / 72057594037927936 : ℚ) < d then F64.one else F64.fin 0 := by
  simp [deviationFlag, F64.gt, F64.lt, F64.c0_05]

/-- An exact deviation of 5.1% or more is reported as 1.0, one of 4.9% or less as 0.0. -/
theorem deviationFlag_interval (i e : ℚ) (he : 1 / 2 ^ 64 ≤ e) (he2 : e ≤ 2 ^ 900)
    (hi : |i| ≤ 2 ^ 900) :
    (51 / 1000 ≤ |i - e| / e →
      deviationFlag (priceDeviation (F64.fin i) (F64.fin e)) = F64.one) ∧
    (|i - e| / e ≤ 49 / 1000 →
      deviationFlag (priceDeviation (F64.fin i) (F64.fin e)) = F64.fin 0) := by
  obtain ⟨d, hd, hd0, herr⟩ := priceDeviation_error i e he he2 hi
  have hw : (1 : ℚ) / 2 ^ 900 ≤ 1 / 2 ^ 20 :=
    one_div_le_one_div_of_le (pow_pos (by norm_num) 20)
      (pow_le_pow_right₀ (by norm_num) (by norm_num))
  have hδ0 : 0 ≤ |i - e| / e := by
    have hP64 : (0 : ℚ) < 2 ^ 64 := pow_pos (by norm_num) 64
    exact div_nonneg (abs_nonneg _) (le_of_lt (lt_of_lt_of_le (one_div_pos.2 hP64) he))
  rw [hd, deviationFlag_fin]
  generalize (1 : ℚ) / 2 ^ 900 = w at herr hw
  generalize |i - e| / e = δ at herr hδ0
  have h := abs_le.1 herr
  constructor
  · intro hlarge
    rw [if_pos]
    norm_num at hw ⊢
    linarith [h.1]
  · intro hsmall
    rw [if_neg]
    norm_num at hw ⊢
    linarith [h.2]

/-- The float64 of a whole-number price with 8 decimals, for prices between 2048 and 4095. -/
theorem quoFloat64_whole_price (p : Nat) (h1 : 2048 ≤ p) (h2 : p < 4096) :
    quoFloat64 (p * 100000000) (10 ^ 8) = F64.fin p := by
  have hq : ((p * 100000000 : Nat) : ℚ) / 10 ^ 8 = (p : ℚ) := by
    push_cast
    norm_num
  have hb : max (bitLen (p * 100000000)) 64 = 64 := by
    apply max_eq_right
    have hlt : p * 100000000 < 2 ^ 64 := by omega
    by_contra hcon
    have h65 : 65 ≤ bitLen (p * 100000000) := by omega
    have hpos : 0 < p * 100000000 := by omega
    have hs := (bitLen_spec (p * 100000000) hpos).2.1
    have : 2 ^ 64 ≤ 2 ^ (bitLen (p * 100000000) - 1) :=
      Nat.pow_le_pow_right (by decide) (by omega)
    omega
  have hne : (p : ℚ) ≠ 0 := by
    have : (0 : ℚ) < p := by exact_mod_cast (by omega : 0 < p)
    exact ne_of_gt this
  have hnum : (p : ℚ).num.natAbs = p := by simp
  have hden : (p : ℚ).den = 1 := by simp
  have hfl : floorLog2 p 1 = 11 := by
    have hs := floorLog2_spec p 1 (by omega) (by decide)
    have hp1 : ((2 : ℚ) ^ (11 : Int)) ≤ p := by
      have : ((2048 : Nat) : ℚ) ≤ p := by exact_mod_cast h1
      norm_num at this ⊢
      exact this
    have hp2 : (p : ℚ) < (2 : ℚ) ^ (12 : Int) := by
      have : (p : ℚ) < ((4096 : Nat) : ℚ) := by exact_mod_cast h2
      norm_num at this ⊢
      exact this
    simp only [Nat.cast_one, div_one] at hs
    have ha : floorLog2 p 1 < 12 := by
      have := lt_of_le_of_lt hs.1 hp2
      exact (zpow_lt_zpow_iff_right₀ (by norm_num : (1 : ℚ) < 2)).1 this
    have hb : 11 < floorLog2 p 1 + 1 := by
      have := lt_of_le_of_lt hp1 hs.2
      exact (zpow_lt_zpow_iff_right₀ (by norm_num : (1 : ℚ) < 2)).1 this
    omega
  have habs : |(p : ℚ)| < 2 ^ 12 := by
    rw [abs_of_pos (lt_of_le_of_ne (Nat.cast_nonneg p) (Ne.symm hne))]
    have : (p : ℚ) < ((4096 : Nat) : ℚ) := by exact_mod_cast h2
    norm_num at this ⊢
    exact this
  unfold quoFloat64
  rw [hq, hb,
    roundToPrec_exact 64 p p 1 11 hne hnum hden hfl (by decide) (one_dvd _),
    toFloat64_exact p p 1 11 12 hne hnum hden hfl (by decide) (by decide) (one_dvd _)
      (by decide) habs]

/-- What `checkPriceFeedDeviation` does once both prices are fetched. -/
theorem checkPriceFeedDeviation_ok (w : World) (contract : Account) (st : SchedState)
    (inkPrice ethPrice : F64)
    (hink : contract.Monitor (w.inkNode st.clock) = .ok inkPrice)
    (heth : ChaosPushOracle.Monitor (w.ethNode st.clock) chainlinkAddr = .ok ethPrice) :
    (checkPriceFeedDeviation w contract st).1 = none ∧
    (checkPriceFeedDeviation w contract st).2.events
      = (st.setMetric "ink" contract.Name
          (deviationFlag (priceDeviation inkPrice ethPrice))).events ++
        [SchedEvent.logDeviation contract.Name inkPrice ethPrice
          (priceDeviation inkPrice ethPrice)
          (deviationFlag (priceDeviation inkPrice ethPrice))] ∧
    (checkPriceFeedDeviation w contract st).2.metrics
      = (st.metrics.SetContractMetric "ink" contract.Name
          (deviationFlag (priceDeviation inkPrice ethPrice))).1 := by
  simp [checkPriceFeedDeviation, hink, heth]
  rfl

/-- When a price fetch fails, `checkPriceFeedDeviation` returns an error and reports
nothing. -/
theorem checkPriceFeedDeviation_fails (w : World) (contract : Account) (st : SchedState)
    (h : (∃ e, contract.Monitor (w.inkNode st.clock) = .error e) ∨
      (∃ e, ChaosPushOracle.Monitor (w.ethNode st.clock) chainlinkAddr = .error e)) :
    (checkPriceFeedDeviation w contract st).1 ≠ none ∧
    (checkPriceFeedDeviation w contract st).2.events = st.events ∧
    (checkPriceFeedDeviation w contract st).2.metrics = st.metrics := by
  cases hink : contract.Monitor (w.inkNode st.clock) with
  | error e => simp [checkPriceFeedDeviation, hink]
  | ok inkPrice =>
    rcases h with ⟨e, he⟩ | ⟨e, he⟩
    · rw [hink] at he
      cases he
    · simp [checkPriceFeedDeviation, hink, he]

theorem deviationFlag_values (d : F64) :
    (deviationFlag d = F64.one ∨ deviationFlag d = F64.fin 0) ∧
    (deviationFlag d = F64.one ↔ F64.gt d F64.c0_05 = true) := by
  unfold deviationFlag
  by_cases h : F64.gt d F64.c0_05 = true
  · simp [h]
  · have hne : F64.fin 0 ≠ F64.one := by
      intro hcon
      have : (0 : ℚ) = 1 := F64.fin.inj hcon
      norm_num at this
    simp [h, hne]

/-- C24. For the price feed contract `checkInkContract` is `checkPriceFeedDeviation`.  With
both prices fetched it reports, in place of the price, the flag of the deviation: 1.0 if the
deviation is greater than the float64 0.05 and 0.0 otherwise, where the deviation is the
float64 `|inkPrice - ethPrice| / ethPrice` for a positive `ethPrice` and 0 for an `ethPrice`
of 0 (flag 0.0).  In exact terms, for prices up to `2^900` and an `ethPrice` of at least
`2^-64`, an exact deviation of at least 5.1% gives 1.0 and one of at most 4.9% gives 0.0.
If either fetch fails, the check returns an error and no value is reported: no event, and
the metrics are as before. -/
theorem priceFeed_deviation_flag (w : World) (contract : Account) (st : SchedState) :
    (contract.kind = AccountKind.chaosPushOracle →
      checkInkContract w contract st = checkPriceFeedDeviation w contract st) ∧
    (∀ inkPrice ethPrice : F64,
      contract.Monitor (w.inkNode st.clock) = .ok inkPrice →
      ChaosPushOracle.Monitor (w.ethNode st.clock) chainlinkAddr = .ok ethPrice →
      (checkPriceFeedDeviation w contract st).1 = none ∧
      (checkPriceFeedDeviation w contract st).2.events
        = (st.setMetric "ink" contract.Name
            (deviationFlag (priceDeviation inkPrice ethPrice))).events ++
          [SchedEvent.logDeviation contract.Name inkPrice ethPrice
            (priceDeviation inkPrice ethPrice)
            (deviationFlag (priceDeviation inkPrice ethPrice))] ∧
      (checkPriceFeedDeviation w contract st).2.metrics
        = (st.metrics.SetContractMetric "ink" contract.Name
            (deviationFlag (priceDeviation inkPrice ethPrice))).1) ∧
    (∀ d : F64,
      (deviationFlag d = F64.one ∨ deviationFlag d = F64.fin 0) ∧
      (deviationFlag d = F64.one ↔ F64.gt d F64.c0_05 = true)) ∧
    (∀ (inkPrice : F64) (e : ℚ), 0 < e →
      priceDeviation inkPrice (F64.fin e) = specDeviation inkPrice (F64.fin e)) ∧
    (∀ inkPrice : F64,
      priceDeviation inkPrice (F64.fin 0) = F64.fin 0 ∧
      deviationFlag (priceDeviation inkPrice (F64.fin 0)) = F64.fin 0) ∧
    (∀ i e : ℚ, 1 / 2 ^ 64 ≤ e → e ≤ 2 ^ 900 → |i| ≤ 2 ^ 900 →
      (51 / 1000 ≤ |i - e| / e →
        deviationFlag (priceDeviation (F64.fin i) (F64.fin e)) = F64.one) ∧
      (|i - e| / e ≤ 49 / 1000 →
        deviationFlag (priceDeviation (F64.fin i) (F64.fin e)) = F64.fin 0)) ∧
    ((∃ e, contract.Monitor (w.inkNode st.clock) = .error e) ∨
        (∃ e, ChaosPushOracle.Monitor (w.ethNode st.clock) chainlinkAddr = .error e) →
      (checkPriceFeedDeviation w contract st).1 ≠ none ∧
      (checkPriceFeedDeviation w contract st).2.events = st.events ∧
      (checkPriceFeedDeviation w contract st).2.metrics = st.metrics) := by
  refine ⟨?_, ?_, deviationFlag_values, priceDeviation_eq_spec, ?_, deviationFlag_interval,
    checkPriceFeedDeviation_fails w contract st⟩
  · intro hkind
    unfold checkInkContract
    rw [if_pos]
    simp [Account.Type, Account.Name, hkind]
  · intro inkPrice ethPrice hink heth
    exact checkPriceFeedDeviation_ok w contract st inkPrice ethPrice hink heth
  · intro inkPrice
    have h0 : priceDeviation inkPrice (F64.fin 0) = F64.fin 0 := by
      simp [priceDeviation, F64.ne, F64.eq]
    rw [h0, deviationFlag_fin]
    exact ⟨rfl, by norm_num⟩

theorem setBytes_snoc (xs : List Byte) (b : Byte) :
    setBytes (xs ++ [b]) = setBytes xs * 256 + b.val := by
  rw [setBytes_append]
  simp [setBytes, setBytesAux]

theorem setBytes_wordBytes (k w : Nat) :
    setBytes (wordBytes k w).reverse = w % 256 ^ k := by
  induction k generalizing w with
  | zero => simp [wordBytes, setBytes, setBytesAux, Nat.mod_one]
  | succ k ih =>
    simp only [wordBytes, List.reverse_cons]
    rw [setBytes_snoc, ih, pow_succ', Nat.mod_mul]
    simp only []
    ring

/-- A word encodes its integer. -/
theorem setBytes_wordOf (n : Nat) (h : n < 2 ^ 256) : setBytes (wordOf n) = n := by
  unfold wordOf
  rw [setBytes_wordBytes]
  exact Nat.mod_eq_of_lt (by
    have : (256 : Nat) ^ 32 = 2 ^ 256 := by norm_num
    omega)

/-- The two prices of the sample worlds, as the monitors return them. -/
theorem priceWorld_prices (inkP ethP : Nat) (h1 : 2048 ≤ inkP) (h2 : inkP < 4096)
    (h3 : 2048 ≤ ethP) (h4 : ethP < 4096) (t : Nat) :
    priceFeedAccount.Monitor ((priceWorld (inkP * 100000000) (ethP * 100000000)).inkNode t)
      = .ok (F64.fin inkP) ∧
    ChaosPushOracle.Monitor ((priceWorld (inkP * 100000000) (ethP * 100000000)).ethNode t)
      chainlinkAddr = .ok (F64.fin ethP) := by
  have hset : ∀ p : Nat, p < 4096 → setBytes (wordOf (p * 100000000)) = p * 100000000 := by
    intro p hp
    apply setBytes_wordOf
    have : (2 : Nat) ^ 64 ≤ 2 ^ 256 := Nat.pow_le_pow_right (by decide) (by decide)
    omega
  have hnode : ∀ (r : List Byte) (a : String) (d : List Byte), constNode r a d = .ok r :=
    fun _ _ _ => rfl
  constructor
  · have hm : priceFeedAccount.Monitor
        ((priceWorld (inkP * 100000000) (ethP * 100000000)).inkNode t)
        = ChaosPushOracle.Monitor (constNode (wordOf (inkP * 100000000)))
            priceFeedAccount.address := rfl
    rw [hm, chaosPushOracle_eq _ _ (wordOf (inkP * 100000000)) (hnode _ _ _)
      (le_of_eq (wordOf_length _).symm), hset inkP h2, quoFloat64_whole_price inkP h1 h2]
  · have hm : ChaosPushOracle.Monitor
        ((priceWorld (inkP * 100000000) (ethP * 100000000)).ethNode t) chainlinkAddr
        = ChaosPushOracle.Monitor (constNode (wordOf (ethP * 100000000))) chainlinkAddr := rfl
    rw [hm, chaosPushOracle_eq _ _ (wordOf (ethP * 100000000)) (hnode _ _ _)
      (le_of_eq (wordOf_length _).symm), hset ethP h4, quoFloat64_whole_price ethP h3 h4]

theorem le_two_pow_900 (q : ℚ) (h : q ≤ 2 ^ 12) : q ≤ 2 ^ 900 :=
  le_trans h (pow_le_pow_right₀ (by norm_num) (by norm_num))

/-- The sample prices 2650 and 2500 as the two monitors return them. -/
theorem priceWorld_sample (t : Nat) :
    priceFeedAccount.Monitor ((priceWorld 265000000000 250000000000).inkNode t)
      = .ok (F64.fin 2650) ∧
    ChaosPushOracle.Monitor ((priceWorld 265000000000 250000000000).ethNode t) chainlinkAddr
      = .ok (F64.fin 2500) := by
  have h := priceWorld_prices 2650 2500 (by decide) (by decide) (by decide) (by decide) t
  norm_num at h
  exact h

/-- C24 on a world with the prices 2650 and 2500 (a deviation of 6%, reported as 1.0) and on
a world whose nodes fail. -/
theorem priceFeed_deviation_flag_witness :
    checkInkContract (priceWorld 265000000000 250000000000) priceFeedAccount sampleState
      = checkPriceFeedDeviation (priceWorld 265000000000 250000000000) priceFeedAccount
          sampleState ∧
    ((checkPriceFeedDeviation (priceWorld 265000000000 250000000000) priceFeedAccount
        sampleState).1 = none ∧
      (checkPriceFeedDeviation (priceWorld 265000000000 250000000000) priceFeedAccount
        sampleState).2.events
        = (sampleState.setMetric "ink" priceFeedAccount.Name
            (deviationFlag (priceDeviation (F64.fin 2650) (F64.fin 2500)))).events ++
          [SchedEvent.logDeviation priceFeedAccount.Name (F64.fin 2650) (F64.fin 2500)
            (priceDeviation (F64.fin 2650) (F64.fin 2500))
            (deviationFlag (priceDeviation (F64.fin 2650) (F64.fin 2500)))] ∧
      (checkPriceFeedDeviation (priceWorld 265000000000 250000000000) priceFeedAccount
        sampleState).2.metrics
        = (sampleState.metrics.SetContractMetric "ink" priceFeedAccount.Name
            (deviationFlag (priceDeviation (F64.fin 2650) (F64.fin 2500)))).1) ∧
    priceDeviation (F64.fin 2650) (F64.fin 2500) = specDeviation (F64.fin 2650) (F64.fin 2500) ∧
    deviationFlag (priceDeviation (F64.fin 2650) (F64.fin 2500)) = F64.one ∧
    deviationFlag (priceDeviation (F64.fin 2600) (F64.fin 2500)) = F64.fin 0 ∧
    ((checkPriceFeedDeviation ⟨fun _ => deadNode, fun _ => deadNode⟩ priceFeedAccount
        sampleState).1 ≠ none ∧
      (checkPriceFeedDeviation ⟨fun _ => deadNode, fun _ => deadNode⟩ priceFeedAccount
        sampleState).2.events = sampleState.events ∧
      (checkPriceFeedDeviation ⟨fun _ => deadNode, fun _ => deadNode⟩ priceFeedAccount
        sampleState).2.metrics = sampleState.metrics) :=
  have h := priceFeed_deviation_flag (priceWorld 265000000000 250000000000) priceFeedAccount
    sampleState
  ⟨h.1 rfl,
    h.2.1 (F64.fin 2650) (F64.fin 2500) (priceWorld_sample _).1 (priceWorld_sample _).2,
    h.2.2.2.1 (F64.fin 2650) 2500 (by norm_num),
    (h.2.2.2.2.2.1 2650 2500 (by norm_num) (le_two_pow_900 _ (by norm_num))
      (le_two_pow_900 _ (by norm_num [abs_of_pos]))).1 (by norm_num [abs_of_pos]),
    (h.2.2.2.2.2.1 2600 2500 (by norm_num) (le_two_pow_900 _ (by norm_num))
      (le_two_pow_900 _ (by norm_num [abs_of_pos]))).2 (by norm_num [abs_of_pos]),
    (priceFeed_deviation_flag ⟨fun _ => deadNode, fun _ => deadNode⟩ priceFeedAccount
      sampleState).2.2.2.2.2.2 (Or.inl ⟨_, rfl⟩)⟩

/-! ## One tick of the scheduler -/

theorem pushCount_append (a b : List SchedEvent) :
    pushCount (a ++ b) = pushCount a + pushCount b := by
  simp [pushCount, List.filter_append]

theorem pushCount_metricsLog (l : List MetricsLog) :
    pushCount (l.map SchedEvent.metricsLog) = 0 := by
  induction l with
  | nil => rfl
  | cons x xs ih =>
    have h : pushCount (List.map SchedEvent.metricsLog (x :: xs))
        = pushCount (List.map SchedEvent.metricsLog xs) := by
      simp [pushCount, SchedEvent.isPush]
    rw [h, ih]

theorem setMetric_pushCount (st : SchedState) (chain name : String) (value : F64) :
    pushCount (st.setMetric chain name value).events = pushCount st.events := by
  unfold SchedState.setMetric
  simp only [pushCount_append, pushCount_metricsLog]
  simp [pushCount, SchedEvent.isPush]

/-- A check never calls `Push`. -/
theorem checkEthereumContract_pushCount (w : World) (contract : Account) (st : SchedState) :
    pushCount (checkEthereumContract w contract st).2.events = pushCount st.events := by
  unfold checkEthereumContract
  cases contract.Monitor (w.ethNode st.clock) with
  | error e => rfl
  | ok v =>
    simp only [pushCount_append, setMetric_pushCount]
    simp [pushCount, SchedEvent.isPush]

theorem checkInkContract_pushCount (w : World) (contract : Account) (st : SchedState) :
    pushCount (checkInkContract w contract st).2.events = pushCount st.events := by
  unfold checkInkContract checkPriceFeedDeviation
  split_ifs
  · cases contract.Monitor (w.inkNode st.clock) with
    | error e => rfl
    | ok v =>
      cases ChaosPushOracle.Monitor (w.ethNode st.clock) chainlinkAddr with
      | error e => rfl
      | ok v2 =>
        simp only [pushCount_append, setMetric_pushCount]
        simp [pushCount, SchedEvent.isPush]
  · cases contract.Monitor (w.inkNode st.clock) with
    | error e => rfl
    | ok v =>
      simp only [pushCount_append, setMetric_pushCount]
      simp [pushCount, SchedEvent.isPush]

theorem stateAfter_invariant {σ : Type} (fn : σ → Option GoError × σ) (I : σ → Prop)
    (h : ∀ s, I s → I (fn s).2) (k : Nat) : ∀ s, I s → I (stateAfter fn k s) := by
  induction k with
  | zero => intro s hs; exact hs
  | succ k ih => intro s hs; exact ih _ (h s hs)

/-- On a context that is not cancelled and with `maxRetries >= 0`, `Do` calls the closure at
least once and at most `maxRetries + 1` times, and its state is the state after these
calls. -/
theorem do_calls_bounds {σ : Type} (ctx : Ctx) (fn : σ → Option GoError × σ)
    (maxRetries : Int) (s : σ)
    (hctx : ∀ i, ctx.doneBefore i = false ∧ ctx.doneInWait i = false)
    (hmax : 0 ≤ maxRetries) :
    1 ≤ (Do ctx fn maxRetries s).calls ∧
    ((Do ctx fn maxRetries s).calls : Int) ≤ maxRetries + 1 ∧
    (Do ctx fn maxRetries s).state = stateAfter fn (Do ctx fn maxRetries s).calls s := by
  by_cases hex : ∃ k : Nat, (k : Int) ≤ maxRetries ∧ (fn (stateAfter fn k s)).1 = none
  · classical
    have hk := Nat.find_spec hex
    have hmin : ∀ j, j < Nat.find hex → (fn (stateAfter fn j s)).1 ≠ none := by
      intro j hj hj2
      exact Nat.find_min hex hj ⟨by omega, hj2⟩
    rw [do_first_success ctx fn maxRetries s hctx (Nat.find hex) hk.1 hmin hk.2]
    refine ⟨by simp, ?_, rfl⟩
    push_cast
    omega
  · have hall : ∀ j : Nat, (j : Int) ≤ maxRetries → (fn (stateAfter fn j s)).1 ≠ none :=
      fun j hj hj2 => hex ⟨j, hj, hj2⟩
    obtain ⟨e, he⟩ := do_all_fail ctx fn maxRetries s hctx hmax hall
    rw [he]
    refine ⟨by simp, ?_, rfl⟩
    push_cast
    omega

theorem pollEthereumContract_events (w : World) (ctx : Ctx) (cfg : MonitorConfig)
    (contract : Account) (st : SchedState) :
    pushCount (pollEthereumContract w ctx cfg contract st).2.events
      = pushCount (Do ctx (checkEthereumContract w contract) cfg.RetryTimes st).state.events := by
  unfold pollEthereumContract
  generalize Do ctx (checkEthereumContract w contract) cfg.RetryTimes st = r
  rcases r with ⟨err, state, calls, waits⟩
  cases err with
  | none => rfl
  | some e =>
    simp only [pushCount_append]
    simp [pushCount, SchedEvent.isPush]

theorem pollInkContract_events (w : World) (ctx : Ctx) (cfg : MonitorConfig)
    (contract : Account) (st : SchedState) :
    pushCount (pollInkContract w ctx cfg contract st).2.events
      = pushCount (Do ctx (checkInkContract w contract) cfg.RetryTimes st).state.events := by
  unfold pollInkContract
  generalize Do ctx (checkInkContract w contract) cfg.RetryTimes st = r
  rcases r with ⟨err, state, calls, waits⟩
  cases err with
  | none => rfl
  | some e =>
    simp only [pushCount_append]
    simp [pushCount, SchedEvent.isPush]

/-- One retry-wrapped poll of a primary-chain contract: at least one attempt, the attempt
counter moved on by the number of attempts, and no call of `Push`. -/
theorem pollEthereumContract_step (w : World) (ctx : Ctx) (cfg : MonitorConfig)
    (hctx : ∀ i, ctx.doneBefore i = false ∧ ctx.doneInWait i = false)
    (hretry : 0 ≤ cfg.RetryTimes) (contract : Account) (st : SchedState) :
    (pollEthereumContract w ctx cfg contract st).1
      = Do ctx (checkEthereumContract w contract) cfg.RetryTimes st ∧
    1 ≤ (pollEthereumContract w ctx cfg contract st).1.calls ∧
    (pollEthereumContract w ctx cfg contract st).2.clock
      = st.clock + (pollEthereumContract w ctx cfg contract st).1.calls ∧
    pushCount (pollEthereumContract w ctx cfg contract st).2.events = pushCount st.events := by
  obtain ⟨h1, h2⟩ := pollEthereumContract_result w ctx cfg contract st
  obtain ⟨b1, _, b3⟩ := do_calls_bounds ctx (checkEthereumContract w contract) cfg.RetryTimes st
    hctx hretry
  refine ⟨h1, by rw [h1]; exact b1, ?_, ?_⟩
  · rw [h2, h1, b3, stateAfter_clock (checkEthereumContract_clock w contract)]
  · rw [pollEthereumContract_events, b3]
    exact stateAfter_invariant (checkEthereumContract w contract)
      (fun s => pushCount s.events = pushCount st.events)
      (fun s hs => (checkEthereumContract_pushCount w contract s).trans hs) _ st rfl

theorem pollInkContract_step (w : World) (ctx : Ctx) (cfg : MonitorConfig)
    (hctx : ∀ i, ctx.doneBefore i = false ∧ ctx.doneInWait i = false)
    (hretry : 0 ≤ cfg.RetryTimes) (contract : Account) (st : SchedState) :
    (pollInkContract w ctx cfg contract st).1
      = Do ctx (checkInkContract w contract) cfg.RetryTimes st ∧
    1 ≤ (pollInkContract w ctx cfg contract st).1.calls ∧
    (pollInkContract w ctx cfg contract st).2.clock
      = st.clock + (pollInkContract w ctx cfg contract st).1.calls ∧
    pushCount (pollInkContract w ctx cfg contract st).2.events = pushCount st.events := by
  obtain ⟨h1, h2⟩ := pollInkContract_result w ctx cfg contract st
  obtain ⟨b1, _, b3⟩ := do_calls_bounds ctx (checkInkContract w contract) cfg.RetryTimes st
    hctx hretry
  refine ⟨h1, by rw [h1]; exact b1, ?_, ?_⟩
  · rw [h2, h1, b3, stateAfter_clock (checkInkContract_clock w contract)]
  · rw [pollInkContract_events, b3]
    exact stateAfter_invariant (checkInkContract w contract)
      (fun s => pushCount s.events = pushCount st.events)
      (fun s hs => (checkInkContract_pushCount w contract s).trans hs) _ st rfl

/-- The loop over the primary-chain contracts: one retry-wrapped run per contract, in order,
each with at least one attempt, whatever the earlier ones returned. -/
theorem pollEthereumContracts_all (w : World) (ctx : Ctx) (cfg : MonitorConfig)
    (hctx : ∀ i, ctx.doneBefore i = false ∧ ctx.doneInWait i = false)
    (hretry : 0 ≤ cfg.RetryTimes) (accounts : List Account) :
    ∀ st : SchedState,
      List.Forall₂ (fun c x =>
          (∃ s, x = Do ctx (checkEthereumContract w c) cfg.RetryTimes s) ∧ 1 ≤ x.calls)
        accounts (pollEthereumContracts w ctx cfg accounts st).1 ∧
      (pollEthereumContracts w ctx cfg accounts st).2.clock
        = st.clock + ((pollEthereumContracts w ctx cfg accounts st).1.map DoResult.calls).sum ∧
      pushCount (pollEthereumContracts w ctx cfg accounts st).2.events
        = pushCount st.events := by
  induction accounts with
  | nil => intro st; exact ⟨List.Forall₂.nil, by simp [pollEthereumContracts], rfl⟩
  | cons c rest ih =>
    intro st
    obtain ⟨h1, h2, h3, h4⟩ := pollEthereumContract_step w ctx cfg hctx hretry c st
    obtain ⟨i1, i2, i3⟩ := ih (pollEthereumContract w ctx cfg c st).2
    simp only [pollEthereumContracts]
    refine ⟨List.Forall₂.cons ⟨⟨st, h1⟩, h2⟩ i1, ?_, ?_⟩
    · rw [i2, h3]
      simp only [List.map_cons, List.sum_cons]
      omega
    · rw [i3, h4]

theorem pollInkContracts_all (w : World) (ctx : Ctx) (cfg : MonitorConfig)
    (hctx : ∀ i, ctx.doneBefore i = false ∧ ctx.doneInWait i = false)
    (hretry : 0 ≤ cfg.RetryTimes) (accounts : List Account) :
    ∀ st : SchedState,
      List.Forall₂ (fun c x =>
          (∃ s, x = Do ctx (checkInkContract w c) cfg.RetryTimes s) ∧ 1 ≤ x.calls)
        accounts (pollInkContracts w ctx cfg accounts st).1 ∧
      (pollInkContracts w ctx cfg accounts st).2.clock
        = st.clock + ((pollInkContracts w ctx cfg accounts st).1.map DoResult.calls).sum ∧
      pushCount (pollInkContracts w ctx cfg accounts st).2.events = pushCount st.events := by
  induction accounts with
  | nil => intro st; exact ⟨List.Forall₂.nil, by simp [pollInkContracts], rfl⟩
  | cons c rest ih =>
    intro st
    obtain ⟨h1, h2, h3, h4⟩ := pollInkContract_step w ctx cfg hctx hretry c st
    obtain ⟨i1, i2, i3⟩ := ih (pollInkContract w ctx cfg c st).2
    simp only [pollInkContracts]
    refine ⟨List.Forall₂.cons ⟨⟨st, h1⟩, h2⟩ i1, ?_, ?_⟩
    · rw [i2, h3]
      simp only [List.map_cons, List.sum_cons]
      omega
    · rw [i3, h4]

theorem pushCount_singleton_of_not_push (e : SchedEvent) (h : e.isPush = false) :
    pushCount [e] = 0 := by
  simp [pushCount, h]

theorem setMetric_events (st : SchedState) (chain name : String) (value : F64) :
    ∃ seg, (st.setMetric chain name value).events = st.events ++ seg ∧ pushCount seg = 0 := by
  refine ⟨[SchedEvent.setMetric chain name value] ++
      (st.metrics.SetContractMetric chain name value).2.map SchedEvent.metricsLog, ?_, ?_⟩
  · simp [SchedState.setMetric]
  · rw [pushCount_append, pushCount_metricsLog]
    rfl

/-- What a check of a primary-chain contract adds to the events: nothing when it fails, and
otherwise lines that end with the line of the successful check. -/
theorem checkEthereumContract_events (w : World) (c : Account) (st : SchedState) :
    ∃ seg, (checkEthereumContract w c st).2.events = st.events ++ seg ∧ pushCount seg = 0 ∧
      ((checkEthereumContract w c st).1 ≠ none → seg = []) ∧
      ((checkEthereumContract w c st).1 = none →
        ∃ e ∈ seg, SchedEvent.isOutcomeOf "ethereum" c e) := by
  unfold checkEthereumContract
  cases c.Monitor (w.ethNode st.clock) with
  | error e =>
    exact ⟨[], by simp, rfl, fun _ => rfl, fun h => by simp at h⟩
  | ok v =>
    obtain ⟨seg, hseg, hcount⟩ := setMetric_events st "ethereum" c.Name v
    refine ⟨seg ++ [SchedEvent.logChecked "ethereum" c.Name c.Type v], ?_, ?_, ?_, ?_⟩
    · simp only [hseg, List.append_assoc]
    · rw [pushCount_append, hcount]
      rfl
    · intro h
      exact absurd rfl h
    · intro _
      exact ⟨SchedEvent.logChecked "ethereum" c.Name c.Type v, by simp, ⟨rfl, rfl, rfl⟩⟩

theorem checkPriceFeedDeviation_events (w : World) (c : Account) (st : SchedState) :
    ∃ seg, (checkPriceFeedDeviation w c st).2.events = st.events ++ seg ∧ pushCount seg = 0 ∧
      ((checkPriceFeedDeviation w c st).1 ≠ none → seg = []) ∧
      ((checkPriceFeedDeviation w c st).1 = none →
        ∃ e ∈ seg, SchedEvent.isOutcomeOf "ink" c e) := by
  unfold checkPriceFeedDeviation
  cases c.Monitor (w.inkNode st.clock) with
  | error e =>
    exact ⟨[], by simp, rfl, fun _ => rfl, fun h => by simp at h⟩
  | ok inkPrice =>
    cases ChaosPushOracle.Monitor (w.ethNode st.clock) chainlinkAddr with
    | error e =>
      exact ⟨[], by simp, rfl, fun _ => rfl, fun h => by simp at h⟩
    | ok ethPrice =>
      obtain ⟨seg, hseg, hcount⟩ := setMetric_events st "ink" c.Name
        (deviationFlag (priceDeviation inkPrice ethPrice))
      refine ⟨seg ++ [SchedEvent.logDeviation c.Name inkPrice ethPrice
        (priceDeviation inkPrice ethPrice)
        (deviationFlag (priceDeviation inkPrice ethPrice))], ?_, ?_, ?_, ?_⟩
      · simp only [hseg, List.append_assoc]
      · rw [pushCount_append, hcount]
        rfl
      · intro h
        exact absurd rfl h
      · intro _
        exact ⟨SchedEvent.logDeviation c.Name inkPrice ethPrice
          (priceDeviation inkPrice ethPrice)
          (deviationFlag (priceDeviation inkPrice ethPrice)), by simp, ⟨rfl, rfl⟩⟩

theorem checkInkContract_events (w : World) (c : Account) (st : SchedState) :
    ∃ seg, (checkInkContract w c st).2.events = st.events ++ seg ∧ pushCount seg = 0 ∧
      ((checkInkContract w c st).1 ≠ none → seg = []) ∧
      ((checkInkContract w c st).1 = none →
        ∃ e ∈ seg, SchedEvent.isOutcomeOf "ink" c e) := by
  unfold checkInkContract
  split_ifs
  · exact checkPriceFeedDeviation_events w c st
  · cases c.Monitor (w.inkNode st.clock) with
    | error e =>
      exact ⟨[], by simp, rfl, fun _ => rfl, fun h => by simp at h⟩
    | ok v =>
      obtain ⟨seg, hseg, hcount⟩ := setMetric_events st "ink" c.Name v
      refine ⟨seg ++ [SchedEvent.logChecked "ink" c.Name c.Type v], ?_, ?_, ?_, ?_⟩
      · simp only [hseg, List.append_assoc]
      · rw [pushCount_append, hcount]
        rfl
      · intro h
        exact absurd rfl h
      · intro _
        exact ⟨SchedEvent.logChecked "ink" c.Name c.Type v, by simp, ⟨rfl, rfl, rfl⟩⟩

/-- Attempts that fail leave the events as they are. -/
theorem stateAfter_failing_events (fn : SchedState → Option GoError × SchedState)
    (hfn : ∀ s, (fn s).1 ≠ none → (fn s).2.events = s.events) (k : Nat) :
    ∀ s, (∀ j, j < k → (fn (stateAfter fn j s)).1 ≠ none) →
      (stateAfter fn k s).events = s.events := by
  induction k with
  | zero => intro s _; rfl
  | succ k ih =>
    intro s hfail
    rw [stateAfter_succ, hfn _ (hfail k (Nat.lt_succ_self k))]
    exact ih s (fun j hj => hfail j (Nat.lt_succ_of_lt hj))

/-- The events of one retry-wrapped run of a check, on a context that is not cancelled and
with `maxRetries >= 0`: either the run ends with a successful attempt, whose lines are added,
or every attempt fails, nothing is added and the run returns an error. -/
theorem do_check_events (ctx : Ctx) (fn : SchedState → Option GoError × SchedState)
    (P : SchedEvent → Prop)
    (hfn : ∀ s, ∃ seg, (fn s).2.events = s.events ++ seg ∧ pushCount seg = 0 ∧
      ((fn s).1 ≠ none → seg = []) ∧ ((fn s).1 = none → ∃ e ∈ seg, P e))
    (maxRetries : Int) (st : SchedState)
    (hctx : ∀ i, ctx.doneBefore i = false ∧ ctx.doneInWait i = false)
    (hmax : 0 ≤ maxRetries) :
    ((Do ctx fn maxRetries st).err = none ∧
      ∃ seg, (Do ctx fn maxRetries st).state.events = st.events ++ seg ∧ pushCount seg = 0 ∧
        ∃ e ∈ seg, P e) ∨
    ((∃ e, (Do ctx fn maxRetries st).err = some e) ∧
      (Do ctx fn maxRetries st).state.events = st.events) := by
  have hfail : ∀ s, (fn s).1 ≠ none → (fn s).2.events = s.events := by
    intro s hs
    obtain ⟨seg, h1, _, h3, _⟩ := hfn s
    rw [h1, h3 hs, List.append_nil]
  by_cases hex : ∃ k : Nat, (k : Int) ≤ maxRetries ∧ (fn (stateAfter fn k st)).1 = none
  · left
    classical
    have hk := Nat.find_spec hex
    have hmin : ∀ j, j < Nat.find hex → (fn (stateAfter fn j st)).1 ≠ none := by
      intro j hj hj2
      exact Nat.find_min hex hj ⟨by omega, hj2⟩
    rw [do_first_success ctx fn maxRetries st hctx (Nat.find hex) hk.1 hmin hk.2]
    refine ⟨rfl, ?_⟩
    obtain ⟨seg, h1, h2, _, h4⟩ := hfn (stateAfter fn (Nat.find hex) st)
    refine ⟨seg, ?_, h2, h4 hk.2⟩
    show (stateAfter fn (Nat.find hex + 1) st).events = st.events ++ seg
    rw [stateAfter_succ, h1, stateAfter_failing_events fn hfail _ st hmin]
  · right
    have hall : ∀ j : Nat, (j : Int) ≤ maxRetries → (fn (stateAfter fn j st)).1 ≠ none :=
      fun j hj hj2 => hex ⟨j, hj, hj2⟩
    obtain ⟨e, he⟩ := do_all_fail ctx fn maxRetries st hctx hmax hall
    rw [he]
    refine ⟨⟨_, rfl⟩, ?_⟩
    show (stateAfter fn (maxRetries.toNat + 1) st).events = st.events
    exact stateAfter_failing_events fn hfail _ st (fun j hj => hall j (by omega))

/-- The events of the poll of one primary-chain contract: lines without a push that hold the
line that ends the poll of this contract. -/
theorem pollEthereumContract_outcome (w : World) (ctx : Ctx) (cfg : MonitorConfig)
    (hctx : ∀ i, ctx.doneBefore i = false ∧ ctx.doneInWait i = false)
    (hretry : 0 ≤ cfg.RetryTimes) (c : Account) (st : SchedState) :
    ∃ seg, (pollEthereumContract w ctx cfg c st).2.events = st.events ++ seg ∧
      pushCount seg = 0 ∧ ∃ e ∈ seg, SchedEvent.isOutcomeOf "ethereum" c e := by
  have h := do_check_events ctx (checkEthereumContract w c)
    (SchedEvent.isOutcomeOf "ethereum" c) (checkEthereumContract_events w c)
    cfg.RetryTimes st hctx hretry
  unfold pollEthereumContract
  generalize Do ctx (checkEthereumContract w c) cfg.RetryTimes st = r at h
  rcases r with ⟨err, state, calls, waits⟩
  rcases h with ⟨herr, seg, hseg, hcount, hout⟩ | ⟨⟨e, herr⟩, hev⟩
  · simp only at herr hseg
    subst herr
    exact ⟨seg, hseg, hcount, hout⟩
  · simp only at herr hev
    subst herr
    refine ⟨[SchedEvent.logPollFailed "ethereum" c.address c.Name e], ?_, rfl,
      SchedEvent.logPollFailed "ethereum" c.address c.Name e, by simp, ⟨rfl, rfl, rfl⟩⟩
    simp only [hev]

theorem pollInkContract_outcome (w : World) (ctx : Ctx) (cfg : MonitorConfig)
    (hctx : ∀ i, ctx.doneBefore i = false ∧ ctx.doneInWait i = false)
    (hretry : 0 ≤ cfg.RetryTimes) (c : Account) (st : SchedState) :
    ∃ seg, (pollInkContract w ctx cfg c st).2.events = st.events ++ seg ∧
      pushCount seg = 0 ∧ ∃ e ∈ seg, SchedEvent.isOutcomeOf "ink" c e := by
  have h := do_check_events ctx (checkInkContract w c)
    (SchedEvent.isOutcomeOf "ink" c) (checkInkContract_events w c)
    cfg.RetryTimes st hctx hretry
  unfold pollInkContract
  generalize Do ctx (checkInkContract w c) cfg.RetryTimes st = r at h
  rcases r with ⟨err, state, calls, waits⟩
  rcases h with ⟨herr, seg, hseg, hcount, hout⟩ | ⟨⟨e, herr⟩, hev⟩
  · simp only at herr hseg
    subst herr
    exact ⟨seg, hseg, hcount, hout⟩
  · simp only at herr hev
    subst herr
    refine ⟨[SchedEvent.logPollFailed "ink" c.address c.Name e], ?_, rfl,
      SchedEvent.logPollFailed "ink" c.address c.Name e, by simp, ⟨rfl, rfl, rfl⟩⟩
    simp only [hev]

/-- The events of the loop over the primary-chain contracts: one segment per contract, in
the order of the contracts, each without a push and with the line that ends the poll of its
contract. -/
theorem pollEthereumContracts_outcomes (w : World) (ctx : Ctx) (cfg : MonitorConfig)
    (hctx : ∀ i, ctx.doneBefore i = false ∧ ctx.doneInWait i = false)
    (hretry : 0 ≤ cfg.RetryTimes) (accounts : List Account) :
    ∀ st : SchedState, ∃ segs : List (List SchedEvent),
      (pollEthereumContracts w ctx cfg accounts st).2.events = st.events ++ segs.flatten ∧
      List.Forall₂ (fun c seg =>
          pushCount seg = 0 ∧ ∃ e ∈ seg, SchedEvent.isOutcomeOf "ethereum" c e)
        accounts segs := by
  induction accounts with
  | nil => intro st; exact ⟨[], by simp [pollEthereumContracts], List.Forall₂.nil⟩
  | cons c rest ih =>
    intro st
    obtain ⟨seg, h1, h2, h3⟩ := pollEthereumContract_outcome w ctx cfg hctx hretry c st
    obtain ⟨segs, i1, i2⟩ := ih (pollEthereumContract w ctx cfg c st).2
    refine ⟨seg :: segs, ?_, List.Forall₂.cons ⟨h2, h3⟩ i2⟩
    simp only [pollEthereumContracts, i1, h1, List.flatten_cons, List.append_assoc]

theorem pollInkContracts_outcomes (w : World) (ctx : Ctx) (cfg : MonitorConfig)
    (hctx : ∀ i, ctx.doneBefore i = false ∧ ctx.doneInWait i = false)
    (hretry : 0 ≤ cfg.RetryTimes) (accounts : List Account) :
    ∀ st : SchedState, ∃ segs : List (List SchedEvent),
      (pollInkContracts w ctx cfg accounts st).2.events = st.events ++ segs.flatten ∧
      List.Forall₂ (fun c seg =>
          pushCount seg = 0 ∧ ∃ e ∈ seg, SchedEvent.isOutcomeOf "ink" c e)
        accounts segs := by
  induction accounts with
  | nil => intro st; exact ⟨[], by simp [pollInkContracts], List.Forall₂.nil⟩
  | cons c rest ih =>
    intro st
    obtain ⟨seg, h1, h2, h3⟩ := pollInkContract_outcome w ctx cfg hctx hretry c st
    obtain ⟨segs, i1, i2⟩ := ih (pollInkContract w ctx cfg c st).2
    refine ⟨seg :: segs, ?_, List.Forall₂.cons ⟨h2, h3⟩ i2⟩
    simp only [pollInkContracts, i1, h1, List.flatten_cons, List.append_assoc]

theorem pushEvents_pushCount (gauges : List (String × F64)) (pusherResult : Option GoError) :
    pushCount (pushEvents gauges pusherResult) = 1 := by
  cases pusherResult <;> rfl

/-- The events of `pollAll`: the events of the two loops, then the push and its log lines. -/
theorem pollAll_events (w : World) (ctx : Ctx) (cfg : MonitorConfig)
    (ethAccounts inkAccounts : List Account) (pusherResult : Option GoError) (st : SchedState) :
    (pollAll w ctx cfg ethAccounts inkAccounts pusherResult st).2.events
      = (pollInkContracts w ctx cfg inkAccounts
          (pollEthereumContracts w ctx cfg ethAccounts
            { st with events := st.events ++ [SchedEvent.logPollAll] }).2).2.events ++
        pushEvents (pollAll w ctx cfg ethAccounts inkAccounts pusherResult st).2.metrics.gaugeValues
          pusherResult := by
  cases pusherResult <;> simp [pollAll, pushEvents, Metrics.Push]

/-- C23 as stated fails on the code: with `retry_times: -1` in the configuration (which
`Validate` accepts), a tick on an uncancelled context with nodes that answer every call
evaluates none of the six contracts (no attempt is made, the attempt counter stays at 0);
the push still happens once. -/
theorem pollAll_negative_retries :
    (pollAll (constWorld longResponse) Ctx.background ⟨30, -1, 1⟩ sampleEthAccounts
        sampleInkAccounts none sampleState).1.map DoResult.calls = [0, 0, 0, 0, 0, 0] ∧
    (pollAll (constWorld longResponse) Ctx.background ⟨30, -1, 1⟩ sampleEthAccounts
        sampleInkAccounts none sampleState).2.clock = 0 ∧
    pushCount (pollAll (constWorld longResponse) Ctx.background ⟨30, -1, 1⟩ sampleEthAccounts
        sampleInkAccounts none sampleState).2.events = 1 := by
  decide

/-- C23, amended. With `RetryTimes >= 0`, one tick (`pollAll`) on a context that is never
cancelled runs one retry-wrapped check per contract, for the primary-chain contracts and then
the secondary-chain contracts in their order, each with at least one attempt, whatever the
nodes answer and whatever earlier contracts returned; the function itself returns no error.
Its events are, in this order: the start line, for every contract in turn a segment that
holds the line ending the poll of that contract (the line of its successful check or the
error line of its poll) and no push, and then, after the segments of all contracts, the one
call of `Push`, with the gauges as the checks left them, followed by its log lines only. -/
theorem pollAll_tick (w : World) (ctx : Ctx) (cfg : MonitorConfig)
    (ethAccounts inkAccounts : List Account) (pusherResult : Option GoError) (st : SchedState)
    (hctx : ∀ i, ctx.doneBefore i = false ∧ ctx.doneInWait i = false)
    (hretry : 0 ≤ cfg.RetryTimes) :
    ∃ (polls1 polls2 : List (DoResult SchedState)) (segs1 segs2 : List (List SchedEvent)),
      (pollAll w ctx cfg ethAccounts inkAccounts pusherResult st).1 = polls1 ++ polls2 ∧
      polls1.length = ethAccounts.length ∧ polls2.length = inkAccounts.length ∧
      List.Forall₂ (fun c x =>
          (∃ s, x = Do ctx (checkEthereumContract w c) cfg.RetryTimes s) ∧ 1 ≤ x.calls)
        ethAccounts polls1 ∧
      List.Forall₂ (fun c x =>
          (∃ s, x = Do ctx (checkInkContract w c) cfg.RetryTimes s) ∧ 1 ≤ x.calls)
        inkAccounts polls2 ∧
      (pollAll w ctx cfg ethAccounts inkAccounts pusherResult st).2.clock
        = st.clock + ((pollAll w ctx cfg ethAccounts inkAccounts pusherResult st).1.map
            DoResult.calls).sum ∧
      (pollAll w ctx cfg ethAccounts inkAccounts pusherResult st).2.events
        = st.events ++ [SchedEvent.logPollAll] ++ segs1.flatten ++ segs2.flatten ++
          pushEvents
            (pollAll w ctx cfg ethAccounts inkAccounts pusherResult st).2.metrics.gaugeValues
            pusherResult ∧
      List.Forall₂ (fun c seg =>
          pushCount seg = 0 ∧ ∃ e ∈ seg, SchedEvent.isOutcomeOf "ethereum" c e)
        ethAccounts segs1 ∧
      List.Forall₂ (fun c seg =>
          pushCount seg = 0 ∧ ∃ e ∈ seg, SchedEvent.isOutcomeOf "ink" c e)
        inkAccounts segs2 ∧
      pushCount (pollAll w ctx cfg ethAccounts inkAccounts pusherResult st).2.events
        = pushCount st.events + 1 := by
  obtain ⟨a1, a2, a3⟩ := pollEthereumContracts_all w ctx cfg hctx hretry ethAccounts
    { st with events := st.events ++ [SchedEvent.logPollAll] }
  obtain ⟨b1, b2, b3⟩ := pollInkContracts_all w ctx cfg hctx hretry inkAccounts
    (pollEthereumContracts w ctx cfg ethAccounts
      { st with events := st.events ++ [SchedEvent.logPollAll] }).2
  obtain ⟨segs1, s1, s2⟩ := pollEthereumContracts_outcomes w ctx cfg hctx hretry ethAccounts
    { st with events := st.events ++ [SchedEvent.logPollAll] }
  obtain ⟨segs2, t1, t2⟩ := pollInkContracts_outcomes w ctx cfg hctx hretry inkAccounts
    (pollEthereumContracts w ctx cfg ethAccounts
      { st with events := st.events ++ [SchedEvent.logPollAll] }).2
  have hstart : pushCount (st.events ++ [SchedEvent.logPollAll]) = pushCount st.events := by
    rw [pushCount_append]
    simp [pushCount, SchedEvent.isPush]
  refine ⟨_, _, segs1, segs2, rfl, a1.length_eq.symm, b1.length_eq.symm, a1, b1, ?_, ?_, s2, t2,
    ?_⟩
  · have hclock : (pollAll w ctx cfg ethAccounts inkAccounts pusherResult st).2.clock
        = (pollInkContracts w ctx cfg inkAccounts
            (pollEthereumContracts w ctx cfg ethAccounts
              { st with events := st.events ++ [SchedEvent.logPollAll] }).2).2.clock := rfl
    rw [hclock, b2, a2]
    simp only [pollAll, List.map_append, List.sum_append]
    omega
  · rw [pollAll_events, t1, s1]
  · rw [pollAll_events, pushCount_append, pushEvents_pushCount, b3, a3, hstart]

/-- C23, amended, on the six default contracts with two retries and nodes that fail every
call. -/
theorem pollAll_tick_witness :
    ∃ (polls1 polls2 : List (DoResult SchedState)) (segs1 segs2 : List (List SchedEvent)),
      (pollAll deadWorld Ctx.background sampleMonitorConfig sampleEthAccounts sampleInkAccounts
        none sampleState).1 = polls1 ++ polls2 ∧
      polls1.length = sampleEthAccounts.length ∧ polls2.length = sampleInkAccounts.length ∧
      List.Forall₂ (fun c x =>
          (∃ s, x = Do Ctx.background (checkEthereumContract deadWorld c)
            sampleMonitorConfig.RetryTimes s) ∧ 1 ≤ x.calls)
        sampleEthAccounts polls1 ∧
      List.Forall₂ (fun c x =>
          (∃ s, x = Do Ctx.background (checkInkContract deadWorld c)
            sampleMonitorConfig.RetryTimes s) ∧ 1 ≤ x.calls)
        sampleInkAccounts polls2 ∧
      (pollAll deadWorld Ctx.background sampleMonitorConfig sampleEthAccounts sampleInkAccounts
        none sampleState).2.clock
        = sampleState.clock + ((pollAll deadWorld Ctx.background sampleMonitorConfig
            sampleEthAccounts sampleInkAccounts none sampleState).1.map DoResult.calls).sum ∧
      (pollAll deadWorld Ctx.background sampleMonitorConfig sampleEthAccounts sampleInkAccounts
        none sampleState).2.events
        = sampleState.events ++ [SchedEvent.logPollAll] ++ segs1.flatten ++ segs2.flatten ++
          pushEvents
            (pollAll deadWorld Ctx.background sampleMonitorConfig sampleEthAccounts
              sampleInkAccounts none sampleState).2.metrics.gaugeValues none ∧
      List.Forall₂ (fun c seg =>
          pushCount seg = 0 ∧ ∃ e ∈ seg, SchedEvent.isOutcomeOf "ethereum" c e)
        sampleEthAccounts segs1 ∧
      List.Forall₂ (fun c seg =>
          pushCount seg = 0 ∧ ∃ e ∈ seg, SchedEvent.isOutcomeOf "ink" c e)
        sampleInkAccounts segs2 ∧
      pushCount (pollAll deadWorld Ctx.background sampleMonitorConfig sampleEthAccounts
        sampleInkAccounts none sampleState).2.events = pushCount sampleState.events + 1 :=
  pollAll_tick deadWorld Ctx.background sampleMonitorConfig sampleEthAccounts
    sampleInkAccounts none sampleState (fun _ => ⟨rfl, rfl⟩) (by decide)

/-- The tick of the witness, evaluated: every contract fails, each is tried three times, and
the push follows the eighteenth attempt. -/
theorem pollAll_dead_world_evaluated :
    (pollAll deadWorld Ctx.background sampleMonitorConfig sampleEthAccounts sampleInkAccounts
        none sampleState).1.map DoResult.calls = [3, 3, 3, 3, 3, 3] ∧
    (pollAll deadWorld Ctx.background sampleMonitorConfig sampleEthAccounts sampleInkAccounts
        none sampleState).2.clock = 18 ∧
    pushCount (pollAll deadWorld Ctx.background sampleMonitorConfig sampleEthAccounts
        sampleInkAccounts none sampleState).2.events = 1 := by
  decide

/-- The tick on nodes that fail every call, event by event: the start line, the error line
of each of the six polls in the order of the contracts, the push, its log line. -/
theorem pollAll_dead_world_events :
    (pollAll deadWorld Ctx.background sampleMonitorConfig sampleEthAccounts sampleInkAccounts
        none sampleState).2.events.map
      (fun e => match e with
        | SchedEvent.logPollAll => "start"
        | SchedEvent.logPollFailed chain _ name _ => "failed " ++ chain ++ " " ++ name
        | SchedEvent.push _ => "push"
        | SchedEvent.metricsLog _ => "metrics log"
        | _ => "other")
      = ["start", "failed ethereum super_chain_config", "failed ethereum ink_optimism_portal",
         "failed ethereum l1_standard_bridge", "failed ink aave_protocol_data_provider",
         "failed ink chaos_push_oracle", "failed ink variable_debt_InkWlWETH", "push",
         "metrics log"] := by
  decide

/-! ## The withdrawal batch and its submission -/

theorem filterMap_toRpc (evs : List RpcEvent) :
    (evs.map WithdrawEvent.rpc).filterMap WithdrawEvent.toRpc = evs := by
  induction evs with
  | nil => rfl
  | cons x xs ih => simp [WithdrawEvent.toRpc, ih]

theorem withdrawSubmitted_map (evs : List RpcEvent) :
    withdrawSubmitted (evs.map WithdrawEvent.rpc) = submitted evs := by
  unfold withdrawSubmitted
  rw [filterMap_toRpc]

theorem withdrawSubmitted_map_log (evs : List RpcEvent) (h : String) :
    withdrawSubmitted (evs.map WithdrawEvent.rpc ++ [WithdrawEvent.logSent h])
      = submitted evs := by
  unfold withdrawSubmitted
  rw [List.filterMap_append, filterMap_toRpc]
  simp [WithdrawEvent.toRpc]

/-- Every way `SendTransaction` can end: a hash only after a submit that succeeded; an error
either before any submit or from the one submit itself. -/
theorem sendTransaction_outcome (d : Delegate) (rpc : ChainRPC) (sender dest : String)
    (value : Int) (data : List Byte) (res : Except GoError String) (evs : List RpcEvent)
    (h : d.SendTransaction rpc sender dest value data = some (res, evs)) :
    (∀ hash, res = .ok hash → ∃ stx, submitted evs = [stx] ∧ rpc.sendTransaction stx = none) ∧
    (∀ e, res = .error e →
      submitted evs = [] ∨ ∃ stx, submitted evs = [stx] ∧ rpc.sendTransaction stx = some e) := by
  unfold Delegate.SendTransaction at h
  cases h1 : rpc.pendingNonceAt (rpc.botAddress d.privateKey) with
  | error e =>
    simp only [h1, Option.some.injEq, Prod.mk.injEq] at h
    obtain ⟨rfl, rfl⟩ := h
    exact ⟨fun _ hh => (by cases hh), fun _ _ => Or.inl (by simp [submitted])⟩
  | ok nonce =>
    cases h2 : rpc.chainID with
    | error e =>
      simp only [h1, h2, Option.some.injEq, Prod.mk.injEq] at h
      obtain ⟨rfl, rfl⟩ := h
      exact ⟨fun _ hh => (by cases hh), fun _ _ => Or.inl (by simp [submitted])⟩
    | ok chainID =>
      cases h3 : rpc.estimateGas sender dest value data with
      | error e =>
        simp only [h1, h2, h3, Option.some.injEq, Prod.mk.injEq] at h
        obtain ⟨rfl, rfl⟩ := h
        exact ⟨fun _ hh => (by cases hh), fun _ _ => Or.inl (by simp [submitted])⟩
      | ok estimate =>
        cases h4 : rpc.suggestGasTipCap with
        | error e =>
          simp only [h1, h2, h3, h4, Option.some.injEq, Prod.mk.injEq] at h
          obtain ⟨rfl, rfl⟩ := h
          exact ⟨fun _ hh => (by cases hh), fun _ _ => Or.inl (by simp [submitted])⟩
        | ok tip =>
          cases h5 : rpc.headerBaseFee with
          | error e =>
            simp only [h1, h2, h3, h4, h5, Option.some.injEq, Prod.mk.injEq] at h
            obtain ⟨rfl, rfl⟩ := h
            exact ⟨fun _ hh => (by cases hh), fun _ _ => Or.inl (by simp [submitted])⟩
          | ok base =>
            cases base with
            | none => simp [h1, h2, h3, h4, h5] at h
            | some baseFee =>
              simp only [h1, h2, h3, h4, h5] at h
              cases h6 : rpc.signTx ⟨chainID, nonce, tip, tip + baseFee * 2,
                  if estimate < 3000000 then 3000000 else estimate, dest, value, data⟩
                  chainID d.privateKey with
              | error e =>
                simp only [h6, Option.some.injEq, Prod.mk.injEq] at h
                obtain ⟨rfl, rfl⟩ := h
                exact ⟨fun _ hh => (by cases hh), fun _ _ => Or.inl (by simp [submitted])⟩
              | ok stx =>
                simp only [h6] at h
                cases h7 : rpc.sendTransaction stx with
                | some e =>
                  simp only [h7, Option.some.injEq, Prod.mk.injEq] at h
                  obtain ⟨rfl, rfl⟩ := h
                  refine ⟨fun _ hh => (by cases hh), fun e2 he2 => Or.inr ⟨stx, ?_, ?_⟩⟩
                  · simp [submitted]
                  · cases he2
                    exact h7
                | none =>
                  simp only [h7, Option.some.injEq, Prod.mk.injEq] at h
                  obtain ⟨rfl, rfl⟩ := h
                  refine ⟨fun _ _ => ⟨stx, by simp [submitted], h7⟩, fun _ hh => by cases hh⟩

/-- A failure of one of the six steps of `SendTransaction` before the submit (the steps
before it having succeeded) is returned, and nothing is submitted. -/
theorem sendTransaction_step_failure (d : Delegate) (rpc : ChainRPC) (sender dest : String)
    (value : Int) (data : List Byte) (e : GoError)
    (h : rpc.pendingNonceAt (rpc.botAddress d.privateKey) = .error e ∨
      (∃ nonce, rpc.pendingNonceAt (rpc.botAddress d.privateKey) = .ok nonce ∧
        (rpc.chainID = .error e ∨
        ∃ chainID, rpc.chainID = .ok chainID ∧
          (rpc.estimateGas sender dest value data = .error e ∨
          ∃ g, rpc.estimateGas sender dest value data = .ok g ∧
            (rpc.suggestGasTipCap = .error e ∨
            ∃ t, rpc.suggestGasTipCap = .ok t ∧
              (rpc.headerBaseFee = .error e ∨
              ∃ b, rpc.headerBaseFee = .ok (some b) ∧
                rpc.signTx ⟨chainID, nonce, t, t + b * 2,
                  if g < 3000000 then 3000000 else g, dest, value, data⟩
                  chainID d.privateKey = .error e)))))) :
    ∃ evs, d.SendTransaction rpc sender dest value data = some (.error e, evs) ∧
      submitted evs = [] := by
  unfold Delegate.SendTransaction
  rcases h with h1 | ⟨nonce, h1, h⟩
  · simp only [h1]
    exact ⟨_, rfl, by simp [submitted]⟩
  rcases h with h2 | ⟨chainID, h2, h⟩
  · simp only [h1, h2]
    exact ⟨_, rfl, by simp [submitted]⟩
  rcases h with h3 | ⟨g, h3, h⟩
  · simp only [h1, h2, h3]
    exact ⟨_, rfl, by simp [submitted]⟩
  rcases h with h4 | ⟨t, h4, h⟩
  · simp only [h1, h2, h3, h4]
    exact ⟨_, rfl, by simp [submitted]⟩
  rcases h with h5 | ⟨b, h5, h6⟩
  · simp only [h1, h2, h3, h4, h5]
    exact ⟨_, rfl, by simp [submitted]⟩
  · simp only [h1, h2, h3, h4, h5, h6]
    exact ⟨_, rfl, by simp [submitted]⟩

/-- `SendTransaction` returns unless the latest header has no base fee. -/
theorem sendTransaction_none (d : Delegate) (rpc : ChainRPC) (sender dest : String)
    (value : Int) (data : List Byte)
    (h : d.SendTransaction rpc sender dest value data = none) :
    rpc.headerBaseFee = .ok none := by
  unfold Delegate.SendTransaction at h
  cases h1 : rpc.pendingNonceAt (rpc.botAddress d.privateKey) with
  | error e => simp [h1] at h
  | ok nonce =>
    cases h2 : rpc.chainID with
    | error e => simp [h1, h2] at h
    | ok chainID =>
      cases h3 : rpc.estimateGas sender dest value data with
      | error e => simp [h1, h2, h3] at h
      | ok estimate =>
        cases h4 : rpc.suggestGasTipCap with
        | error e => simp [h1, h2, h3, h4] at h
        | ok tip =>
          cases h5 : rpc.headerBaseFee with
          | error e => simp [h1, h2, h3, h4, h5] at h
          | ok base =>
            cases base with
            | none => rfl
            | some baseFee =>
              simp only [h1, h2, h3, h4, h5] at h
              cases h6 : rpc.signTx ⟨chainID, nonce, tip, tip + baseFee * 2,
                  if estimate < 3000000 then 3000000 else estimate, dest, value, data⟩
                  chainID d.privateKey with
              | error e => simp [h6] at h
              | ok stx =>
                simp only [h6] at h
                cases h7 : rpc.sendTransaction stx <;> simp [h7] at h

/-- The builders return the error of the parse or of the packing. -/
theorem build_errors (lib : AbiLib) (spender arg0 dest : String) (amount : Int) (e : GoError) :
    (buildAtokenApproval lib spender amount = .error e ↔
      lib.atoken = .error e ∨
      ∃ p, lib.atoken = .ok p ∧
        p "approve" [AbiArg.address spender, AbiArg.uint amount] = .error e) ∧
    (buildGatewayV3WithdrawETH lib arg0 dest amount = .error e ↔
      lib.gatewayV3 = .error e ∨
      ∃ p, lib.gatewayV3 = .ok p ∧
        p "withdrawETH" [AbiArg.address arg0, AbiArg.uint amount, AbiArg.address dest]
          = .error e) := by
  constructor
  · unfold buildAtokenApproval
    cases h1 : lib.atoken with
    | error e1 => simp
    | ok p =>
      cases h2 : p "approve" [AbiArg.address spender, AbiArg.uint amount] <;> simp [h2]
  · unfold buildGatewayV3WithdrawETH
    cases h1 : lib.gatewayV3 with
    | error e1 => simp
    | ok p =>
      cases h2 : p "withdrawETH"
        [AbiArg.address arg0, AbiArg.uint amount, AbiArg.address dest] <;> simp [h2]

/-- The loop of `buildSafeExecTransactions` keeps the order: entry `i` is made of `addrs[i]`,
`values[i]` and `datas[i]`, with flag 0 and empty hint and extra. -/
theorem safeCallDatas_spec :
    ∀ (addrs : List String) (values : List Int) (datas : List (List Byte))
      (cs : List SafeCallData),
      safeCallDatas addrs values datas = some cs →
      cs.length = addrs.length ∧ cs.map SafeCallData.To = addrs ∧
      cs.map SafeCallData.Value = values.take addrs.length ∧
      cs.map SafeCallData.Data = datas.take addrs.length ∧
      ∀ c ∈ cs, c.Flag = 0 ∧ c.Hint = [] ∧ c.Extra = []
  | [], values, datas, cs, h => by
    simp only [safeCallDatas, Option.some.injEq] at h
    subst h
    simp
  | a :: addrs, [], datas, cs, h => by simp [safeCallDatas] at h
  | a :: addrs, v :: values, [], cs, h => by simp [safeCallDatas] at h
  | a :: addrs, v :: values, d :: datas, cs, h => by
    simp only [safeCallDatas, Option.map_eq_some'] at h
    obtain ⟨rest, hrest, rfl⟩ := h
    obtain ⟨h1, h2, h3, h4, h5⟩ := safeCallDatas_spec addrs values datas rest hrest
    refine ⟨by simp [h1], by simp [h2], by simp [h3], by simp [h4], ?_⟩
    intro c hc
    rcases List.mem_cons.1 hc with rfl | hc
    · exact ⟨rfl, rfl, rfl⟩
    · exact h5 c hc

/-- The loop ends without a panic exactly when neither `values` nor `datas` is shorter than
`addrs`. -/
theorem safeCallDatas_isSome :
    ∀ (addrs : List String) (values : List Int) (datas : List (List Byte)),
      (safeCallDatas addrs values datas).isSome = true ↔
        addrs.length ≤ values.length ∧ addrs.length ≤ datas.length
  | [], values, datas => by simp [safeCallDatas]
  | a :: addrs, [], datas => by simp [safeCallDatas]
  | a :: addrs, v :: values, [] => by simp [safeCallDatas]
  | a :: addrs, v :: values, d :: datas => by
    have ih := safeCallDatas_isSome addrs values datas
    simp only [safeCallDatas, Option.isSome_map', List.length_cons, Nat.add_le_add_iff_right]
    exact ih

/-- The body of `WithdrawETHFromGatewayV3` after the two sub-calls are built. -/
theorem withdraw_after_builds (d : Delegate) (lib : AbiLib) (rpc : ChainRPC) (amount : Int)
    (a wd : List Byte) (ha : buildAtokenApproval lib GateWayV3 amount = .ok a)
    (hwd : buildGatewayV3WithdrawETH lib InkBridgeProxy d.safe amount = .ok wd) :
    d.WithdrawETHFromGatewayV3 lib rpc amount
      = match buildSafeExecTransactions lib [AInkWlWETH, GateWayV3] [0, 0] [a, wd] with
        | none => none
        | some (.error e) => some (some e, [])
        | some (.ok safeExecData) =>
          match d.SendTransaction rpc (rpc.botAddress d.privateKey) d.argus 0 safeExecData with
          | none => none
          | some (.error e, evs) => some (some e, evs.map WithdrawEvent.rpc)
          | some (.ok txHash, evs) =>
            some (none, evs.map WithdrawEvent.rpc ++ [WithdrawEvent.logSent txHash]) := by
  unfold Delegate.WithdrawETHFromGatewayV3
  simp only [ha, hwd]

/-- C22. For every amount, once the two sub-calls are built, the batch that
`WithdrawETHFromGatewayV3` hands to the packer of `execTransactions` has exactly two entries,
in this order: the token `AInkWlWETH` with the calldata of `approve(GateWayV3, amount)`, then
`GateWayV3` with the calldata of `withdrawETH(InkBridgeProxy, amount, safe)`, both with value
0, flag 0 and empty hint and extra; and the loop of `buildSafeExecTransactions` makes, for
input lists of one length, a list of that length whose entry `i` holds `addrs[i]`,
`values[i]` and `datas[i]` (for all lists: it ends without panic exactly when `values` and
`datas` are at least as long as `addrs`, and keeps the first `len(addrs)` of each). -/
theorem withdraw_batch :
    (∀ (lib : AbiLib) (spender arg0 dest : String) (amount : Int) (p : Packer),
      (lib.atoken = .ok p → buildAtokenApproval lib spender amount
        = p "approve" [AbiArg.address spender, AbiArg.uint amount]) ∧
      (lib.gatewayV3 = .ok p → buildGatewayV3WithdrawETH lib arg0 dest amount
        = p "withdrawETH" [AbiArg.address arg0, AbiArg.uint amount, AbiArg.address dest])) ∧
    (∀ (d : Delegate) (lib : AbiLib) (rpc : ChainRPC) (amount : Int) (a wd : List Byte)
      (safe : Packer),
      buildAtokenApproval lib GateWayV3 amount = .ok a →
      buildGatewayV3WithdrawETH lib InkBridgeProxy d.safe amount = .ok wd →
      lib.safe = .ok safe →
      safeCallDatas [AInkWlWETH, GateWayV3] [0, 0] [a, wd]
        = some [⟨0, AInkWlWETH, 0, a, [], []⟩, ⟨0, GateWayV3, 0, wd, [], []⟩] ∧
      d.WithdrawETHFromGatewayV3 lib rpc amount
        = match safe "execTransactions"
            [AbiArg.calls [⟨0, AInkWlWETH, 0, a, [], []⟩, ⟨0, GateWayV3, 0, wd, [], []⟩]] with
          | .error e => some (some e, [])
          | .ok safeExecData =>
            match d.SendTransaction rpc (rpc.botAddress d.privateKey) d.argus 0 safeExecData
              with
            | none => none
            | some (.error e, evs) => some (some e, evs.map WithdrawEvent.rpc)
            | some (.ok txHash, evs) =>
              some (none, evs.map WithdrawEvent.rpc ++ [WithdrawEvent.logSent txHash])) ∧
    (∀ (lib : AbiLib) (addrs : List String) (values : List Int) (datas : List (List Byte))
      (safe : Packer),
      addrs.length = values.length → addrs.length = datas.length → lib.safe = .ok safe →
      ∃ cs, safeCallDatas addrs values datas = some cs ∧
        buildSafeExecTransactions lib addrs values datas
          = some (safe "execTransactions" [AbiArg.calls cs]) ∧
        cs.length = addrs.length ∧ cs.map SafeCallData.To = addrs ∧
        cs.map SafeCallData.Value = values ∧ cs.map SafeCallData.Data = datas ∧
        ∀ c ∈ cs, c.Flag = 0 ∧ c.Hint = [] ∧ c.Extra = []) ∧
    (∀ (addrs : List String) (values : List Int) (datas : List (List Byte)),
      ((safeCallDatas addrs values datas).isSome = true ↔
        addrs.length ≤ values.length ∧ addrs.length ≤ datas.length) ∧
      ∀ cs, safeCallDatas addrs values datas = some cs →
        cs.length = addrs.length ∧ cs.map SafeCallData.To = addrs ∧
        cs.map SafeCallData.Value = values.take addrs.length ∧
        cs.map SafeCallData.Data = datas.take addrs.length) := by
  refine ⟨?_, ?_, ?_, ?_⟩
  · intro lib spender arg0 dest amount p
    constructor
    · intro h
      unfold buildAtokenApproval
      simp only [h]
      cases p "approve" [AbiArg.address spender, AbiArg.uint amount] <;> rfl
    · intro h
      unfold buildGatewayV3WithdrawETH
      simp only [h]
      cases p "withdrawETH"
        [AbiArg.address arg0, AbiArg.uint amount, AbiArg.address dest] <;> rfl
  · intro d lib rpc amount a wd safe ha hwd hsafe
    refine ⟨rfl, ?_⟩
    rw [withdraw_after_builds d lib rpc amount a wd ha hwd]
    unfold buildSafeExecTransactions
    simp only [hsafe, safeCallDatas, Option.map_some']
    cases safe "execTransactions"
      [AbiArg.calls [⟨0, AInkWlWETH, 0, a, [], []⟩, ⟨0, GateWayV3, 0, wd, [], []⟩]] <;> rfl
  · intro lib addrs values datas safe hv hd hsafe
    have hsome := (safeCallDatas_isSome addrs values datas).2 ⟨le_of_eq hv, le_of_eq hd⟩
    obtain ⟨cs, hcs⟩ := Option.isSome_iff_exists.1 hsome
    obtain ⟨h1, h2, h3, h4, h5⟩ := safeCallDatas_spec addrs values datas cs hcs
    refine ⟨cs, hcs, ?_, h1, h2, ?_, ?_, h5⟩
    · unfold buildSafeExecTransactions
      simp only [hsafe, hcs]
      cases safe "execTransactions" [AbiArg.calls cs] <;> rfl
    · rw [h3, hv, List.take_length]
    · rw [h4, hd, List.take_length]
  · intro addrs values datas
    refine ⟨safeCallDatas_isSome addrs values datas, ?_⟩
    intro cs hcs
    obtain ⟨h1, h2, h3, h4, _⟩ := safeCallDatas_spec addrs values datas cs hcs
    exact ⟨h1, h2, h3, h4⟩

/-- C22 at the sample delegate and an amount of `10^18`, with a packer that answers every
call. -/
theorem withdraw_batch_witness :
    (safeCallDatas [AInkWlWETH, GateWayV3] [0, 0] [[7, 1, 2], [11, 1, 2, 1]]
        = some [⟨0, AInkWlWETH, 0, [7, 1, 2], [], []⟩,
            ⟨0, GateWayV3, 0, [11, 1, 2, 1], [], []⟩] ∧
      sampleDelegate.WithdrawETHFromGatewayV3 sampleAbiLib (sampleRPC 21000 2 10)
          1000000000000000000
        = match samplePacker "execTransactions"
            [AbiArg.calls [⟨0, AInkWlWETH, 0, [7, 1, 2], [], []⟩,
              ⟨0, GateWayV3, 0, [11, 1, 2, 1], [], []⟩]] with
          | .error e => some (some e, [])
          | .ok safeExecData =>
            match sampleDelegate.SendTransaction (sampleRPC 21000 2 10)
                ((sampleRPC 21000 2 10).botAddress sampleDelegate.privateKey)
                sampleDelegate.argus 0 safeExecData with
            | none => none
            | some (.error e, evs) => some (some e, evs.map WithdrawEvent.rpc)
            | some (.ok txHash, evs) =>
              some (none, evs.map WithdrawEvent.rpc ++ [WithdrawEvent.logSent txHash])) ∧
    ∃ cs, safeCallDatas ["0xa", "0xb", "0xc"] [1, 2, 3] [[1], [2], [3]] = some cs ∧
      buildSafeExecTransactions sampleAbiLib ["0xa", "0xb", "0xc"] [1, 2, 3] [[1], [2], [3]]
        = some (samplePacker "execTransactions" [AbiArg.calls cs]) ∧
      cs.length = ["0xa", "0xb", "0xc"].length ∧
      cs.map SafeCallData.To = ["0xa", "0xb", "0xc"] ∧
      cs.map SafeCallData.Value = [1, 2, 3] ∧ cs.map SafeCallData.Data = [[1], [2], [3]] ∧
      ∀ c ∈ cs, c.Flag = 0 ∧ c.Hint = [] ∧ c.Extra = [] :=
  ⟨withdraw_batch.2.1 sampleDelegate sampleAbiLib (sampleRPC 21000 2 10) 1000000000000000000
      [7, 1, 2] [11, 1, 2, 1] samplePacker rfl rfl rfl,
    withdraw_batch.2.2.1 sampleAbiLib ["0xa", "0xb", "0xc"] [1, 2, 3] [[1], [2], [3]]
      samplePacker rfl rfl rfl⟩

/-- C21. `WithdrawETHFromGatewayV3` submits all or nothing.  Whenever it returns, it returns
nil exactly when one transaction was handed to the submit operation and the submit
succeeded, and an error either with nothing submitted or as the error of the one submit.  A
failure of building the approval or the withdrawal call (parsing the ABI or packing), of
packing the batch, or, these built, of fetching the nonce, the chain id, the gas estimate,
the priority fee or the latest header, or of signing, is returned as it is, with the submit
operation never invoked.  The function returns except where the latest header has no base
fee. -/
theorem withdraw_all_or_nothing (d : Delegate) (lib : AbiLib) (rpc : ChainRPC)
    (amount : Int) :
    (∀ r evs, d.WithdrawETHFromGatewayV3 lib rpc amount = some (r, evs) →
      (r = none ↔ ∃ stx, withdrawSubmitted evs = [stx] ∧ rpc.sendTransaction stx = none) ∧
      (∀ e, r = some e → withdrawSubmitted evs = [] ∨
        ∃ stx, withdrawSubmitted evs = [stx] ∧ rpc.sendTransaction stx = some e)) ∧
    (∀ e,
      (buildAtokenApproval lib GateWayV3 amount = .error e ∨
        ∃ a, buildAtokenApproval lib GateWayV3 amount = .ok a ∧
          (buildGatewayV3WithdrawETH lib InkBridgeProxy d.safe amount = .error e ∨
          ∃ wd, buildGatewayV3WithdrawETH lib InkBridgeProxy d.safe amount = .ok wd ∧
            buildSafeExecTransactions lib [AInkWlWETH, GateWayV3] [0, 0] [a, wd]
              = some (.error e))) →
      d.WithdrawETHFromGatewayV3 lib rpc amount = some (some e, [])) ∧
    (∀ e spender arg0 dest,
      (buildAtokenApproval lib spender amount = .error e ↔
        lib.atoken = .error e ∨
        ∃ p, lib.atoken = .ok p ∧
          p "approve" [AbiArg.address spender, AbiArg.uint amount] = .error e) ∧
      (buildGatewayV3WithdrawETH lib arg0 dest amount = .error e ↔
        lib.gatewayV3 = .error e ∨
        ∃ p, lib.gatewayV3 = .ok p ∧
          p "withdrawETH" [AbiArg.address arg0, AbiArg.uint amount, AbiArg.address dest]
            = .error e)) ∧
    (∀ a wd data e,
      buildAtokenApproval lib GateWayV3 amount = .ok a →
      buildGatewayV3WithdrawETH lib InkBridgeProxy d.safe amount = .ok wd →
      buildSafeExecTransactions lib [AInkWlWETH, GateWayV3] [0, 0] [a, wd] = some (.ok data) →
      (rpc.pendingNonceAt (rpc.botAddress d.privateKey) = .error e ∨
        (∃ nonce, rpc.pendingNonceAt (rpc.botAddress d.privateKey) = .ok nonce ∧
          (rpc.chainID = .error e ∨
          ∃ chainID, rpc.chainID = .ok chainID ∧
            (rpc.estimateGas (rpc.botAddress d.privateKey) d.argus 0 data = .error e ∨
            ∃ g, rpc.estimateGas (rpc.botAddress d.privateKey) d.argus 0 data = .ok g ∧
              (rpc.suggestGasTipCap = .error e ∨
              ∃ t, rpc.suggestGasTipCap = .ok t ∧
                (rpc.headerBaseFee = .error e ∨
                ∃ b, rpc.headerBaseFee = .ok (some b) ∧
                  rpc.signTx ⟨chainID, nonce, t, t + b * 2,
                    if g < 3000000 then 3000000 else g, d.argus, 0, data⟩
                    chainID d.privateKey = .error e)))))) →
      ∃ evs, d.WithdrawETHFromGatewayV3 lib rpc amount = some (some e, evs) ∧
        withdrawSubmitted evs = []) ∧
    (d.WithdrawETHFromGatewayV3 lib rpc amount = none → rpc.headerBaseFee = .ok none) := by
  have hbuilt : ∀ a wd data,
      buildAtokenApproval lib GateWayV3 amount = .ok a →
      buildGatewayV3WithdrawETH lib InkBridgeProxy d.safe amount = .ok wd →
      buildSafeExecTransactions lib [AInkWlWETH, GateWayV3] [0, 0] [a, wd] = some (.ok data) →
      d.WithdrawETHFromGatewayV3 lib rpc amount
        = match d.SendTransaction rpc (rpc.botAddress d.privateKey) d.argus 0 data with
          | none => none
          | some (.error e, evs) => some (some e, evs.map WithdrawEvent.rpc)
          | some (.ok txHash, evs) =>
            some (none, evs.map WithdrawEvent.rpc ++ [WithdrawEvent.logSent txHash]) := by
    intro a wd data ha hwd hb
    rw [withdraw_after_builds d lib rpc amount a wd ha hwd, hb]
  have hnoSafePanic : ∀ a wd,
      buildSafeExecTransactions lib [AInkWlWETH, GateWayV3] [0, 0] [a, wd] ≠ none := by
    intro a wd
    unfold buildSafeExecTransactions
    cases lib.safe with
    | error e => simp
    | ok safe =>
      simp only [safeCallDatas, Option.map_some']
      cases safe "execTransactions"
        [AbiArg.calls [⟨0, AInkWlWETH, 0, a, [], []⟩, ⟨0, GateWayV3, 0, wd, [], []⟩]] <;> simp
  have hearly : ∀ r evs, d.WithdrawETHFromGatewayV3 lib rpc amount = some (r, evs) →
      (∃ e, r = some e ∧ evs = []) ∨
      ∃ data res revs,
        d.SendTransaction rpc (rpc.botAddress d.privateKey) d.argus 0 data = some (res, revs) ∧
        ((∃ e, res = .error e ∧ r = some e ∧ evs = revs.map WithdrawEvent.rpc) ∨
         (∃ h, res = .ok h ∧ r = none ∧
            evs = revs.map WithdrawEvent.rpc ++ [WithdrawEvent.logSent h])) := by
    intro r evs h
    cases ha : buildAtokenApproval lib GateWayV3 amount with
    | error e =>
      simp only [Delegate.WithdrawETHFromGatewayV3, ha, Option.some.injEq, Prod.mk.injEq] at h
      exact Or.inl ⟨e, h.1.symm, h.2.symm⟩
    | ok a =>
      cases hwd : buildGatewayV3WithdrawETH lib InkBridgeProxy d.safe amount with
      | error e =>
        simp only [Delegate.WithdrawETHFromGatewayV3, ha, hwd, Option.some.injEq,
          Prod.mk.injEq] at h
        exact Or.inl ⟨e, h.1.symm, h.2.symm⟩
      | ok wd =>
        rw [withdraw_after_builds d lib rpc amount a wd ha hwd] at h
        cases hb : buildSafeExecTransactions lib [AInkWlWETH, GateWayV3] [0, 0] [a, wd] with
        | none => exact absurd hb (hnoSafePanic a wd)
        | some b =>
          cases b with
          | error e =>
            simp only [hb, Option.some.injEq, Prod.mk.injEq] at h
            exact Or.inl ⟨e, h.1.symm, h.2.symm⟩
          | ok data =>
            simp only [hb] at h
            cases hs : d.SendTransaction rpc (rpc.botAddress d.privateKey) d.argus 0 data with
            | none => simp [hs] at h
            | some q =>
              rcases q with ⟨res, revs⟩
              cases res with
              | error e =>
                simp only [hs, Option.some.injEq, Prod.mk.injEq] at h
                exact Or.inr ⟨data, _, revs, hs, Or.inl ⟨e, rfl, h.1.symm, h.2.symm⟩⟩
              | ok hash =>
                simp only [hs, Option.some.injEq, Prod.mk.injEq] at h
                exact Or.inr ⟨data, _, revs, hs, Or.inr ⟨hash, rfl, h.1.symm, h.2.symm⟩⟩
  have hgen : ∀ r evs, d.WithdrawETHFromGatewayV3 lib rpc amount = some (r, evs) →
      (r = none → ∃ stx, withdrawSubmitted evs = [stx] ∧ rpc.sendTransaction stx = none) ∧
      (∀ e, r = some e → withdrawSubmitted evs = [] ∨
        ∃ stx, withdrawSubmitted evs = [stx] ∧ rpc.sendTransaction stx = some e) := by
    intro r evs h
    rcases hearly r evs h with ⟨e, rfl, rfl⟩ | ⟨data, res, revs, hs, hcase⟩
    · exact ⟨fun hn => (by cases hn), fun _ _ => Or.inl rfl⟩
    · obtain ⟨hok, herr⟩ := sendTransaction_outcome d rpc _ _ _ _ res revs hs
      rcases hcase with ⟨e, rfl, rfl, rfl⟩ | ⟨hash, rfl, rfl, rfl⟩
      · refine ⟨fun hn => (by cases hn), fun e2 he2 => ?_⟩
        cases he2
        rw [withdrawSubmitted_map]
        exact herr e rfl
      · refine ⟨fun _ => ?_, fun e2 he2 => by cases he2⟩
        rw [withdrawSubmitted_map_log]
        exact hok hash rfl
  refine ⟨?_, ?_, ?_, ?_, ?_⟩
  · intro r evs h
    obtain ⟨h1, h2⟩ := hgen r evs h
    refine ⟨⟨h1, ?_⟩, h2⟩
    rintro ⟨stx, hsub, hsend⟩
    cases r with
    | none => rfl
    | some e =>
      rcases h2 e rfl with hnil | ⟨stx2, hsub2, hsend2⟩
      · rw [hnil] at hsub
        cases hsub
      · rw [hsub2] at hsub
        cases hsub
        rw [hsend] at hsend2
        cases hsend2
  · intro e h
    rcases h with ha | ⟨a, ha, h⟩
    · simp only [Delegate.WithdrawETHFromGatewayV3, ha]
    rcases h with hwd | ⟨wd, hwd, hb⟩
    · simp only [Delegate.WithdrawETHFromGatewayV3, ha, hwd]
    · rw [withdraw_after_builds d lib rpc amount a wd ha hwd, hb]
  · intro e spender arg0 dest
    exact build_errors lib spender arg0 dest amount e
  · intro a wd data e ha hwd hb hstep
    obtain ⟨evs, hs, hsub⟩ := sendTransaction_step_failure d rpc (rpc.botAddress d.privateKey)
      d.argus 0 data e hstep
    refine ⟨evs.map WithdrawEvent.rpc, ?_, ?_⟩
    · rw [hbuilt a wd data ha hwd hb, hs]
    · rw [withdrawSubmitted_map, hsub]
  · intro hnone
    cases ha : buildAtokenApproval lib GateWayV3 amount with
    | error e => simp [Delegate.WithdrawETHFromGatewayV3, ha] at hnone
    | ok a =>
      cases hwd : buildGatewayV3WithdrawETH lib InkBridgeProxy d.safe amount with
      | error e => simp [Delegate.WithdrawETHFromGatewayV3, ha, hwd] at hnone
      | ok wd =>
        rw [withdraw_after_builds d lib rpc amount a wd ha hwd] at hnone
        cases hb : buildSafeExecTransactions lib [AInkWlWETH, GateWayV3] [0, 0] [a, wd] with
        | none => exact absurd hb (hnoSafePanic a wd)
        | some b =>
          cases b with
          | error e => simp [hb] at hnone
          | ok data =>
            simp only [hb] at hnone
            cases hs : d.SendTransaction rpc (rpc.botAddress d.privateKey) d.argus 0 data with
            | none => exact sendTransaction_none d rpc _ _ _ _ hs
            | some q =>
              rcases q with ⟨res, revs⟩
              cases res <;> simp [hs] at hnone

/-- C21 on three runs: everything succeeds (nil, one submit); the safe ABI does not parse
(its error, no event); the chain id cannot be fetched (its error, nothing submitted). -/
theorem withdraw_all_or_nothing_witness :
    (∃ evs, sampleDelegate.WithdrawETHFromGatewayV3 sampleAbiLib (sampleRPC 21000 2 10)
        1000000000000000000 = some (none, evs) ∧
      ((none : Option GoError) = none ↔
        ∃ stx, withdrawSubmitted evs = [stx] ∧
          (sampleRPC 21000 2 10).sendTransaction stx = none)) ∧
    sampleDelegate.WithdrawETHFromGatewayV3 brokenSafeLib (sampleRPC 21000 2 10)
        1000000000000000000 = some (some (GoError.leaf "invalid character"), []) ∧
    (∃ evs, sampleDelegate.WithdrawETHFromGatewayV3 sampleAbiLib failingChainRPC
        1000000000000000000 = some (some (GoError.leaf "connection refused"), evs) ∧
      withdrawSubmitted evs = []) :=
  ⟨⟨_, rfl, ((withdraw_all_or_nothing sampleDelegate sampleAbiLib (sampleRPC 21000 2 10)
      1000000000000000000).1 none _ rfl).1⟩,
    (withdraw_all_or_nothing sampleDelegate brokenSafeLib (sampleRPC 21000 2 10)
      1000000000000000000).2.1 (GoError.leaf "invalid character")
      (Or.inr ⟨[7, 1, 2], rfl, Or.inr ⟨[11, 1, 2, 1], rfl, rfl⟩⟩),
    (withdraw_all_or_nothing sampleDelegate sampleAbiLib failingChainRPC
      1000000000000000000).2.2.2.1 [7, 1, 2] [11, 1, 2, 1] [16, 5]
      (GoError.leaf "connection refused") rfl rfl rfl (Or.inr ⟨7, rfl, Or.inl rfl⟩)⟩

end InkEthMonitor
